import Mathlib

/-! Proof-of-stake block selection: the lottery program and the auction program.

A shallow embedding of `Random/random.go` (stake-weighted lottery) and
`Vic_gen/vic_gen.go` (bid-weighted second-price auction).

Conventions of the embedding:

* Go `int` is the 64-bit signed integer: a value is an `Int`, and the additions and
  subtractions of the programs on balances, bids and weights are reduced by
  `wrap64`. The ledger index is the one exception: it is kept unreduced (a ledger
  does not reach `2^63` blocks) and compared through `wrap64`.
* Go `string` is `String`; hashing goes through the UTF-8 bytes.
* Go `map[string]T` is an association list `List (String × T)` with distinct
  keys; iteration follows the list, and every list order is a possible Go
  iteration order. In the auction program a `*Node` is an index into the list of
  the nodes allocated so far.
* a Go panic is the result `none`.
* `time.Now().String()` and the values drawn from `math/rand` are explicit
  arguments of the operations that read them.
* every handler body and every `pickWinner` round is one atomic step; `recordBid`
  and `submitCandidate` are the two halves of a pass of the bidding loop, for the
  executions in which a round runs between them.
-/

namespace PoS

/-! ## SHA-256 and hex encoding (`crypto/sha256`, `encoding/hex`) -/

namespace Sha256

def K : List Nat :=
  [0x428a2f98, 0x71374491, 0xb5c0fbcf, 0xe9b5dba5, 0x3956c25b, 0x59f111f1, 0x923f82a4, 0xab1c5ed5,
   0xd807aa98, 0x12835b01, 0x243185be, 0x550c7dc3, 0x72be5d74, 0x80deb1fe, 0x9bdc06a7, 0xc19bf174,
   0xe49b69c1, 0xefbe4786, 0x0fc19dc6, 0x240ca1cc, 0x2de92c6f, 0x4a7484aa, 0x5cb0a9dc, 0x76f988da,
   0x983e5152, 0xa831c66d, 0xb00327c8, 0xbf597fc7, 0xc6e00bf3, 0xd5a79147, 0x06ca6351, 0x14292967,
   0x27b70a85, 0x2e1b2138, 0x4d2c6dfc, 0x53380d13, 0x650a7354, 0x766a0abb, 0x81c2c92e, 0x92722c85,
   0xa2bfe8a1, 0xa81a664b, 0xc24b8b70, 0xc76c51a3, 0xd192e819, 0xd6990624, 0xf40e3585, 0x106aa070,
   0x19a4c116, 0x1e376c08, 0x2748774c, 0x34b0bcb5, 0x391c0cb3, 0x4ed8aa4a, 0x5b9cca4f, 0x682e6ff3,
   0x748f82ee, 0x78a5636f, 0x84c87814, 0x8cc70208, 0x90befffa, 0xa4506ceb, 0xbef9a3f7, 0xc67178f2]

def H0 : List Nat :=
  [0x6a09e667, 0xbb67ae85, 0x3c6ef372, 0xa54ff53a, 0x510e527f, 0x9b05688c, 0x1f83d9ab, 0x5be0cd19]

def w32 : Nat := 4294967296

def rotr (x n : Nat) : Nat := ((x >>> n) ||| (x <<< (32 - n))) % w32

def bigSigma0 (x : Nat) : Nat := (rotr x 2 ^^^ rotr x 13) ^^^ rotr x 22
def bigSigma1 (x : Nat) : Nat := (rotr x 6 ^^^ rotr x 11) ^^^ rotr x 25
def smallSigma0 (x : Nat) : Nat := (rotr x 7 ^^^ rotr x 18) ^^^ (x >>> 3)
def smallSigma1 (x : Nat) : Nat := (rotr x 17 ^^^ rotr x 19) ^^^ (x >>> 10)
def ch (x y z : Nat) : Nat := (x &&& y) ^^^ ((w32 - 1 - x) &&& z)
def maj (x y z : Nat) : Nat := ((x &&& y) ^^^ (x &&& z)) ^^^ (y &&& z)

/-- Message padding: a `0x80` byte, zeros up to 56 mod 64, the bit length on 8 bytes. -/
def pad (msg : List Nat) : List Nat :=
  let l := msg.length
  let z := (119 - l % 64) % 64
  let bits := 8 * l
  msg ++ [128] ++ List.replicate z 0 ++
    (List.range 8).map (fun i => (bits >>> (8 * (7 - i))) % 256)

/-- Big-endian 32-bit words of a byte list. -/
def toWords : List Nat → List Nat
  | a :: b :: c :: d :: rest => (((a * 256 + b) * 256 + c) * 256 + d) :: toWords rest
  | _ => []

/-- Extends the schedule, kept most recent word first, by `n` further words. -/
def extend : Nat → List Nat → List Nat
  | 0, rev => rev
  | n + 1, rev =>
    let w := (smallSigma1 (rev.getD 1 0) + rev.getD 6 0 + smallSigma0 (rev.getD 14 0)
      + rev.getD 15 0) % w32
    extend n (w :: rev)

def schedule (block : List Nat) : List Nat := (extend 48 block.reverse).reverse

/-- One round of the compression function on the working variables `a .. h`. -/
def round (st : List Nat) (kw : Nat × Nat) : List Nat :=
  match st with
  | [a, b, c, d, e, f, g, h] =>
    let t1 := (h + bigSigma1 e + ch e f g + kw.1 + kw.2) % w32
    let t2 := (bigSigma0 a + maj a b c) % w32
    [(t1 + t2) % w32, a, b, c, (d + t1) % w32, e, f, g]
  | _ => st

def compress (hs : List Nat) (block : List Nat) : List Nat :=
  List.zipWith (fun x y => (x + y) % w32) hs ((K.zip (schedule block)).foldl round hs)

/-- Absorbs the padded message, 16 words at a time. -/
def absorb : Nat → List Nat → List Nat → List Nat
  | 0, hs, _ => hs
  | n + 1, hs, ws => absorb n (compress hs (ws.take 16)) (ws.drop 16)

def digestWords (msg : List Nat) : List Nat :=
  let ws := toWords (pad msg)
  absorb (ws.length / 16) H0 ws

def hexDigit (n : Nat) : Char := "0123456789abcdef".data.getD n '0'

/-- The 8 lower-case hex digits of a 32-bit word. -/
def hexWord (w : Nat) : List Char :=
  (List.range 8).map (fun i => hexDigit ((w >>> (4 * (7 - i))) % 16))

/-- UTF-8 encoding of one code point. -/
def utf8 (c : Nat) : List Nat :=
  if c < 128 then [c]
  else if c < 2048 then [192 + c / 64, 128 + c % 64]
  else if c < 65536 then [224 + c / 4096, 128 + (c / 64) % 64, 128 + c % 64]
  else [240 + c / 262144, 128 + (c / 4096) % 64, 128 + (c / 64) % 64, 128 + c % 64]

def bytes (s : String) : List Nat := s.data.flatMap (fun c => utf8 c.toNat)

end Sha256

/-- Hex SHA-256 digest of a string: `calculateHash` of both programs. -/
def calculateHash (s : String) : String :=
  String.mk ((Sha256.digestWords (Sha256.bytes s)).flatMap Sha256.hexWord)

/-! ## Data model -/

structure Block where
  Index : Int
  Timestamp : String
  BPM : Int
  Hash : String
  PrevHash : String
  Validator : String
  Proposer : String
  Transfer : Int
  deriving DecidableEq

structure Node where
  Address : String
  Balance : Int
  Bid : Int
  deriving DecidableEq

structure BidItem where
  NodeAddress : String
  Bid : Int
  deriving DecidableEq

/-- The zero value `Block{}`. -/
def Block.zero : Block := ⟨0, "", 0, "", "", "", "", 0⟩

/-- Go's conversion `string(i)` of an integer: the UTF-8 text of the code point `i`,
and U+FFFD when `i` is not a valid code point. -/
def runeString (i : Int) : String :=
  if 0 ≤ i ∧ (i < 55296 ∨ (57343 < i ∧ i ≤ 1114111)) then
    String.singleton (Char.ofNat i.toNat)
  else "�"

def calculateBlockHash (block : Block) : String :=
  let record := runeString block.Index ++ block.Timestamp ++ runeString block.BPM ++ block.PrevHash
  calculateHash record

/-- Reduction of an integer to the 64-bit signed value Go computes. -/
def wrap64 (x : Int) : Int :=
  (x + 9223372036854775808) % 18446744073709551616 - 9223372036854775808

/-- The values of Go's `int`. -/
@[reducible] def isInt64 (x : Int) : Prop :=
  -9223372036854775808 ≤ x ∧ x < 9223372036854775808

/-- The function `isBlockValid`; the first test compares the two `int` values, an
index of the model standing for the `int` it reduces to. -/
def isBlockValid (newBlock oldBlock : Block) : Bool :=
  if wrap64 (oldBlock.Index + 1) ≠ wrap64 newBlock.Index then false
  else if oldBlock.Hash ≠ newBlock.PrevHash then false
  else if calculateBlockHash newBlock ≠ newBlock.Hash then false
  else true

/-- The genesis block built by `main` at startup time `ts`. -/
def genesisBlock (ts : String) : Block :=
  ⟨0, ts, 0, calculateBlockHash Block.zero, "", "", "", 0⟩

/-! ## Go maps as association lists -/

/-- Lookup in the comma-ok form `v, ok := m[key]`. -/
def mapGet? {α : Type} : List (String × α) → String → Option α
  | [], _ => none
  | (k, v) :: rest, key => if k = key then some v else mapGet? rest key

/-- Assignment `m[key] = v`: replaces the entry of an existing key, adds one otherwise. -/
def mapSet {α : Type} : List (String × α) → String → α → List (String × α)
  | [], key, v => [(key, v)]
  | (k, x) :: rest, key, v => if k = key then (k, v) :: rest else (k, x) :: mapSet rest key v

/-- The keys of a map, in iteration order. -/
def mapKeys {α : Type} (m : List (String × α)) : List String := m.map Prod.fst

/-- Reading `weights[addr]` of a `map[string]int`: the zero value for a missing key. -/
def weightOf (weights : List (String × Int)) (addr : String) : Int :=
  (mapGet? weights addr).getD 0

/-- Sum of the balances of a registry. -/
def totalBalance (validators : List (String × Node)) : Int :=
  (validators.map (fun p => p.2.Balance)).sum

/-- Dereference of `validators[addr]` in the comma-ok form, for a registry of
pointers into `nodes`: the pointer and the node it points to. -/
def nodeAt (nodes : List Node) (validators : List (String × Nat)) (addr : String) :
    Option (Nat × Node) :=
  match mapGet? validators addr with
  | none => none
  | some p =>
    match nodes[p]? with
    | none => none
    | some node => some (p, node)

/-! ## The auction program (`Vic_gen/vic_gen.go`) -/

namespace Auction

structure State where
  Blockchain : List Block
  tempBlocks : List Block
  nodes : List Node
  validators : List (String × Nat)
  bids : List BidItem
  miningCost : Int
  deriving DecidableEq

/-- Nearest value with a 53-bit significand, ties to even: float64 rounding of a
non-negative integer (or of an integer numerator over a fixed power of two). -/
def round53 (x : Nat) : Nat :=
  let e := if x = 0 then 0 else Nat.log2 x + 1
  if e ≤ 53 then x
  else
    let s := e - 53
    let q := x >>> s
    let r := x % 2 ^ s
    let half := 2 ^ (s - 1)
    let q := if half < r ∨ (r = half ∧ q % 2 = 1) then q + 1 else q
    q <<< s

/-- The float64 nearest to `burnRate = 0.05` is `burnRateNum / 2^56`. -/
def burnRateNum : Nat := 3602879701896397

/-- The value `int(float64(cost) * burnRate)` stored by `updateMiningCost`. -/
def updateMiningCost (cost : Int) : Int :=
  let a := round53 cost.natAbs
  let p := round53 (a * burnRateNum)
  let m : Int := ((p / 2 ^ 56 : Nat) : Int)
  if cost < 0 then -m else m

def generateBlock (oldBlock : Block) (BPM : Int) (address : String) (ts : String) : Block :=
  let newBlock : Block :=
    { Block.zero with
      Index := oldBlock.Index + 1, Timestamp := ts, BPM := BPM, PrevHash := oldBlock.Hash }
  let newBlock := { newBlock with Hash := calculateBlockHash newBlock }
  { newBlock with Proposer := address }

/-- The first loop of `weightedWinner` and of `secondHighestBid`: entries with a
positive weight, in iteration order. -/
def positiveEntries (weights : List (String × Int)) : List (String × Int) :=
  weights.filter (fun p => decide (0 < p.2))

/-- The local `total` of `weightedWinner`: `total += weight` over the positive
entries. -/
def totalWeight (weights : List (String × Int)) : Int :=
  (positiveEntries weights).foldl (fun total p => wrap64 (total + p.2)) 0

/-- The local `keys` of `weightedWinner` after `sort.Strings`, which orders strings
lexicographically. -/
def sortedKeys (weights : List (String × Int)) : List String :=
  (mapKeys (positiveEntries weights)).insertionSort (fun a b => a.data ≤ b.data)

/-- The cumulative walk of `weightedWinner`; `none` when the loop ends without
returning. -/
def walk (weights : List (String × Int)) (threshold : Int) : List String → Int → Option String
  | [], _ => none
  | addr :: rest, cumulative =>
    let cumulative := wrap64 (cumulative + weightOf weights addr)
    if threshold < cumulative then some addr else walk weights threshold rest cumulative

/-- The function `weightedWinner`, with the value of `rng.Intn(total)` as `threshold`;
`none` when `rng.Intn` panics, its argument being negative. -/
def weightedWinner (weights : List (String × Int)) (threshold : Int) : Option String :=
  let keys := mapKeys (positiveEntries weights)
  let total := totalWeight weights
  if total = 0 ∨ keys.length = 0 then some ""
  else if total ≤ 0 then none
  else
    let keys := sortedKeys weights
    match walk weights threshold keys 0 with
    | some addr => some addr
    | none => some (keys.getLastD "")

/-- The local `ordered` of `secondHighestBid` before sorting. -/
def bidEntries (weights : List (String × Int)) : List BidItem :=
  (positiveEntries weights).map (fun p => ⟨p.1, p.2⟩)

/-- The final loop of `secondHighestBid` over the sorted slice. -/
def firstOther : List BidItem → String → Int
  | [], _ => 0
  | item :: rest, winner => if item.NodeAddress = winner then firstOther rest winner else item.Bid

/-- The function `secondHighestBid`, with insertion sort standing for `sort.Slice`. -/
def secondHighestBid (weights : List (String × Int)) (winner : String) : Int :=
  firstOther ((bidEntries weights).insertionSort (fun a b => b.Bid ≤ a.Bid)) winner

/-- The loop of `selectBlockForWinner`. -/
def firstByProposer : List Block → String → Option Block
  | [], _ => none
  | block :: rest, winner => if block.Proposer = winner then some block else firstByProposer rest winner

def selectBlockForWinner (blocks : List Block) (winner : String) : Block :=
  if blocks.length = 0 then Block.zero
  else
    match firstByProposer blocks winner with
    | some block => block
    | none => blocks.headD Block.zero

/-- The aggregation loop of `pickWinner` over the round's bids. -/
def aggregate : List BidItem → List (String × Int) → List (String × Int)
  | [], weights => weights
  | bidItem :: rest, weights =>
    if bidItem.Bid ≤ 0 then aggregate rest weights
    else aggregate rest
      (mapSet weights bidItem.NodeAddress
        (wrap64 (weightOf weights bidItem.NodeAddress + bidItem.Bid)))

/-- The refund loop of `pickWinner` over the keys of `weights`, on the nodes the
registry points to. -/
def refund (validators : List (String × Nat)) : List Node → List String → List Node
  | nodes, [] => nodes
  | nodes, addr :: rest =>
    match nodeAt nodes validators addr with
    | some (p, node) =>
      refund validators
        (nodes.set p { node with Balance := wrap64 (node.Balance + node.Bid), Bid := 0 }) rest
    | none => refund validators nodes rest

/-- The state left by the three early returns of `pickWinner`. -/
def clearRound (s : State) : State :=
  { s with tempBlocks := [], bids := [], miningCost := updateMiningCost 0 }

/-- The second price of `pickWinner` once capped at the winner's own aggregated bid. -/
def cappedPrice (weights : List (String × Int)) (winner : String) : Int :=
  let secondPrice := secondHighestBid weights winner
  let winnerBid := weightOf weights winner
  if secondPrice > winnerBid then winnerBid else secondPrice

/-- The debit of the winner in `pickWinner`, run on the nodes left by the refund
loop: the nodes after the debit, and `priceCharged`. -/
def charge (validators : List (String × Nat)) (nodes : List Node) (winner : String)
    (secondPrice : Int) : List Node × Int :=
  let priceCharged := secondPrice
  match nodeAt nodes validators winner with
  | some (p, node) =>
    let priceCharged := if priceCharged > node.Balance then node.Balance else priceCharged
    (nodes.set p { node with Balance := wrap64 (node.Balance - priceCharged) }, priceCharged)
  | none => (nodes, priceCharged)

/-- One round of `pickWinner`, with the value of `rng.Intn(total)` as `threshold`;
`none` when `rng.Intn` panics. -/
def pickWinner (s : State) (threshold : Int) : Option State :=
  let blockCandidates := s.tempBlocks
  let roundBids := s.bids
  if blockCandidates.length = 0 ∨ roundBids.length = 0 then some (clearRound s)
  else
    let weights := aggregate roundBids []
    if weights.length = 0 then some (clearRound s)
    else
      match weightedWinner weights threshold with
      | none => none
      | some winner =>
        if winner = "" then some (clearRound s)
        else
          let secondPrice := cappedPrice weights winner
          let selectedBlock := selectBlockForWinner blockCandidates winner
          let nodes := refund s.validators s.nodes (mapKeys weights)
          let settled := charge s.validators nodes winner secondPrice
          let selectedBlock :=
            { selectedBlock with Validator := winner, Transfer := settled.2 }
          some
            { Blockchain := s.Blockchain ++ [selectedBlock],
              tempBlocks := [],
              nodes := settled.1,
              validators := s.validators,
              bids := [],
              miningCost := updateMiningCost settled.2 }

/-- The winner of the round `pickWinner s threshold`, when the round selects one. -/
def roundWinner (s : State) (threshold : Int) : Option String :=
  if s.tempBlocks.length = 0 ∨ s.bids.length = 0 then none
  else if (aggregate s.bids []).length = 0 then none
  else
    match weightedWinner (aggregate s.bids []) threshold with
    | none => none
    | some winner => if winner = "" then none else some winner

/-- The nodes of the round after the refund loop and before the debit. -/
def refunded (s : State) : List Node :=
  refund s.validators s.nodes (mapKeys (aggregate s.bids []))

/-- The local `priceCharged` of a round whose winner is `winner`. -/
def priceCharged (s : State) (winner : String) : Int :=
  (charge s.validators (refunded s) winner (cappedPrice (aggregate s.bids []) winner)).2

/-- The node that `validators[addr]` points to. -/
def nodeOf (s : State) (addr : String) : Option Node :=
  (nodeAt s.nodes s.validators addr).map Prod.snd

/-- The registry as a map from addresses to the nodes they point to. -/
def registry (s : State) : List (String × Node) :=
  s.validators.filterMap (fun e => (s.nodes[e.2]?).map (fun node => (e.1, node)))

/-- The state after `main` has appended the genesis block at time `ts`. -/
def startup (ts : String) : State :=
  { Blockchain := [genesisBlock ts], tempBlocks := [], nodes := [], validators := [],
    bids := [], miningCost := 0 }

/-- Admission in `handleConn`: the session opened at time `ts` allocates its node
with the balance it entered and points the registry entry of its address to it. The
session is known by the index of its node. -/
def register (s : State) (ts : String) (balance : Int) : State :=
  let address := calculateHash ts
  { s with nodes := s.nodes ++ [⟨address, balance, 0⟩],
           validators := mapSet s.validators address s.nodes.length }

/-- One pass of the bidding loop of `handleConn` for the session whose node is
`session`, after `bpm` and `bid` were read, the candidate being built at time `ts`.
The result is `none` when there is no such session or the ledger has no tip to
index. -/
def handleBid (s : State) (session : Nat) (bpm bid : Int) (ts : String) : Option State :=
  match s.nodes[session]? with
  | none => none
  | some node =>
    let address := node.Address
    if node.Balance ≥ bid then
      let node := { node with Balance := wrap64 (node.Balance - bid), Bid := bid }
      let nodes := s.nodes.set session node
      let validators := mapSet s.validators address session
      let bids := s.bids ++ [⟨address, bid⟩]
      match s.Blockchain.getLast? with
      | none => none
      | some oldLastIndex =>
        let newBlock := generateBlock oldLastIndex bpm address ts
        if isBlockValid newBlock oldLastIndex then
          some { s with nodes := nodes, validators := validators, bids := bids,
                        tempBlocks := s.tempBlocks ++ [newBlock] }
        else some { s with nodes := nodes, validators := validators, bids := bids }
    else some s

end Auction

/-! ## The lottery program (`Random/random.go`) -/

namespace Lottery

structure State where
  Blockchain : List Block
  tempBlocks : List Block
  validators : List (String × Node)
  deriving DecidableEq

def generateBlock (oldBlock : Block) (BPM : Int) (address : String) (_bid : Int) (ts : String) :
    Block :=
  let newBlock : Block :=
    { Block.zero with
      Index := oldBlock.Index + 1, Timestamp := ts, BPM := BPM, PrevHash := oldBlock.Hash }
  let newBlock := { newBlock with Hash := calculateBlockHash newBlock }
  { newBlock with Validator := address, Proposer := "", Transfer := 0 }

/-- The loop of `pickWinner` labelled `OUTER`, which fills `lotteryPool`; `none` when
a candidate names an address missing from the registry (a nil dereference). -/
def fillPool (validators : List (String × Node)) : List Block → List String → Option (List String)
  | [], lotteryPool => some lotteryPool
  | block :: rest, lotteryPool =>
    if block.Validator ∈ lotteryPool then fillPool validators rest lotteryPool
    else
      match mapGet? validators block.Validator with
      | none => none
      | some set =>
        let k := set.Balance
        fillPool validators rest (lotteryPool ++ List.replicate k.toNat block.Validator)

/-- The last loop of `pickWinner`: the first candidate of the drawn address. -/
def firstByValidator : List Block → String → Option Block
  | [], _ => none
  | block :: rest, lotteryWinner =>
    if block.Validator = lotteryWinner then some block else firstByValidator rest lotteryWinner

/-- One round of `pickWinner`, with the value of `r.Intn(len(lotteryPool))` as `draw`.
The result is `none` when the round panics: a nil dereference while filling the pool,
`Intn` called on an empty pool, or an index outside the pool. -/
def pickWinner (s : State) (draw : Nat) : Option State :=
  let temp := s.tempBlocks
  if temp.length > 0 then
    match fillPool s.validators temp [] with
    | none => none
    | some lotteryPool =>
      if lotteryPool.length = 0 then none
      else
        match lotteryPool[draw]? with
        | none => none
        | some lotteryWinner =>
          match firstByValidator temp lotteryWinner with
          | some block => some { s with Blockchain := s.Blockchain ++ [block], tempBlocks := [] }
          | none => some { s with tempBlocks := [] }
  else some { s with tempBlocks := [] }

/-- The state after `main` has appended the genesis block at time `ts`. -/
def startup (ts : String) : State :=
  { Blockchain := [genesisBlock ts], tempBlocks := [], validators := [] }

/-- Admission in `handleConn`: the session opened at time `ts` with the balance it
entered. -/
def register (s : State) (ts : String) (balance : Int) : State :=
  let address := calculateHash ts
  { s with validators := mapSet s.validators address ⟨address, balance, 0⟩ }

/-- One pass of the bidding loop of `handleConn` for the session of `address`, after
`bpm` and `bid` were read, the candidate being built at time `ts`. The result is
`none` when the address is not registered or the ledger has no tip to index. -/
def handleBid (s : State) (address : String) (bpm bid : Int) (ts : String) : Option State :=
  match mapGet? s.validators address with
  | none => none
  | some node =>
    if node.Balance < bid then some s
    else
      let node := { node with Balance := wrap64 (node.Balance - bid), Bid := bid }
      let validators := mapSet s.validators address node
      match s.Blockchain.getLast? with
      | none => none
      | some tip =>
        let newBlock := generateBlock tip bpm address bid ts
        if isBlockValid newBlock tip then
          some { s with validators := validators, tempBlocks := s.tempBlocks ++ [newBlock] }
        else some { s with validators := validators }

end Lottery

/-! ## Reachable states -/

/-- States of the auction program reachable from startup by admissions of sessions,
passes of the bidding loop of admitted sessions and rounds of `pickWinner` that do not
panic and whose threshold is a value `rng.Intn` can return. -/
inductive Auction.Reachable : Auction.State → Prop
  | startup (ts : String) : Auction.Reachable (Auction.startup ts)
  | register (s : Auction.State) (ts : String) (balance : Int) :
      Auction.Reachable s → Auction.Reachable (Auction.register s ts balance)
  | bid (s s' : Auction.State) (session : Nat) (bpm bid : Int) (ts : String) :
      Auction.Reachable s → Auction.handleBid s session bpm bid ts = some s' →
      Auction.Reachable s'
  | round (s s' : Auction.State) (threshold : Int) :
      Auction.Reachable s → Auction.pickWinner s threshold = some s' → 0 ≤ threshold →
      threshold < max 1 (Auction.totalWeight (Auction.aggregate s.bids [])) →
      Auction.Reachable s'

/-- States of the lottery program reachable from startup by admissions of sessions,
passes of the bidding loop and rounds of `pickWinner` that complete. -/
inductive Lottery.Reachable : Lottery.State → Prop
  | startup (ts : String) : Lottery.Reachable (Lottery.startup ts)
  | register (s : Lottery.State) (ts : String) (balance : Int) :
      Lottery.Reachable s → Lottery.Reachable (Lottery.register s ts balance)
  | bid (s s' : Lottery.State) (address : String) (bpm bid : Int) (ts : String) :
      Lottery.Reachable s → Lottery.handleBid s address bpm bid ts = some s' →
      Lottery.Reachable s'
  | round (s s' : Lottery.State) (draw : Nat) :
      Lottery.Reachable s → Lottery.pickWinner s draw = some s' →
      Lottery.Reachable s'

/-- States of the auction program reached by an execution in which every session
is admitted at an address of its own, with an `int` balance, every bid is an `int`,
and no escrow `Balance -= bid` leaves the range of `int`. -/
inductive Auction.Orderly : Auction.State → Prop
  | startup (ts : String) : Auction.Orderly (Auction.startup ts)
  | register (s : Auction.State) (ts : String) (balance : Int) :
      Auction.Orderly s → mapGet? s.validators (calculateHash ts) = none →
      isInt64 balance → Auction.Orderly (Auction.register s ts balance)
  | bid (s s' : Auction.State) (session : Nat) (bpm bid : Int) (ts : String) :
      Auction.Orderly s → Auction.handleBid s session bpm bid ts = some s' →
      isInt64 bid →
      (∀ node, s.nodes[session]? = some node → bid ≤ node.Balance →
        isInt64 (node.Balance - bid)) →
      Auction.Orderly s'
  | round (s s' : Auction.State) (threshold : Int) :
      Auction.Orderly s → Auction.pickWinner s threshold = some s' → 0 ≤ threshold →
      threshold < max 1 (Auction.totalWeight (Auction.aggregate s.bids [])) →
      Auction.Orderly s'

/-- The chain invariant at the positions `i ≥ 1` of a ledger. -/
def ChainLinked (chain : List Block) : Prop :=
  ∀ (i : Nat) (b p : Block), 1 ≤ i → chain[i]? = some b → chain[i - 1]? = some p →
    b.Index = (i : Int) ∧ b.PrevHash = p.Hash ∧ calculateBlockHash b = b.Hash

/-! ## Predicates of the specification and of the proofs -/

/-- The three checks of `isBlockValid`, for a block `b` placed after `p`. -/
def linkOk (p b : Block) : Prop :=
  p.Index + 1 = b.Index ∧ p.Hash = b.PrevHash ∧ calculateBlockHash b = b.Hash

/-- Invariant of a ledger: it has a genesis block, every block sits at its own index,
and every block after genesis is linked to its predecessor. -/
def LedgerInv (chain : List Block) : Prop :=
  chain ≠ [] ∧ (∀ (i : Nat) (b : Block), chain[i]? = some b → b.Index = (i : Int)) ∧
    ChainLinked chain

/-- Invariant of both programs: the ledger is well linked and every buffered candidate
is valid against the current tip. -/
def BufferInv (chain temp : List Block) : Prop :=
  LedgerInv chain ∧ ∀ tip, chain.getLast? = some tip → ∀ b ∈ temp, linkOk tip b

/-- Total weight of the positively weighted addresses lexicographically below `a`. -/
def Auction.weightBelow (weights : List (String × Int)) (a : String) : Int :=
  ((weights.filter (fun p => decide (0 < p.2 ∧ p.1 < a))).map Prod.snd).sum

/-- The sum of the positive weights of a weight map, as an integer. -/
def Auction.weightSum (weights : List (String × Int)) : Int :=
  ((Auction.positiveEntries weights).map Prod.snd).sum

/-- The cumulative walk on integers, without reduction to `int`; used in proofs. -/
def Auction.idealWalk (weights : List (String × Int)) (threshold : Int) :
    List String → Int → Option String
  | [], _ => none
  | addr :: rest, cumulative =>
    let cumulative := cumulative + weightOf weights addr
    if threshold < cumulative then some addr
    else Auction.idealWalk weights threshold rest cumulative

/-- The draw on integers, without reduction to `int`; used in proofs. -/
def Auction.idealWinner (weights : List (String × Int)) (threshold : Int) : String :=
  let keys := mapKeys (Auction.positiveEntries weights)
  let total := Auction.weightSum weights
  if total = 0 ∨ keys.length = 0 then ""
  else
    let keys := Auction.sortedKeys weights
    match Auction.idealWalk weights threshold keys 0 with
    | some addr => addr
    | none => keys.getLastD ""

/-- Sum of the weights of a list of addresses. -/
def wsum (weights : List (String × Int)) (ks : List String) : Int :=
  (ks.map (weightOf weights)).sum

/-- The positively weighted addresses of a weight map, as a finite set. -/
def bidders (weights : List (String × Int)) : Finset String :=
  (mapKeys (Auction.positiveEntries weights)).toFinset

/-- The value `m` is the largest positive weight among the addresses other than
`winner`, or 0 when no other address has a positive weight. -/
def Auction.IsSecondPrice (weights : List (String × Int)) (winner : String) (m : Int) : Prop :=
  (∃ p ∈ weights, p.1 ≠ winner ∧ 0 < p.2 ∧ p.2 = m ∧
      ∀ q ∈ weights, q.1 ≠ winner → 0 < q.2 → q.2 ≤ m) ∨
    ((∀ q ∈ weights, q.1 ≠ winner → q.2 ≤ 0) ∧ m = 0)

/-- Sum of the positive bids of address `a` in a list of bid records. -/
def Auction.bidTotal (bids : List BidItem) (a : String) : Int :=
  ((bids.filter (fun b => decide (b.NodeAddress = a ∧ 0 < b.Bid))).map BidItem.Bid).sum

/-- Invariant of the auction registry: every entry points to a node of its address. -/
def Auction.PointerInv (nodes : List Node) (validators : List (String × Nat)) : Prop :=
  ∀ (a : String) (p : Nat), mapGet? validators a = some p →
    ∃ node, nodes[p]? = some node ∧ node.Address = a

/-- Invariant of the auction registry: every entry points to a node of its address,
no node has the empty address, and every bidder of the round is registered. -/
def Auction.RegistryInv (s : Auction.State) : Prop :=
  Auction.PointerInv s.nodes s.validators ∧
    (∀ node ∈ s.nodes, node.Address ≠ "") ∧
    ∀ item ∈ s.bids, ∃ p, mapGet? s.validators item.NodeAddress = some p

/-- Invariant of orderly executions: every node holds an `int` balance and is the one
its address is registered to, and a node with a positive bid in the round buffer has
a non-negative balance, also once its pending bid is returned, which then stays in
the range of `int`. -/
def Auction.EscrowInv (s : Auction.State) : Prop :=
  (∀ (p : Nat) (node : Node), s.nodes[p]? = some node →
      isInt64 node.Balance ∧ mapGet? s.validators node.Address = some p) ∧
    ∀ (p : Nat) (node : Node), s.nodes[p]? = some node →
      (∃ item ∈ s.bids, item.NodeAddress = node.Address ∧ 0 < item.Bid) →
        0 ≤ node.Balance ∧ 0 ≤ node.Balance + node.Bid ∧
          node.Balance + node.Bid < 9223372036854775808

/-- The nodes `nodes'` are the sessions of `nodes`, with balances that stay in the
range of `int`. -/
def Auction.SameSessions (nodes nodes' : List Node) : Prop :=
  ∀ (p : Nat) (n' : Node), nodes'[p]? = some n' →
    ∃ n, nodes[p]? = some n ∧ n'.Address = n.Address ∧ (isInt64 n.Balance → isInt64 n'.Balance)

/-- What a session sends in one pass of the bidding loop, and when; the session is
known by the index of its node. -/
structure BidRequest where
  session : Nat
  bpm : Int
  bid : Int
  ts : String
  deriving DecidableEq

/-- The passes of the bidding loop of `handleConn` for a sequence of requests. -/
def Auction.placeBids : Auction.State → List BidRequest → Option Auction.State
  | s, [] => some s
  | s, r :: rest =>
    match Auction.handleBid s r.session r.bpm r.bid r.ts with
    | none => none
    | some s' => Auction.placeBids s' rest

/-- The address of the session whose node is `session`. -/
def Auction.sessionAddress (nodes : List Node) (session : Nat) : String :=
  match nodes[session]? with
  | some node => node.Address
  | none => ""

/-- The first half of a pass of the bidding loop of `handleConn`, from the test
`node.Balance >= bid` to `bids = append(bids, ...)`: the escrow and the bid record,
before the candidate is built. -/
def Auction.recordBid (s : Auction.State) (session : Nat) (bid : Int) : Option Auction.State :=
  match s.nodes[session]? with
  | none => none
  | some node =>
    let address := node.Address
    if node.Balance ≥ bid then
      let node := { node with Balance := wrap64 (node.Balance - bid), Bid := bid }
      some { s with nodes := s.nodes.set session node,
                    validators := mapSet s.validators address session,
                    bids := s.bids ++ [⟨address, bid⟩] }
    else some s

/-- The second half of an accepted pass: the candidate is built on the tip and, when
valid, sent on `candidateBlocks`, from where the goroutine of `main` appends it to
`tempBlocks`. -/
def Auction.submitCandidate (s : Auction.State) (address : String) (bpm : Int) (ts : String) :
    Option Auction.State :=
  match s.Blockchain.getLast? with
  | none => none
  | some oldLastIndex =>
    let newBlock := Auction.generateBlock oldLastIndex bpm address ts
    if isBlockValid newBlock oldLastIndex then
      some { s with tempBlocks := s.tempBlocks ++ [newBlock] }
    else some s

/-- The balance of an address in a registry, 0 for an address that is not registered. -/
def balanceOf (validators : List (String × Node)) (a : String) : Int :=
  match mapGet? validators a with
  | some node => node.Balance
  | none => 0

/-- The registry `{A:10, B:0, C:5}` of the lottery scenario. -/
def Lottery.scenarioRegistry : List (String × Node) :=
  [("A", ⟨"A", 10, 0⟩), ("B", ⟨"B", 0, 0⟩), ("C", ⟨"C", 5, 0⟩)]

/-- Candidates from A and C, A having submitted twice. -/
def Lottery.scenarioCandidates : List Block :=
  [{ Block.zero with Index := 1, Validator := "A" }, { Block.zero with Index := 1, Validator := "C" },
   { Block.zero with Index := 1, BPM := 7, Validator := "A" }]

/-- Invariant of the auction round buffers: the candidates and the bid records were
added in pairs, each candidate proposed by the address of its bid record. -/
def Auction.PairedInv (s : Auction.State) : Prop :=
  s.tempBlocks.map Block.Proposer = s.bids.map BidItem.NodeAddress

/-- Startup time of the scenario, as `time.Now().String()` prints it. -/
def demoStartTime : String := "2024-03-01 12:00:00.5 +0000 UTC m=+0.5"

/-- Address of the first scenario session: the digest of its admission time. -/
def demoAlice : String := calculateHash "2024-03-01 12:00:01.5 +0000 UTC m=+1.5"

/-- Address of the second scenario session. -/
def demoBob : String := calculateHash "2024-03-01 12:00:02.5 +0000 UTC m=+2.5"

/-- Address of the third scenario session. -/
def demoCarol : String := calculateHash "2024-03-01 12:00:03.5 +0000 UTC m=+3.5"

/-- Address of the fourth scenario session. -/
def demoDave : String := calculateHash "2024-03-01 12:00:04.5 +0000 UTC m=+4.5"

/-- Auction scenario: two sessions admitted with balances 100 and 50. -/
def Auction.demoOpen : Auction.State :=
  Auction.register
    (Auction.register (Auction.startup demoStartTime) "2024-03-01 12:00:01.5 +0000 UTC m=+1.5" 100)
    "2024-03-01 12:00:02.5 +0000 UTC m=+2.5" 50

/-- Auction scenario: each session bids once. -/
def Auction.demoRequests : List BidRequest :=
  [⟨0, 70, 30, "2024-03-01 12:00:10.5 +0000 UTC m=+10.5"⟩,
   ⟨1, 65, 20, "2024-03-01 12:00:11.5 +0000 UTC m=+11.5"⟩]

/-- Auction scenario: the first session bids twice in the same round. -/
def Auction.rebidRequests : List BidRequest :=
  [⟨0, 70, 30, "2024-03-01 12:00:10.5 +0000 UTC m=+10.5"⟩,
   ⟨0, 72, 20, "2024-03-01 12:00:11.5 +0000 UTC m=+11.5"⟩]

/-- Auction scenario: the state once the first session has bid. -/
def Auction.demoFirst : Auction.State :=
  (Auction.handleBid Auction.demoOpen 0 70 30
    "2024-03-01 12:00:10.5 +0000 UTC m=+10.5").getD Auction.demoOpen

/-- Auction scenario: the state once both sessions have bid. -/
def Auction.demoBidding : Auction.State :=
  (Auction.placeBids Auction.demoOpen Auction.demoRequests).getD Auction.demoOpen

/-- Auction scenario: the state after the round drawn with threshold 0. -/
def Auction.demoSettled : Auction.State :=
  (Auction.pickWinner Auction.demoBidding 0).getD Auction.demoBidding

/-- Lottery scenario: two sessions admitted with balances 100 and 50. -/
def Lottery.demoOpen : Lottery.State :=
  Lottery.register
    (Lottery.register (Lottery.startup demoStartTime) "2024-03-01 12:00:01.5 +0000 UTC m=+1.5" 100)
    "2024-03-01 12:00:02.5 +0000 UTC m=+2.5" 50

/-- Lottery scenario: the state once the first session has bid. -/
def Lottery.demoFirst : Lottery.State :=
  (Lottery.handleBid Lottery.demoOpen demoAlice 70 30
    "2024-03-01 12:00:10.5 +0000 UTC m=+10.5").getD Lottery.demoOpen

/-- Lottery scenario: the state once both sessions have bid. -/
def Lottery.demoBidding : Lottery.State :=
  (Lottery.handleBid Lottery.demoFirst demoBob 65 20
    "2024-03-01 12:00:11.5 +0000 UTC m=+11.5").getD Lottery.demoFirst

/-- Lottery scenario: the state after the round drawn with index 0. -/
def Lottery.demoSettled : Lottery.State :=
  (Lottery.pickWinner Lottery.demoBidding 0).getD Lottery.demoBidding

/-- A weight map with a non-positive entry. -/
def Auction.demoWeights : List (String × Int) := [("b", 3), ("a", 2), ("c", 0)]

/-- A weight map with two equal bids. -/
def Auction.tiedWeights : List (String × Int) := [("a", 5), ("b", 5), ("c", 1)]

/-- Four weights of `2^62`: they sum to `2^64`. -/
def Auction.quadWeights : List (String × Int) :=
  [("a", 4611686018427387904), ("b", 4611686018427387904), ("c", 4611686018427387904),
   ("d", 4611686018427387904)]

/-- Two weights of `2^62`: they sum to `2^63`. -/
def Auction.pairWeights : List (String × Int) :=
  [("a", 4611686018427387904), ("b", 4611686018427387904)]

/-- Lottery scenario: the first session stakes its whole balance of 100. -/
def Lottery.drainedBidding : Lottery.State :=
  (Lottery.handleBid Lottery.demoOpen demoAlice 70 100
    "2024-03-01 12:00:10.5 +0000 UTC m=+10.5").getD Lottery.demoOpen

/-- Auction scenario: two sessions admitted with a balance of `2^53` each. -/
def Auction.whaleOpen : Auction.State :=
  Auction.register
    (Auction.register (Auction.startup demoStartTime) "2024-03-01 12:00:01.5 +0000 UTC m=+1.5"
      9007199254740992)
    "2024-03-01 12:00:02.5 +0000 UTC m=+2.5" 9007199254740992

/-- Auction scenario: both sessions bid 6755399441055759. -/
def Auction.whaleRequests : List BidRequest :=
  [⟨0, 70, 6755399441055759, "2024-03-01 12:00:10.5 +0000 UTC m=+10.5"⟩,
   ⟨1, 65, 6755399441055759, "2024-03-01 12:00:11.5 +0000 UTC m=+11.5"⟩]

/-- Auction scenario: the state once both large bids are placed. -/
def Auction.whaleBidding : Auction.State :=
  (Auction.placeBids Auction.whaleOpen Auction.whaleRequests).getD Auction.whaleOpen

/-- Auction scenario: two sessions admitted at the same instant, hence at the same
address, with balances 100 and -50. -/
def Auction.sharedOpen : Auction.State :=
  Auction.register
    (Auction.register (Auction.startup demoStartTime) "2024-03-01 12:00:01.5 +0000 UTC m=+1.5" 100)
    "2024-03-01 12:00:01.5 +0000 UTC m=+1.5" (-50)

/-- Auction scenario: the first of the two sessions bids 30, the second bids -50. -/
def Auction.sharedRequests : List BidRequest :=
  [⟨0, 70, 30, "2024-03-01 12:00:10.5 +0000 UTC m=+10.5"⟩,
   ⟨1, 65, -50, "2024-03-01 12:00:11.5 +0000 UTC m=+11.5"⟩]

/-- Auction scenario: the state once the two sessions of one address have bid. -/
def Auction.sharedBidding : Auction.State :=
  (Auction.placeBids Auction.sharedOpen Auction.sharedRequests).getD Auction.sharedOpen

/-- Auction scenario: one session admitted with the largest `int` as balance. -/
def Auction.edgeOpen : Auction.State :=
  Auction.register (Auction.startup demoStartTime) "2024-03-01 12:00:01.5 +0000 UTC m=+1.5"
    9223372036854775807

/-- Auction scenario: the session bids 5, then -10, then the smallest `int`. -/
def Auction.edgeRequests : List BidRequest :=
  [⟨0, 70, 5, "2024-03-01 12:00:10.5 +0000 UTC m=+10.5"⟩,
   ⟨0, 71, -10, "2024-03-01 12:00:11.5 +0000 UTC m=+11.5"⟩,
   ⟨0, 72, -9223372036854775808, "2024-03-01 12:00:12.5 +0000 UTC m=+12.5"⟩]

/-- Auction scenario: the state once the three bids are placed. -/
def Auction.edgeBidding : Auction.State :=
  (Auction.placeBids Auction.edgeOpen Auction.edgeRequests).getD Auction.edgeOpen

/-- Auction scenario: four sessions admitted with a balance of `2^62` each. -/
def Auction.quadOpen : Auction.State :=
  Auction.register
    (Auction.register
      (Auction.register
        (Auction.register (Auction.startup demoStartTime)
          "2024-03-01 12:00:01.5 +0000 UTC m=+1.5" 4611686018427387904)
        "2024-03-01 12:00:02.5 +0000 UTC m=+2.5" 4611686018427387904)
      "2024-03-01 12:00:03.5 +0000 UTC m=+3.5" 4611686018427387904)
    "2024-03-01 12:00:04.5 +0000 UTC m=+4.5" 4611686018427387904

/-- Auction scenario: each of the four sessions bids its whole balance of `2^62`. -/
def Auction.quadRequests : List BidRequest :=
  [⟨0, 70, 4611686018427387904, "2024-03-01 12:00:10.5 +0000 UTC m=+10.5"⟩,
   ⟨1, 65, 4611686018427387904, "2024-03-01 12:00:11.5 +0000 UTC m=+11.5"⟩,
   ⟨2, 60, 4611686018427387904, "2024-03-01 12:00:12.5 +0000 UTC m=+12.5"⟩,
   ⟨3, 75, 4611686018427387904, "2024-03-01 12:00:13.5 +0000 UTC m=+13.5"⟩]

/-- Auction scenario: the state once the four bids are placed. -/
def Auction.quadBidding : Auction.State :=
  (Auction.placeBids Auction.quadOpen Auction.quadRequests).getD Auction.quadOpen

/-- Auction scenario: the first session has escrowed and recorded its bid of 30, and
its candidate is not yet in `tempBlocks`. -/
def Auction.halfBidding : Auction.State :=
  (Auction.recordBid Auction.demoOpen 0 30).getD Auction.demoOpen

/-- A block at the largest `int` index. -/
def edgeOld : Block :=
  { Block.zero with Index := 9223372036854775807, Hash := "00" }

/-- The block that Go's `generateBlock` builds on `edgeOld`: its Index is the
smallest `int`. -/
def edgeNew : Block :=
  let newBlock : Block :=
    { Block.zero with
      Index := -9223372036854775808, Timestamp := "2024-03-01 12:00:10.5 +0000 UTC m=+10.5",
      BPM := 70, PrevHash := edgeOld.Hash }
  { newBlock with Hash := calculateBlockHash newBlock }

/-! # Theorems -/

/-! ## Block validation and the genesis block -/

theorem wrap64_of_isInt64 (x : Int) (h : isInt64 x) : wrap64 x = x := by
  unfold wrap64
  obtain ⟨h1, h2⟩ := h
  omega

theorem wrap64_isInt64 (x : Int) : isInt64 (wrap64 x) := by
  unfold wrap64
  constructor <;> omega

theorem wrap64_add_wrap64 (x y : Int) : wrap64 (wrap64 x + y) = wrap64 (x + y) := by
  unfold wrap64
  omega

theorem isBlockValid_eq_true (b p : Block) :
    isBlockValid b p = true ↔
      wrap64 (p.Index + 1) = wrap64 b.Index ∧ p.Hash = b.PrevHash ∧
        calculateBlockHash b = b.Hash := by
  unfold isBlockValid
  by_cases h1 : wrap64 (p.Index + 1) = wrap64 b.Index <;> by_cases h2 : p.Hash = b.PrevHash <;>
    by_cases h3 : calculateBlockHash b = b.Hash <;> simp [h1, h2, h3]

theorem isBlockValid_of_linkOk (b p : Block) (h : linkOk p b) : isBlockValid b p = true := by
  rw [isBlockValid_eq_true]
  exact ⟨by rw [h.1], h.2.1, h.2.2⟩

theorem calculateBlockHash_stamp (b : Block) (v p : String) (tr : Int) :
    calculateBlockHash { b with Validator := v, Proposer := p, Transfer := tr } =
      calculateBlockHash b := rfl

/-- C2: for blocks whose Index is an `int`, `isBlockValid(newBlock, oldBlock)` is true
exactly when `oldBlock.Index + 1 == newBlock.Index` in Go's `int` arithmetic, the
previous hash links and the content hash matches; below the largest `int` the first
condition is the successor of integers; the fields Validator, Proposer and Transfer
of either block do not influence the result. -/
theorem isBlockValid_iff (newBlock oldBlock : Block) (hn : isInt64 newBlock.Index)
    (ho : isInt64 oldBlock.Index) :
    (isBlockValid newBlock oldBlock = true ↔
      wrap64 (oldBlock.Index + 1) = newBlock.Index ∧ oldBlock.Hash = newBlock.PrevHash ∧
        calculateBlockHash newBlock = newBlock.Hash) ∧
    (oldBlock.Index < 9223372036854775807 →
      (isBlockValid newBlock oldBlock = true ↔
        oldBlock.Index + 1 = newBlock.Index ∧ oldBlock.Hash = newBlock.PrevHash ∧
          calculateBlockHash newBlock = newBlock.Hash)) ∧
    (oldBlock.Index = 9223372036854775807 →
      (isBlockValid newBlock oldBlock = true ↔
        newBlock.Index = -9223372036854775808 ∧ oldBlock.Hash = newBlock.PrevHash ∧
          calculateBlockHash newBlock = newBlock.Hash)) ∧
    ∀ (v p v' p' : String) (tr tr' : Int),
      isBlockValid { newBlock with Validator := v, Proposer := p, Transfer := tr }
          { oldBlock with Validator := v', Proposer := p', Transfer := tr' } =
        isBlockValid newBlock oldBlock := by
  have hw : wrap64 newBlock.Index = newBlock.Index := wrap64_of_isInt64 _ hn
  refine ⟨?_, ?_, ?_, fun _ _ _ _ _ _ => rfl⟩
  · rw [isBlockValid_eq_true, hw]
  · intro hlt
    have : wrap64 (oldBlock.Index + 1) = oldBlock.Index + 1 :=
      wrap64_of_isInt64 _ ⟨by have := ho.1; omega, by omega⟩
    rw [isBlockValid_eq_true, hw, this]
  · intro heq
    have : wrap64 (oldBlock.Index + 1) = -9223372036854775808 := by
      rw [heq]
      decide
    rw [isBlockValid_eq_true, hw, this]
    constructor
    · rintro ⟨h1, h2, h3⟩
      exact ⟨h1.symm, h2, h3⟩
    · rintro ⟨h1, h2, h3⟩
      exact ⟨h1.symm, h2, h3⟩

/-- C3, as the code has it: for every startup timestamp the genesis block of both
programs has Index 0, BPM 0, an empty PrevHash, and as Hash the content hash of the
zero-valued block, a digest that does not depend on the timestamp, while the content
hash of the genesis block itself is the digest of a record holding its Timestamp. -/
theorem genesis_hash_of_zero_block (ts : String) :
    (Auction.startup ts).Blockchain = [genesisBlock ts] ∧
    (Lottery.startup ts).Blockchain = [genesisBlock ts] ∧
    (genesisBlock ts).Index = 0 ∧ (genesisBlock ts).BPM = 0 ∧ (genesisBlock ts).PrevHash = "" ∧
    (genesisBlock ts).Timestamp = ts ∧
    (genesisBlock ts).Hash = calculateBlockHash Block.zero ∧
    (genesisBlock ts).Hash = "96a296d224f285c67bee93c30f8a309157f0daa35dc5b87e410b78630a09cfc7" ∧
    calculateBlockHash (genesisBlock ts) = calculateHash ("\x00" ++ ts ++ "\x00" ++ "") := by
  refine ⟨rfl, rfl, rfl, rfl, rfl, rfl, rfl, ?_, ?_⟩
  · show calculateBlockHash Block.zero = _
    decide
  · rfl

/-- C3, as the claim has it, fails: at this startup timestamp the content hash of the
genesis block differs from its Hash field. -/
theorem genesis_not_self_consistent :
    calculateBlockHash (genesisBlock "2009-11-10 23:00:00 +0000 UTC m=+0.000000001") ≠
      (genesisBlock "2009-11-10 23:00:00 +0000 UTC m=+0.000000001").Hash := by
  decide

/-! ## The chain invariant -/

theorem ledgerInv_genesis (ts : String) : LedgerInv [genesisBlock ts] := by
  refine ⟨by simp, ?_, ?_⟩
  · intro i b h
    cases i with
    | zero => simp at h; subst h; rfl
    | succ n => simp at h
  · intro i b p hi hb _
    cases i with
    | zero => omega
    | succ n => simp at hb

theorem getElem?_snoc_cases {α : Type} (l : List α) (a x : α) (i : Nat)
    (h : (l ++ [a])[i]? = some x) : (i < l.length ∧ l[i]? = some x) ∨ (i = l.length ∧ x = a) := by
  by_cases hi : i < l.length
  · left
    rw [List.getElem?_append_left hi] at h
    exact ⟨hi, h⟩
  · right
    have hle : l.length ≤ i := Nat.le_of_not_lt hi
    rw [List.getElem?_append_right hle] at h
    by_cases h0 : i - l.length = 0
    · rw [h0] at h
      simp at h
      exact ⟨by omega, h.symm⟩
    · obtain ⟨k, hk⟩ := Nat.exists_eq_succ_of_ne_zero h0
      rw [hk] at h
      simp at h

theorem ledgerInv_append (chain : List Block) (tip b : Block) (hinv : LedgerInv chain)
    (htip : chain.getLast? = some tip) (hlink : linkOk tip b) : LedgerInv (chain ++ [b]) := by
  obtain ⟨hne, hidx, hlinked⟩ := hinv
  have hlen : 0 < chain.length := List.length_pos.mpr hne
  have htip' : chain[chain.length - 1]? = some tip := by
    rw [← List.getLast?_eq_getElem?]; exact htip
  have htipIdx : tip.Index = ((chain.length - 1 : Nat) : Int) := hidx _ _ htip'
  refine ⟨by simp, ?_, ?_⟩
  · intro i x hx
    rcases getElem?_snoc_cases chain b x i hx with ⟨_, h⟩ | ⟨hi, hxb⟩
    · exact hidx i x h
    · subst hxb
      rw [← hlink.1, htipIdx, hi]
      omega
  · intro i x q hi hx hq
    rcases getElem?_snoc_cases chain b x i hx with ⟨hlt, h⟩ | ⟨hil, hxb⟩
    · have hq' : chain[i - 1]? = some q := by
        rw [List.getElem?_append_left (by omega)] at hq
        exact hq
      exact hlinked i x q hi h hq'
    · subst hxb
      have hq' : chain[i - 1]? = some q := by
        rw [List.getElem?_append_left (by omega)] at hq
        exact hq
      rw [hil] at hq'
      rw [htip'] at hq'
      have hqt : tip = q := Option.some.inj hq'
      subst hqt
      refine ⟨?_, hlink.2.1.symm, hlink.2.2⟩
      rw [← hlink.1, htipIdx, hil]
      omega

theorem linkOk_stamp (tip b : Block) (v : String) (tr : Int) (h : linkOk tip b) :
    linkOk tip { b with Validator := v, Transfer := tr } := h

theorem auction_generateBlock_linkOk (tip : Block) (bpm : Int) (address ts : String) :
    linkOk tip (Auction.generateBlock tip bpm address ts) := ⟨rfl, rfl, rfl⟩

theorem lottery_generateBlock_linkOk (tip : Block) (bpm bid : Int) (address ts : String) :
    linkOk tip (Lottery.generateBlock tip bpm address bid ts) := ⟨rfl, rfl, rfl⟩

theorem auction_firstByProposer_mem (blocks : List Block) (winner : String) (b : Block)
    (h : Auction.firstByProposer blocks winner = some b) : b ∈ blocks ∧ b.Proposer = winner := by
  induction blocks with
  | nil => simp [Auction.firstByProposer] at h
  | cons x rest ih =>
    unfold Auction.firstByProposer at h
    split_ifs at h with hx
    · cases h
      exact ⟨List.mem_cons_self _ _, hx⟩
    · exact ⟨List.mem_cons_of_mem _ (ih h).1, (ih h).2⟩

theorem auction_selectBlockForWinner_mem (blocks : List Block) (winner : String)
    (hne : blocks ≠ []) : Auction.selectBlockForWinner blocks winner ∈ blocks := by
  unfold Auction.selectBlockForWinner
  have hlen : ¬ blocks.length = 0 := by
    intro h
    exact hne (List.length_eq_zero.mp h)
  rw [if_neg hlen]
  cases hf : Auction.firstByProposer blocks winner with
  | some b => exact (auction_firstByProposer_mem blocks winner b hf).1
  | none =>
    cases blocks with
    | nil => exact absurd rfl hne
    | cons x rest => simp

theorem lottery_firstByValidator_mem (blocks : List Block) (winner : String) (b : Block)
    (h : Lottery.firstByValidator blocks winner = some b) : b ∈ blocks ∧ b.Validator = winner := by
  induction blocks with
  | nil => simp [Lottery.firstByValidator] at h
  | cons x rest ih =>
    unfold Lottery.firstByValidator at h
    split_ifs at h with hx
    · cases h
      exact ⟨List.mem_cons_self _ _, hx⟩
    · exact ⟨List.mem_cons_of_mem _ (ih h).1, (ih h).2⟩

theorem bufferInv_clear (chain temp : List Block) (h : BufferInv chain temp) :
    BufferInv chain [] :=
  ⟨h.1, fun _ _ b hb => absurd hb (List.not_mem_nil b)⟩

theorem bufferInv_commit (chain temp : List Block) (b : Block) (v : String) (tr : Int)
    (h : BufferInv chain temp) (hb : b ∈ temp) :
    BufferInv (chain ++ [{ b with Validator := v, Transfer := tr }]) [] := by
  obtain ⟨tip, htip⟩ : ∃ tip, chain.getLast? = some tip := by
    cases hl : chain.getLast? with
    | none => exact absurd (List.getLast?_eq_none_iff.mp hl) h.1.1
    | some t => exact ⟨t, rfl⟩
  refine ⟨ledgerInv_append chain tip _ h.1 htip (linkOk_stamp tip b v tr (h.2 tip htip b hb)), ?_⟩
  intro _ _ x hx
  exact absurd hx (List.not_mem_nil x)

theorem bufferInv_submit (chain temp : List Block) (tip b : Block) (h : BufferInv chain temp)
    (htip : chain.getLast? = some tip) (hb : linkOk tip b) : BufferInv chain (temp ++ [b]) := by
  refine ⟨h.1, ?_⟩
  intro t ht x hx
  rcases List.mem_append.mp hx with hx | hx
  · exact h.2 t ht x hx
  · have hxb : x = b := by simpa using hx
    have : t = tip := by
      rw [htip] at ht
      exact (Option.some.inj ht).symm
    subst hxb
    subst this
    exact hb

theorem auction_pickWinner_bufferInv (s s' : Auction.State) (threshold : Int)
    (h : BufferInv s.Blockchain s.tempBlocks)
    (hs : Auction.pickWinner s threshold = some s') :
    BufferInv s'.Blockchain s'.tempBlocks := by
  unfold Auction.pickWinner at hs
  simp only [] at hs
  split_ifs at hs with h1 h2
  · cases hs
    exact bufferInv_clear _ _ h
  · cases hs
    exact bufferInv_clear _ _ h
  · cases hw : Auction.weightedWinner (Auction.aggregate s.bids []) threshold with
    | none => simp [hw] at hs
    | some winner =>
      simp only [hw] at hs
      split_ifs at hs with h3
      · cases hs
        exact bufferInv_clear _ _ h
      · cases hs
        have hne : s.tempBlocks ≠ [] := by
          intro hnil
          exact h1 (Or.inl (by rw [hnil]; rfl))
        exact bufferInv_commit _ _ _ _ _ h (auction_selectBlockForWinner_mem _ _ hne)

theorem auction_handleBid_bufferInv (s s' : Auction.State) (session : Nat) (bpm bid : Int)
    (ts : String) (h : BufferInv s.Blockchain s.tempBlocks)
    (hs : Auction.handleBid s session bpm bid ts = some s') :
    BufferInv s'.Blockchain s'.tempBlocks := by
  unfold Auction.handleBid at hs
  cases hn : s.nodes[session]? with
  | none => simp [hn] at hs
  | some node =>
    simp only [hn] at hs
    split_ifs at hs with hb
    · cases ht : s.Blockchain.getLast? with
      | none => simp [ht] at hs
      | some tip =>
        simp only [ht] at hs
        split_ifs at hs with hv
        · cases hs
          exact bufferInv_submit _ _ tip _ h ht (auction_generateBlock_linkOk _ _ _ _)
        · cases hs
          exact h
    · cases hs
      exact h

theorem auction_reachable_bufferInv (s : Auction.State) (h : Auction.Reachable s) :
    BufferInv s.Blockchain s.tempBlocks := by
  induction h with
  | startup ts =>
    exact ⟨ledgerInv_genesis ts, fun _ _ b hb => absurd hb (List.not_mem_nil b)⟩
  | register s ts balance _ ih => exact ih
  | bid s s' session bpm bid ts _ hs ih => exact auction_handleBid_bufferInv s s' _ _ _ _ ih hs
  | round s s' threshold _ hs _ _ ih => exact auction_pickWinner_bufferInv s s' threshold ih hs

theorem lottery_pickWinner_bufferInv (s s' : Lottery.State) (draw : Nat)
    (h : BufferInv s.Blockchain s.tempBlocks) (hs : Lottery.pickWinner s draw = some s') :
    BufferInv s'.Blockchain s'.tempBlocks := by
  unfold Lottery.pickWinner at hs
  simp only [] at hs
  split_ifs at hs with h1
  · cases hp : Lottery.fillPool s.validators s.tempBlocks [] with
    | none => simp [hp] at hs
    | some pool =>
      simp only [hp] at hs
      split_ifs at hs with h2
      cases hd : pool[draw]? with
      | none => simp [hd] at hs
      | some w =>
        simp only [hd] at hs
        cases hf : Lottery.firstByValidator s.tempBlocks w with
        | none =>
          simp only [hf] at hs
          cases hs
          exact bufferInv_clear _ _ h
        | some b =>
          simp only [hf] at hs
          cases hs
          exact bufferInv_commit _ _ b b.Validator b.Transfer h
            (lottery_firstByValidator_mem _ _ _ hf).1
  · cases hs
    exact bufferInv_clear _ _ h

theorem lottery_handleBid_bufferInv (s s' : Lottery.State) (address : String) (bpm bid : Int)
    (ts : String) (h : BufferInv s.Blockchain s.tempBlocks)
    (hs : Lottery.handleBid s address bpm bid ts = some s') :
    BufferInv s'.Blockchain s'.tempBlocks := by
  unfold Lottery.handleBid at hs
  cases hn : mapGet? s.validators address with
  | none => simp [hn] at hs
  | some node =>
    simp only [hn] at hs
    split_ifs at hs with hb
    · cases hs
      exact h
    · cases ht : s.Blockchain.getLast? with
      | none => simp [ht] at hs
      | some tip =>
        simp only [ht] at hs
        split_ifs at hs with hv
        · cases hs
          exact bufferInv_submit _ _ tip _ h ht (lottery_generateBlock_linkOk _ _ _ _ _)
        · cases hs
          exact h

theorem lottery_reachable_bufferInv (s : Lottery.State) (h : Lottery.Reachable s) :
    BufferInv s.Blockchain s.tempBlocks := by
  induction h with
  | startup ts =>
    exact ⟨ledgerInv_genesis ts, fun _ _ b hb => absurd hb (List.not_mem_nil b)⟩
  | register s ts balance _ ih => exact ih
  | bid s s' address bpm bid ts _ hs ih => exact lottery_handleBid_bufferInv s s' _ _ _ _ ih hs
  | round s s' draw _ hs ih => exact lottery_pickWinner_bufferInv s s' draw ih hs

/-- C1: in every reachable state of the auction program and of the lottery program,
every block at a position `i ≥ 1` of `Blockchain` has Index `i`, has as PrevHash the
Hash of the block before it, and has as Hash its own content hash. -/
theorem chain_invariant (sa : Auction.State) (sl : Lottery.State)
    (ha : Auction.Reachable sa) (hl : Lottery.Reachable sl) :
    ChainLinked sa.Blockchain ∧ ChainLinked sl.Blockchain :=
  ⟨(auction_reachable_bufferInv sa ha).1.2.2, (lottery_reachable_bufferInv sl hl).1.2.2⟩

/-! ## The weighted draw of the auction -/

theorem mapGet?_of_mem {α : Type} (m : List (String × α)) (k : String) (v : α)
    (hnd : (mapKeys m).Nodup) (h : (k, v) ∈ m) : mapGet? m k = some v := by
  induction m with
  | nil => simp at h
  | cons x rest ih =>
    obtain ⟨k', v'⟩ := x
    simp only [mapKeys, List.map_cons, List.nodup_cons] at hnd
    unfold mapGet?
    rcases List.mem_cons.mp h with heq | hmem
    · cases heq
      simp
    · have hne : k' ≠ k := by
        intro hk
        apply hnd.1
        rw [hk]
        exact List.mem_map.mpr ⟨(k, v), hmem, rfl⟩
      rw [if_neg hne]
      exact ih hnd.2 hmem

theorem mapGet?_mem {α : Type} (m : List (String × α)) (k : String) (v : α)
    (h : mapGet? m k = some v) : (k, v) ∈ m := by
  induction m with
  | nil => simp [mapGet?] at h
  | cons x rest ih =>
    obtain ⟨k', v'⟩ := x
    unfold mapGet? at h
    split_ifs at h with hk
    · cases h
      rw [hk]
      exact List.mem_cons_self _ _
    · exact List.mem_cons_of_mem _ (ih h)

theorem mapGet?_eq_none {α : Type} (m : List (String × α)) (k : String) :
    mapGet? m k = none ↔ k ∉ mapKeys m := by
  induction m with
  | nil => simp [mapGet?, mapKeys]
  | cons x rest ih =>
    obtain ⟨k', v'⟩ := x
    unfold mapGet?
    by_cases hk : k' = k
    · simp [hk, mapKeys]
    · rw [if_neg hk, ih]
      simp only [mapKeys, List.map_cons, List.mem_cons, not_or]
      constructor
      · intro h
        exact ⟨fun h' => hk h'.symm, h⟩
      · intro h
        exact h.2

theorem weightOf_of_mem (weights : List (String × Int)) (p : String × Int)
    (hnd : (mapKeys weights).Nodup) (h : p ∈ weights) : weightOf weights p.1 = p.2 := by
  unfold weightOf
  rw [mapGet?_of_mem weights p.1 p.2 hnd h]
  rfl

theorem weightOf_pos_iff (weights : List (String × Int)) (k : String)
    (hnd : (mapKeys weights).Nodup) :
    0 < weightOf weights k ↔ k ∈ mapKeys (Auction.positiveEntries weights) := by
  constructor
  · intro h
    unfold weightOf at h
    cases hg : mapGet? weights k with
    | none => rw [hg] at h; simp at h
    | some v =>
      rw [hg] at h
      simp only [Option.getD_some] at h
      have hm := mapGet?_mem weights k v hg
      exact List.mem_map.mpr ⟨(k, v), by simp [Auction.positiveEntries, hm, h], rfl⟩
  · intro h
    obtain ⟨p, hp, hk⟩ := List.mem_map.mp h
    simp only [Auction.positiveEntries, List.mem_filter, decide_eq_true_eq] at hp
    rw [← hk, weightOf_of_mem weights p hnd hp.1]
    exact hp.2

theorem nodup_keys_filter {α : Type} (m : List (String × α)) (f : String × α → Bool)
    (hnd : (mapKeys m).Nodup) : (mapKeys (m.filter f)).Nodup :=
  List.Nodup.sublist (List.Sublist.map _ (List.filter_sublist m)) hnd

theorem sum_snd_eq_wsum (weights q : List (String × Int)) (hnd : (mapKeys weights).Nodup)
    (hq : ∀ p ∈ q, p ∈ weights) : (q.map Prod.snd).sum = wsum weights (mapKeys q) := by
  unfold wsum mapKeys
  rw [List.map_map]
  congr 1
  apply List.map_congr_left
  intro p hp
  exact (weightOf_of_mem weights p hnd (hq p hp)).symm

theorem wsum_eq_finset (weights : List (String × Int)) (ks : List String) (hnd : ks.Nodup) :
    wsum weights ks = ks.toFinset.sum (weightOf weights) :=
  (List.sum_toFinset (weightOf weights) hnd).symm

theorem mem_bidders (weights : List (String × Int)) (k : String)
    (hnd : (mapKeys weights).Nodup) : k ∈ bidders weights ↔ 0 < weightOf weights k := by
  unfold bidders
  rw [List.mem_toFinset]
  exact (weightOf_pos_iff weights k hnd).symm

theorem weightSum_eq_finset (weights : List (String × Int)) (hnd : (mapKeys weights).Nodup) :
    Auction.weightSum weights = (bidders weights).sum (weightOf weights) := by
  unfold Auction.weightSum bidders Auction.positiveEntries
  rw [sum_snd_eq_wsum weights _ hnd (fun p hp => (List.mem_filter.mp hp).1)]
  exact wsum_eq_finset weights _ (nodup_keys_filter weights _ hnd)

theorem weightBelow_eq_finset (weights : List (String × Int)) (a : String)
    (hnd : (mapKeys weights).Nodup) :
    Auction.weightBelow weights a =
      ((bidders weights).filter (fun k => k < a)).sum (weightOf weights) := by
  unfold Auction.weightBelow
  rw [sum_snd_eq_wsum weights _ hnd (fun p hp => (List.mem_filter.mp hp).1)]
  rw [wsum_eq_finset weights _ (nodup_keys_filter weights _ hnd)]
  congr 1
  ext k
  simp only [List.mem_toFinset, Finset.mem_filter, bidders, mapKeys, List.mem_map,
    List.mem_filter, decide_eq_true_eq, Auction.positiveEntries]
  constructor
  · rintro ⟨p, ⟨hp, hpos, hlt⟩, rfl⟩
    exact ⟨⟨p, ⟨hp, hpos⟩, rfl⟩, hlt⟩
  · rintro ⟨⟨p, ⟨hp, hpos⟩, rfl⟩, hlt⟩
    exact ⟨p, ⟨hp, hpos, hlt⟩, rfl⟩

theorem idealWalk_spec (weights : List (String × Int)) (t : Int) (ks : List String) (c : Int)
    (hc : c ≤ t) (ht : t < c + wsum weights ks) :
    ∃ pre r post, ks = pre ++ r :: post ∧ Auction.idealWalk weights t ks c = some r ∧
      c + wsum weights pre ≤ t ∧ t < c + wsum weights pre + weightOf weights r := by
  induction ks generalizing c with
  | nil =>
    simp only [wsum, List.map_nil, List.sum_nil] at ht
    omega
  | cons k rest ih =>
    unfold Auction.idealWalk
    by_cases hk : t < c + weightOf weights k
    · refine ⟨[], k, rest, rfl, ?_, ?_, ?_⟩
      · simp [hk]
      · simpa [wsum] using hc
      · simpa [wsum] using hk
    · have hc' : c + weightOf weights k ≤ t := by omega
      have ht' : t < c + weightOf weights k + wsum weights rest := by
        simp only [wsum, List.map_cons, List.sum_cons] at ht ⊢
        omega
      obtain ⟨pre, r, post, hks, hw, h1, h2⟩ := ih (c + weightOf weights k) hc' ht'
      refine ⟨k :: pre, r, post, by rw [hks]; rfl, ?_, ?_, ?_⟩
      · simp only [hk, if_false]
        exact hw
      · simp only [wsum, List.map_cons, List.sum_cons] at h1 ⊢
        omega
      · simp only [wsum, List.map_cons, List.sum_cons] at h2 ⊢
        omega

theorem sortedKeys_perm (weights : List (String × Int)) :
    (Auction.sortedKeys weights).Perm (mapKeys (Auction.positiveEntries weights)) :=
  List.perm_insertionSort _ _

theorem sortedKeys_sorted (weights : List (String × Int)) :
    (Auction.sortedKeys weights).Pairwise (fun a b => a ≤ b) := by
  have htot : IsTotal String (fun a b => a.data ≤ b.data) := ⟨fun a b => le_total a.data b.data⟩
  have htr : IsTrans String (fun a b => a.data ≤ b.data) :=
    ⟨fun a b c h1 h2 => le_trans h1 h2⟩
  have h := List.sorted_insertionSort (fun a b : String => a.data ≤ b.data)
    (mapKeys (Auction.positiveEntries weights))
  exact List.Pairwise.imp (fun {a b} hab => String.le_iff_toList_le.mpr hab) h

theorem sortedKeys_nodup (weights : List (String × Int)) (hnd : (mapKeys weights).Nodup) :
    (Auction.sortedKeys weights).Nodup :=
  (sortedKeys_perm weights).nodup_iff.mpr (nodup_keys_filter weights _ hnd)

theorem sortedKeys_toFinset (weights : List (String × Int)) :
    (Auction.sortedKeys weights).toFinset = bidders weights :=
  List.toFinset_eq_of_perm _ _ (sortedKeys_perm weights)

theorem initial_toFinset (ks pre post : List String) (r : String) (hks : ks = pre ++ r :: post)
    (hs : ks.Pairwise (fun a b => a ≤ b)) (hnd : ks.Nodup) :
    pre.toFinset = ks.toFinset.filter (fun k => k < r) := by
  subst hks
  rw [List.pairwise_append] at hs
  obtain ⟨_, hr, hpre⟩ := hs
  rw [List.pairwise_cons] at hr
  rw [List.nodup_append] at hnd
  obtain ⟨_, _, hdis⟩ := hnd
  ext k
  simp only [List.mem_toFinset, Finset.mem_filter, List.mem_append, List.mem_cons]
  constructor
  · intro hk
    refine ⟨Or.inl hk, lt_of_le_of_ne (hpre k hk r (List.mem_cons_self _ _)) ?_⟩
    intro hkr
    subst hkr
    exact hdis hk (List.mem_cons_self _ _)
  · rintro ⟨hk | hk | hk, hlt⟩
    · exact hk
    · exact absurd hlt (by rw [hk]; exact lt_irrefl _)
    · exact absurd hlt (not_lt.mpr (hr.1 k hk))

theorem weightBelow_nonneg (weights : List (String × Int)) (a : String)
    (hnd : (mapKeys weights).Nodup) : 0 ≤ Auction.weightBelow weights a := by
  rw [weightBelow_eq_finset weights a hnd]
  apply Finset.sum_nonneg
  intro k hk
  exact le_of_lt ((mem_bidders weights k hnd).mp (Finset.mem_filter.mp hk).1)

theorem weightBelow_step (weights : List (String × Int)) (a r : String)
    (hnd : (mapKeys weights).Nodup) (ha : 0 < weightOf weights a) (har : a < r) :
    Auction.weightBelow weights a + weightOf weights a ≤ Auction.weightBelow weights r := by
  rw [weightBelow_eq_finset weights a hnd, weightBelow_eq_finset weights r hnd]
  have hnot : a ∉ (bidders weights).filter (fun k => k < a) := by
    intro h
    exact lt_irrefl a (Finset.mem_filter.mp h).2
  rw [add_comm, ← Finset.sum_insert hnot]
  apply Finset.sum_le_sum_of_subset_of_nonneg
  · intro k hk
    rcases Finset.mem_insert.mp hk with hka | hk'
    · rw [hka]
      exact Finset.mem_filter.mpr ⟨(mem_bidders weights a hnd).mpr ha, har⟩
    · have := Finset.mem_filter.mp hk'
      exact Finset.mem_filter.mpr ⟨this.1, lt_trans this.2 har⟩
  · intro k hk _
    exact le_of_lt ((mem_bidders weights k hnd).mp (Finset.mem_filter.mp hk).1)

theorem weightBelow_le_total (weights : List (String × Int)) (a : String)
    (hnd : (mapKeys weights).Nodup) (ha : 0 < weightOf weights a) :
    Auction.weightBelow weights a + weightOf weights a ≤ Auction.weightSum weights := by
  rw [weightBelow_eq_finset weights a hnd, weightSum_eq_finset weights hnd]
  have hnot : a ∉ (bidders weights).filter (fun k => k < a) := by
    intro h
    exact lt_irrefl a (Finset.mem_filter.mp h).2
  rw [add_comm, ← Finset.sum_insert hnot]
  apply Finset.sum_le_sum_of_subset_of_nonneg
  · intro k hk
    rcases Finset.mem_insert.mp hk with hka | hk'
    · rw [hka]
      exact (mem_bidders weights a hnd).mpr ha
    · exact (Finset.mem_filter.mp hk').1
  · intro k hk _
    exact le_of_lt ((mem_bidders weights k hnd).mp hk)

theorem idealWinner_spec (weights : List (String × Int)) (t : Int)
    (hnd : (mapKeys weights).Nodup) (h0 : 0 ≤ t) (ht : t < Auction.weightSum weights) :
    ∃ r, Auction.idealWalk weights t (Auction.sortedKeys weights) 0 = some r ∧
      Auction.idealWinner weights t = r ∧ 0 < weightOf weights r ∧
      Auction.weightBelow weights r ≤ t ∧
      t < Auction.weightBelow weights r + weightOf weights r := by
  have hsnd := sortedKeys_nodup weights hnd
  have htotal : wsum weights (Auction.sortedKeys weights) = Auction.weightSum weights := by
    rw [wsum_eq_finset weights _ hsnd, sortedKeys_toFinset, weightSum_eq_finset weights hnd]
  obtain ⟨pre, r, post, hks, hw, h1, h2⟩ :=
    idealWalk_spec weights t (Auction.sortedKeys weights) 0 h0 (by rw [htotal]; omega)
  have hrmem : r ∈ Auction.sortedKeys weights := by
    rw [hks]
    exact List.mem_append_right _ (List.mem_cons_self _ _)
  have hrkeys : r ∈ mapKeys (Auction.positiveEntries weights) :=
    (sortedKeys_perm weights).mem_iff.mp hrmem
  have hpre : wsum weights pre = Auction.weightBelow weights r := by
    have hpnd : pre.Nodup := by
      rw [hks] at hsnd
      exact (List.nodup_append.mp hsnd).1
    rw [wsum_eq_finset weights pre hpnd,
      initial_toFinset _ pre post r hks (sortedKeys_sorted weights) hsnd, sortedKeys_toFinset,
      weightBelow_eq_finset weights r hnd]
  refine ⟨r, hw, ?_, (weightOf_pos_iff weights r hnd).mpr hrkeys, ?_, ?_⟩
  · unfold Auction.idealWinner
    have hne : ¬ (Auction.weightSum weights = 0 ∨
        (mapKeys (Auction.positiveEntries weights)).length = 0) := by
      rintro (h | h)
      · omega
      · rw [List.length_eq_zero.mp h] at hrkeys
        exact absurd hrkeys (List.not_mem_nil r)
    simp only [hne, if_false, hw]
  · rw [← hpre]; omega
  · rw [← hpre]; omega

theorem idealWinner_eq_iff (weights : List (String × Int)) (t : Int) (a : String)
    (hnd : (mapKeys weights).Nodup) (h0 : 0 ≤ t) (ht : t < Auction.weightSum weights) :
    Auction.idealWinner weights t = a ↔
      0 < weightOf weights a ∧ Auction.weightBelow weights a ≤ t ∧
        t < Auction.weightBelow weights a + weightOf weights a := by
  obtain ⟨r, _, hr, hpos, hlo, hhi⟩ := idealWinner_spec weights t hnd h0 ht
  rw [hr]
  constructor
  · intro h
    subst h
    exact ⟨hpos, hlo, hhi⟩
  · rintro ⟨hapos, halo, hahi⟩
    rcases lt_trichotomy r a with h | h | h
    · have := weightBelow_step weights r a hnd hpos h
      omega
    · exact h
    · have := weightBelow_step weights a r hnd hapos h
      omega

theorem idealWinner_count (weights : List (String × Int)) (a : String)
    (hnd : (mapKeys weights).Nodup) :
    ((Finset.Ico 0 (Auction.weightSum weights)).filter
        (fun u => Auction.idealWinner weights u = a)).card =
      if 0 < weightOf weights a then (weightOf weights a).toNat else 0 := by
  by_cases ha : 0 < weightOf weights a
  · rw [if_pos ha]
    have hset : (Finset.Ico 0 (Auction.weightSum weights)).filter
        (fun u => Auction.idealWinner weights u = a) =
        Finset.Ico (Auction.weightBelow weights a)
          (Auction.weightBelow weights a + weightOf weights a) := by
      ext u
      simp only [Finset.mem_filter, Finset.mem_Ico]
      constructor
      · rintro ⟨⟨h0, ht⟩, hu⟩
        exact ((idealWinner_eq_iff weights u a hnd h0 ht).mp hu).2
      · rintro ⟨hlo, hhi⟩
        have h0 : 0 ≤ u := le_trans (weightBelow_nonneg weights a hnd) hlo
        have ht : u < Auction.weightSum weights :=
          lt_of_lt_of_le hhi (weightBelow_le_total weights a hnd ha)
        exact ⟨⟨h0, ht⟩, (idealWinner_eq_iff weights u a hnd h0 ht).mpr ⟨ha, hlo, hhi⟩⟩
    rw [hset, Int.card_Ico]
    congr 1
    omega
  · rw [if_neg ha]
    rw [Finset.card_eq_zero, Finset.filter_eq_empty_iff]
    intro u hu huw
    have hu' := Finset.mem_Ico.mp hu
    exact ha ((idealWinner_eq_iff weights u a hnd hu'.1 hu'.2).mp huw).1

/-! ### The draw in `int` arithmetic -/

theorem wrap64_idem (x : Int) : wrap64 (wrap64 x) = wrap64 x :=
  wrap64_of_isInt64 _ (wrap64_isInt64 x)

theorem foldl_wrap_sum (l : List (String × Int)) (c : Int) (hc : wrap64 c = c) :
    l.foldl (fun total p => wrap64 (total + p.2)) c = wrap64 (c + (l.map Prod.snd).sum) := by
  induction l generalizing c with
  | nil => simp [hc]
  | cons x rest ih =>
    simp only [List.foldl_cons, List.map_cons, List.sum_cons]
    rw [ih _ (wrap64_idem _), wrap64_add_wrap64]
    congr 1
    ring

theorem totalWeight_eq_wrap (weights : List (String × Int)) :
    Auction.totalWeight weights = wrap64 (Auction.weightSum weights) := by
  unfold Auction.totalWeight Auction.weightSum
  rw [foldl_wrap_sum _ 0 (by decide)]
  simp

theorem weightSum_nonneg (weights : List (String × Int)) : 0 ≤ Auction.weightSum weights := by
  unfold Auction.weightSum
  apply List.sum_nonneg
  intro x hx
  obtain ⟨p, hp, rfl⟩ := List.mem_map.mp hx
  have := (List.mem_filter.mp hp).2
  simp only [decide_eq_true_eq] at this
  exact le_of_lt this

theorem totalWeight_eq_weightSum (weights : List (String × Int))
    (h : Auction.weightSum weights < 9223372036854775808) :
    Auction.totalWeight weights = Auction.weightSum weights := by
  rw [totalWeight_eq_wrap]
  exact wrap64_of_isInt64 _ ⟨by have := weightSum_nonneg weights; omega, h⟩

theorem wsum_nonneg_of_pos (weights : List (String × Int)) (ks : List String)
    (hpos : ∀ k ∈ ks, 0 ≤ weightOf weights k) : 0 ≤ wsum weights ks := by
  unfold wsum
  apply List.sum_nonneg
  intro x hx
  obtain ⟨k, hk, rfl⟩ := List.mem_map.mp hx
  exact hpos k hk

theorem walk_eq_idealWalk (weights : List (String × Int)) (t : Int) (ks : List String)
    (c : Int) (h0 : 0 ≤ c) (hpos : ∀ k ∈ ks, 0 ≤ weightOf weights k)
    (hb : c + wsum weights ks < 9223372036854775808) :
    Auction.walk weights t ks c = Auction.idealWalk weights t ks c := by
  induction ks generalizing c with
  | nil => rfl
  | cons k rest ih =>
    unfold Auction.walk Auction.idealWalk
    have hk := hpos k (List.mem_cons_self _ _)
    have hrest : ∀ x ∈ rest, 0 ≤ weightOf weights x :=
      fun x hx => hpos x (List.mem_cons_of_mem _ hx)
    have hr := wsum_nonneg_of_pos weights rest hrest
    have hsum : wsum weights (k :: rest) = weightOf weights k + wsum weights rest := by
      simp [wsum]
    rw [hsum] at hb
    have hw : wrap64 (c + weightOf weights k) = c + weightOf weights k :=
      wrap64_of_isInt64 _ ⟨by omega, by omega⟩
    simp only [hw]
    rw [ih (c + weightOf weights k) (by omega) hrest (by omega)]

theorem wsum_sortedKeys (weights : List (String × Int)) (hnd : (mapKeys weights).Nodup) :
    wsum weights (Auction.sortedKeys weights) = Auction.weightSum weights := by
  rw [wsum_eq_finset weights _ (sortedKeys_nodup weights hnd), sortedKeys_toFinset,
    weightSum_eq_finset weights hnd]

theorem sortedKeys_pos (weights : List (String × Int)) (hnd : (mapKeys weights).Nodup) :
    ∀ k ∈ Auction.sortedKeys weights, 0 < weightOf weights k := by
  intro k hk
  rw [weightOf_pos_iff weights k hnd]
  exact (sortedKeys_perm weights).mem_iff.mp hk

theorem walk_sortedKeys (weights : List (String × Int)) (t : Int)
    (hnd : (mapKeys weights).Nodup) (h : Auction.weightSum weights < 9223372036854775808) :
    Auction.walk weights t (Auction.sortedKeys weights) 0 =
      Auction.idealWalk weights t (Auction.sortedKeys weights) 0 := by
  apply walk_eq_idealWalk weights t _ 0 (le_refl 0)
  · intro k hk
    exact le_of_lt (sortedKeys_pos weights hnd k hk)
  · rw [wsum_sortedKeys weights hnd]
    omega

theorem weightedWinner_eq_ideal (weights : List (String × Int)) (t : Int)
    (hnd : (mapKeys weights).Nodup) (h : Auction.weightSum weights < 9223372036854775808) :
    Auction.weightedWinner weights t = some (Auction.idealWinner weights t) := by
  unfold Auction.weightedWinner Auction.idealWinner
  simp only []
  rw [totalWeight_eq_weightSum weights h, walk_sortedKeys weights t hnd h]
  have hnn := weightSum_nonneg weights
  by_cases hc : Auction.weightSum weights = 0 ∨
      (mapKeys (Auction.positiveEntries weights)).length = 0
  · rw [if_pos hc, if_pos hc]
  · rw [if_neg hc, if_neg hc]
    have hpos : ¬ Auction.weightSum weights ≤ 0 := by
      intro hle
      exact hc (Or.inl (by omega))
    rw [if_neg hpos]
    cases Auction.idealWalk weights t (Auction.sortedKeys weights) 0 <;> rfl

/-- C4, as the code has it: for a weight map with distinct keys whose positive
weights sum to `T ≤ 2^63 - 1` and a threshold `t` in `[0, T)`, `weightedWinner` does
not panic and its cumulative walk returns (the trailing fallback is not reached); the
result has a positive weight and is the first address in lexicographic order whose
cumulative weight exceeds `t`; each address is selected by exactly as many thresholds
as its positive weight (by none when its weight is not positive); and the result is
not the empty string provided the empty string is not itself a positively weighted
address. -/
theorem weightedWinner_proportional (weights : List (String × Int)) (t : Int)
    (hnd : (mapKeys weights).Nodup)
    (hsum : Auction.weightSum weights < 9223372036854775808)
    (h0 : 0 ≤ t) (ht : t < Auction.weightSum weights) :
    Auction.totalWeight weights = Auction.weightSum weights ∧
    ∃ r, Auction.weightedWinner weights t = some r ∧
      Auction.walk weights t (Auction.sortedKeys weights) 0 = some r ∧
      0 < weightOf weights r ∧
      t < Auction.weightBelow weights r + weightOf weights r ∧
      (∀ a, 0 < weightOf weights a → t < Auction.weightBelow weights a + weightOf weights a →
        r ≤ a) ∧
      (∀ a, ((Finset.Ico 0 (Auction.weightSum weights)).filter
          (fun u => Auction.weightedWinner weights u = some a)).card =
        if 0 < weightOf weights a then (weightOf weights a).toNat else 0) ∧
      (weightOf weights "" ≤ 0 → r ≠ "") := by
  obtain ⟨r, hw, hr, hpos, hlo, hhi⟩ := idealWinner_spec weights t hnd h0 ht
  refine ⟨totalWeight_eq_weightSum weights hsum, r, ?_, ?_, hpos, hhi, ?_, ?_, ?_⟩
  · rw [weightedWinner_eq_ideal weights t hnd hsum, hr]
  · rw [walk_sortedKeys weights t hnd hsum]
    exact hw
  · intro a hapos hahi
    by_contra hnot
    have := weightBelow_step weights a r hnd hapos (not_le.mp hnot)
    omega
  · intro a
    rw [← idealWinner_count weights a hnd]
    congr 1
    apply Finset.filter_congr
    intro u _
    rw [weightedWinner_eq_ideal weights u hnd hsum]
    simp
  · intro hempty hre
    rw [hre] at hpos
    omega

/-! ## The second price -/

theorem firstOther_spec (ordered : List BidItem) (winner : String)
    (hs : ordered.Pairwise (fun a b => b.Bid ≤ a.Bid)) :
    (∃ item ∈ ordered, item.NodeAddress ≠ winner ∧ item.Bid = Auction.firstOther ordered winner ∧
        ∀ other ∈ ordered, other.NodeAddress ≠ winner →
          other.Bid ≤ Auction.firstOther ordered winner) ∨
      ((∀ item ∈ ordered, item.NodeAddress = winner) ∧ Auction.firstOther ordered winner = 0) := by
  induction ordered with
  | nil => right; exact ⟨fun _ h => absurd h (List.not_mem_nil _), rfl⟩
  | cons x rest ih =>
    rw [List.pairwise_cons] at hs
    unfold Auction.firstOther
    by_cases hx : x.NodeAddress = winner
    · rw [if_pos hx]
      rcases ih hs.2 with ⟨item, hmem, hne, hbid, hmax⟩ | ⟨hall, hzero⟩
      · left
        refine ⟨item, List.mem_cons_of_mem _ hmem, hne, hbid, ?_⟩
        intro other ho hone
        rcases List.mem_cons.mp ho with h | h
        · rw [h] at hone
          exact absurd hx hone
        · exact hmax other h hone
      · right
        refine ⟨?_, hzero⟩
        intro item hi
        rcases List.mem_cons.mp hi with h | h
        · rw [h]; exact hx
        · exact hall item h
    · rw [if_neg hx]
      left
      refine ⟨x, List.mem_cons_self _ _, hx, rfl, ?_⟩
      intro other ho _
      rcases List.mem_cons.mp ho with h | h
      · rw [h]
      · exact hs.1 other h

theorem mem_bidEntries (weights : List (String × Int)) (item : BidItem) :
    item ∈ Auction.bidEntries weights ↔ (item.NodeAddress, item.Bid) ∈ weights ∧ 0 < item.Bid := by
  unfold Auction.bidEntries Auction.positiveEntries
  simp only [List.mem_map, List.mem_filter, decide_eq_true_eq]
  constructor
  · rintro ⟨p, ⟨hp, hpos⟩, rfl⟩
    exact ⟨hp, hpos⟩
  · rintro ⟨hp, hpos⟩
    exact ⟨(item.NodeAddress, item.Bid), ⟨hp, hpos⟩, rfl⟩

theorem firstOther_isSecondPrice (weights : List (String × Int)) (winner : String)
    (ordered : List BidItem) (hperm : ordered.Perm (Auction.bidEntries weights))
    (hs : ordered.Pairwise (fun a b => b.Bid ≤ a.Bid)) :
    Auction.IsSecondPrice weights winner (Auction.firstOther ordered winner) := by
  rcases firstOther_spec ordered winner hs with ⟨item, hmem, hne, hbid, hmax⟩ | ⟨hall, hzero⟩
  · left
    have hi := (mem_bidEntries weights item).mp (hperm.mem_iff.mp hmem)
    refine ⟨(item.NodeAddress, item.Bid), hi.1, hne, hi.2, hbid, ?_⟩
    intro q hq hqne hqpos
    have hqm : (⟨q.1, q.2⟩ : BidItem) ∈ ordered :=
      hperm.mem_iff.mpr ((mem_bidEntries weights ⟨q.1, q.2⟩).mpr ⟨hq, hqpos⟩)
    exact hmax ⟨q.1, q.2⟩ hqm hqne
  · right
    refine ⟨?_, hzero⟩
    intro q hq hqne
    by_contra hpos
    have hqm : (⟨q.1, q.2⟩ : BidItem) ∈ ordered :=
      hperm.mem_iff.mpr ((mem_bidEntries weights ⟨q.1, q.2⟩).mpr ⟨hq, not_le.mp hpos⟩)
    exact hqne (hall ⟨q.1, q.2⟩ hqm)

theorem isSecondPrice_unique (weights : List (String × Int)) (winner : String) (m n : Int)
    (hm : Auction.IsSecondPrice weights winner m) (hn : Auction.IsSecondPrice weights winner n) :
    m = n := by
  rcases hm with ⟨p, hp, hpne, hppos, hpm, hpmax⟩ | ⟨hall, hm0⟩ <;>
    rcases hn with ⟨q, hq, hqne, hqpos, hqn, hqmax⟩ | ⟨hall', hn0⟩
  · have h1 := hpmax q hq hqne hqpos
    have h2 := hqmax p hp hpne hppos
    omega
  · have := hall' p hp hpne
    omega
  · have := hall q hq hqne
    omega
  · omega

theorem secondHighestBid_isSecondPrice (weights : List (String × Int)) (winner : String) :
    Auction.IsSecondPrice weights winner (Auction.secondHighestBid weights winner) := by
  have htot : IsTotal BidItem (fun a b => b.Bid ≤ a.Bid) := ⟨fun a b => le_total b.Bid a.Bid⟩
  have htr : IsTrans BidItem (fun a b => b.Bid ≤ a.Bid) := ⟨fun a b c h1 h2 => le_trans h2 h1⟩
  exact firstOther_isSecondPrice weights winner _ (List.perm_insertionSort _ _)
    (List.sorted_insertionSort (fun a b : BidItem => b.Bid ≤ a.Bid) _)

/-- C5: whichever way the sort orders the positive entries of the weight map (any
permutation of them in non-increasing order of bid), the scan of `secondHighestBid`
returns the same value, and that value is the maximum weight among the addresses
other than `winner` with a positive weight, or 0 when there is no such address. -/
theorem secondHighestBid_max (weights : List (String × Int)) (winner : String)
    (ordered : List BidItem) (hperm : ordered.Perm (Auction.bidEntries weights))
    (hs : ordered.Pairwise (fun a b => b.Bid ≤ a.Bid)) :
    Auction.firstOther ordered winner = Auction.secondHighestBid weights winner ∧
      Auction.IsSecondPrice weights winner (Auction.secondHighestBid weights winner) :=
  ⟨isSecondPrice_unique weights winner _ _ (firstOther_isSecondPrice weights winner ordered hperm hs)
      (secondHighestBid_isSecondPrice weights winner),
    secondHighestBid_isSecondPrice weights winner⟩

theorem mapGet?_mapSet_same {α : Type} (m : List (String × α)) (k : String) (v : α) :
    mapGet? (mapSet m k v) k = some v := by
  induction m with
  | nil => simp [mapSet, mapGet?]
  | cons x rest ih =>
    obtain ⟨k', v'⟩ := x
    unfold mapSet
    by_cases hk : k' = k
    · simp [hk, mapGet?]
    · simp only [hk, if_false]
      unfold mapGet?
      simp only [hk, if_false]
      exact ih

theorem mapGet?_mapSet_other {α : Type} (m : List (String × α)) (k a : String) (v : α)
    (h : a ≠ k) : mapGet? (mapSet m k v) a = mapGet? m a := by
  induction m with
  | nil =>
    have hk : ¬ k = a := fun h' => h h'.symm
    simp [mapSet, mapGet?, hk]
  | cons x rest ih =>
    obtain ⟨k', v'⟩ := x
    unfold mapSet
    by_cases hk : k' = k
    · have hka : ¬ k' = a := fun h' => h (h'.symm.trans hk)
      have hka' : ¬ k = a := fun h' => h h'.symm
      simp [hk, mapGet?, hka']
    · simp only [hk, if_false]
      unfold mapGet?
      by_cases hka : k' = a
      · simp [hka]
      · simp only [hka, if_false]
        exact ih

theorem mapGet?_mapSet {α : Type} (m : List (String × α)) (k a : String) (v : α) :
    mapGet? (mapSet m k v) a = if a = k then some v else mapGet? m a := by
  by_cases h : a = k
  · rw [if_pos h, h]
    exact mapGet?_mapSet_same m k v
  · rw [if_neg h]
    exact mapGet?_mapSet_other m k a v h

theorem mem_mapKeys_mapSet {α : Type} (m : List (String × α)) (k a : String) (v : α) :
    a ∈ mapKeys (mapSet m k v) ↔ a = k ∨ a ∈ mapKeys m := by
  rw [← not_iff_not, ← mapGet?_eq_none, mapGet?_mapSet]
  by_cases h : a = k
  · simp [h]
  · simp [h, mapGet?_eq_none]

theorem mem_mapKeys_iff {α : Type} (m : List (String × α)) (a : String) :
    a ∈ mapKeys m ↔ ∃ v, mapGet? m a = some v := by
  rw [← not_iff_not, ← mapGet?_eq_none]
  cases mapGet? m a <;> simp

theorem nodup_mapKeys_mapSet {α : Type} (m : List (String × α)) (k : String) (v : α)
    (h : (mapKeys m).Nodup) : (mapKeys (mapSet m k v)).Nodup := by
  induction m with
  | nil => simp [mapSet, mapKeys]
  | cons x rest ih =>
    obtain ⟨k', v'⟩ := x
    simp only [mapKeys, List.map_cons, List.nodup_cons] at h
    unfold mapSet
    by_cases hk : k' = k
    · simp only [hk, if_true, mapKeys, List.map_cons, List.nodup_cons]
      rw [← hk]
      exact h
    · simp only [hk, if_false, mapKeys, List.map_cons, List.nodup_cons]
      refine ⟨?_, ih h.2⟩
      intro hmem
      rcases (mem_mapKeys_mapSet rest k k' v).mp hmem with h' | h'
      · exact hk h'
      · exact h.1 h'

/-! ### The aggregation of the bids of a round -/

theorem weightOf_mapSet (weights : List (String × Int)) (k a : String) (v : Int) :
    weightOf (mapSet weights k v) a = if a = k then v else weightOf weights a := by
  unfold weightOf
  rw [mapGet?_mapSet]
  by_cases h : a = k <;> simp [h]

theorem wrap64_le_self (x : Int) (h : 0 ≤ x) : wrap64 x ≤ x := by
  unfold wrap64
  omega

theorem bidTotal_cons (b : BidItem) (rest : List BidItem) (a : String) :
    Auction.bidTotal (b :: rest) a =
      (if b.NodeAddress = a ∧ 0 < b.Bid then b.Bid else 0) + Auction.bidTotal rest a := by
  unfold Auction.bidTotal
  by_cases h : b.NodeAddress = a ∧ 0 < b.Bid
  · simp [List.filter_cons, h]
  · simp [List.filter_cons, h]

theorem aggregate_weightOf (bids : List BidItem) (weights : List (String × Int)) (a : String)
    (hw : wrap64 (weightOf weights a) = weightOf weights a) :
    weightOf (Auction.aggregate bids weights) a =
      wrap64 (weightOf weights a + Auction.bidTotal bids a) := by
  induction bids generalizing weights with
  | nil => simp [Auction.aggregate, Auction.bidTotal, hw]
  | cons b rest ih =>
    unfold Auction.aggregate
    rw [bidTotal_cons]
    by_cases hb : b.Bid ≤ 0
    · rw [if_pos hb, ih weights hw]
      have : ¬ (b.NodeAddress = a ∧ 0 < b.Bid) := fun h => by omega
      rw [if_neg this, zero_add]
    · rw [if_neg hb]
      have hpos : 0 < b.Bid := by omega
      by_cases ha : a = b.NodeAddress
      · have hw' : wrap64 (weightOf (mapSet weights b.NodeAddress
            (wrap64 (weightOf weights b.NodeAddress + b.Bid))) a) =
            weightOf (mapSet weights b.NodeAddress
              (wrap64 (weightOf weights b.NodeAddress + b.Bid))) a := by
          rw [weightOf_mapSet, if_pos ha]
          exact wrap64_of_isInt64 _ (wrap64_isInt64 _)
        rw [ih _ hw', weightOf_mapSet, if_pos ha, if_pos ⟨ha.symm, hpos⟩, wrap64_add_wrap64, ha,
          add_assoc]
      · have hw' : wrap64 (weightOf (mapSet weights b.NodeAddress
            (wrap64 (weightOf weights b.NodeAddress + b.Bid))) a) =
            weightOf (mapSet weights b.NodeAddress
              (wrap64 (weightOf weights b.NodeAddress + b.Bid))) a := by
          rw [weightOf_mapSet, if_neg ha]
          exact hw
        have hna : ¬ (b.NodeAddress = a ∧ 0 < b.Bid) := fun h => ha h.1.symm
        rw [ih _ hw', weightOf_mapSet, if_neg ha, if_neg hna, zero_add]

theorem aggregate_nodup (bids : List BidItem) (weights : List (String × Int))
    (h : (mapKeys weights).Nodup) : (mapKeys (Auction.aggregate bids weights)).Nodup := by
  induction bids generalizing weights with
  | nil => exact h
  | cons b rest ih =>
    unfold Auction.aggregate
    split_ifs
    · exact ih weights h
    · exact ih _ (nodup_mapKeys_mapSet weights _ _ h)

theorem mem_keys_aggregate_of (bids : List BidItem) (weights : List (String × Int))
    (a : String) :
    a ∈ mapKeys (Auction.aggregate bids weights) ↔
      a ∈ mapKeys weights ∨ ∃ item ∈ bids, item.NodeAddress = a ∧ 0 < item.Bid := by
  induction bids generalizing weights with
  | nil => simp [Auction.aggregate]
  | cons b rest ih =>
    unfold Auction.aggregate
    by_cases hb : b.Bid ≤ 0
    · rw [if_pos hb, ih]
      constructor
      · rintro (h | ⟨item, hi, hp⟩)
        · exact Or.inl h
        · exact Or.inr ⟨item, List.mem_cons_of_mem _ hi, hp⟩
      · rintro (h | ⟨item, hi, hp⟩)
        · exact Or.inl h
        · rcases List.mem_cons.mp hi with h | h
          · subst h
            omega
          · exact Or.inr ⟨item, h, hp⟩
    · rw [if_neg hb, ih, mem_mapKeys_mapSet]
      constructor
      · rintro ((h | h) | ⟨item, hi, hp⟩)
        · exact Or.inr ⟨b, List.mem_cons_self _ _, h.symm, by omega⟩
        · exact Or.inl h
        · exact Or.inr ⟨item, List.mem_cons_of_mem _ hi, hp⟩
      · rintro (h | ⟨item, hi, hp⟩)
        · exact Or.inl (Or.inr h)
        · rcases List.mem_cons.mp hi with h | h
          · subst h
            exact Or.inl (Or.inl hp.1.symm)
          · exact Or.inr ⟨item, h, hp⟩

theorem bidTotal_nonneg (bids : List BidItem) (a : String) : 0 ≤ Auction.bidTotal bids a := by
  unfold Auction.bidTotal
  apply List.sum_nonneg
  intro x hx
  obtain ⟨b, hb, rfl⟩ := List.mem_map.mp hx
  have := (List.mem_filter.mp hb).2
  simp only [decide_eq_true_eq] at this
  exact le_of_lt this.2

theorem bidTotal_pos_iff (bids : List BidItem) (a : String) :
    0 < Auction.bidTotal bids a ↔ ∃ item ∈ bids, item.NodeAddress = a ∧ 0 < item.Bid := by
  induction bids with
  | nil => simp [Auction.bidTotal]
  | cons b rest ih =>
    rw [bidTotal_cons]
    have hrest := bidTotal_nonneg rest a
    constructor
    · intro h
      by_cases hb : b.NodeAddress = a ∧ 0 < b.Bid
      · exact ⟨b, List.mem_cons_self _ _, hb⟩
      · rw [if_neg hb] at h
        obtain ⟨item, hi, hp⟩ := ih.mp (by omega)
        exact ⟨item, List.mem_cons_of_mem _ hi, hp⟩
    · rintro ⟨item, hi, hp⟩
      rcases List.mem_cons.mp hi with h | h
      · subst h
        rw [if_pos hp]
        omega
      · have := ih.mpr ⟨item, h, hp⟩
        split_ifs <;> omega

theorem weightOf_aggregate (bids : List BidItem) (a : String) :
    weightOf (Auction.aggregate bids []) a = wrap64 (Auction.bidTotal bids a) := by
  rw [aggregate_weightOf bids [] a (by simp [weightOf, mapGet?, wrap64])]
  simp [weightOf, mapGet?]

theorem weightOf_aggregate_le (bids : List BidItem) (a : String) :
    weightOf (Auction.aggregate bids []) a ≤ Auction.bidTotal bids a := by
  rw [weightOf_aggregate]
  exact wrap64_le_self _ (bidTotal_nonneg bids a)

theorem aggregate_nodup_nil (bids : List BidItem) :
    (mapKeys (Auction.aggregate bids [])).Nodup :=
  aggregate_nodup bids [] (by simp [mapKeys])

theorem mem_keys_aggregate (bids : List BidItem) (a : String) :
    a ∈ mapKeys (Auction.aggregate bids []) ↔
      ∃ item ∈ bids, item.NodeAddress = a ∧ 0 < item.Bid := by
  rw [mem_keys_aggregate_of]
  simp [mapKeys]

theorem mem_keys_positiveEntries (weights : List (String × Int)) (a : String)
    (h : a ∈ mapKeys (Auction.positiveEntries weights)) : a ∈ mapKeys weights := by
  obtain ⟨p, hp, rfl⟩ := List.mem_map.mp h
  exact List.mem_map.mpr ⟨p, (List.mem_filter.mp hp).1, rfl⟩

theorem walk_mem (weights : List (String × Int)) (t : Int) (ks : List String) (c : Int)
    (r : String) (h : Auction.walk weights t ks c = some r) : r ∈ ks := by
  induction ks generalizing c with
  | nil => simp [Auction.walk] at h
  | cons k rest ih =>
    unfold Auction.walk at h
    simp only [] at h
    split_ifs at h
    · cases h
      exact List.mem_cons_self _ _
    · exact List.mem_cons_of_mem _ (ih _ h)

theorem weightedWinner_mem (weights : List (String × Int)) (t : Int) (r : String)
    (h : Auction.weightedWinner weights t = some r) (hne : r ≠ "") :
    r ∈ mapKeys (Auction.positiveEntries weights) := by
  unfold Auction.weightedWinner at h
  simp only [] at h
  split_ifs at h with h1 h2
  · cases h
    exact absurd rfl hne
  · apply (sortedKeys_perm weights).mem_iff.mp
    cases hw : Auction.walk weights t (Auction.sortedKeys weights) 0 with
    | some r' =>
      rw [hw] at h
      cases h
      exact walk_mem weights t _ 0 r hw
    | none =>
      rw [hw] at h
      simp only [Option.some.injEq] at h
      have hnil : Auction.sortedKeys weights ≠ [] := by
        intro hnil
        rw [hnil] at h
        exact hne h.symm
      rw [← h, List.getLastD_eq_getLast?, List.getLast?_eq_getLast _ hnil]
      exact List.getLast_mem hnil

theorem weightedWinner_pos (weights : List (String × Int)) (t : Int) (r : String)
    (hnd : (mapKeys weights).Nodup)
    (h : Auction.weightedWinner weights t = some r) (hne : r ≠ "") :
    0 < weightOf weights r :=
  (weightOf_pos_iff weights r hnd).mpr (weightedWinner_mem weights t r h hne)

/-! ### Refund and debit -/

theorem nodeAt_eq_some (nodes : List Node) (validators : List (String × Nat)) (a : String)
    (p : Nat) (node : Node) :
    nodeAt nodes validators a = some (p, node) ↔
      mapGet? validators a = some p ∧ nodes[p]? = some node := by
  unfold nodeAt
  cases h1 : mapGet? validators a with
  | none => simp
  | some q =>
    simp only []
    cases h2 : nodes[q]? with
    | none =>
      simp only []
      constructor
      · intro h
        cases h
      · rintro ⟨hq, hn⟩
        cases hq
        rw [h2] at hn
        cases hn
    | some n =>
      simp only []
      constructor
      · intro h
        cases h
        exact ⟨rfl, h2⟩
      · rintro ⟨hq, hn⟩
        cases hq
        rw [h2] at hn
        cases hn
        rfl

theorem nodeAt_eq_none (nodes : List Node) (validators : List (String × Nat)) (a : String)
    (hp : Auction.PointerInv nodes validators) :
    nodeAt nodes validators a = none ↔ mapGet? validators a = none := by
  unfold nodeAt
  cases h1 : mapGet? validators a with
  | none => simp
  | some q =>
    obtain ⟨node, hn, _⟩ := hp a q h1
    simp [hn]

theorem pointerInv_set (nodes : List Node) (validators : List (String × Nat)) (q : Nat)
    (node node' : Node) (hp : Auction.PointerInv nodes validators)
    (hq : nodes[q]? = some node) (ha : node'.Address = node.Address) :
    Auction.PointerInv (nodes.set q node') validators := by
  intro a p hap
  obtain ⟨n, hn, hna⟩ := hp a p hap
  by_cases hqp : q = p
  · subst hqp
    have hlt : q < nodes.length := (List.getElem?_eq_some.mp hq).1
    refine ⟨node', ?_, ?_⟩
    · rw [List.getElem?_set, if_pos rfl, if_pos hlt]
    · rw [hq] at hn
      cases hn
      rw [ha, hna]
  · exact ⟨n, by rw [List.getElem?_set_ne hqp]; exact hn, hna⟩

theorem refund_getElem? (validators : List (String × Nat)) (keys : List String)
    (nodes : List Node) (hp : Auction.PointerInv nodes validators) (p : Nat) :
    (Auction.refund validators nodes keys)[p]? =
      (nodes[p]?).map (fun n =>
        if n.Address ∈ keys ∧ mapGet? validators n.Address = some p then
          { n with Balance := wrap64 (n.Balance + n.Bid), Bid := 0 }
        else n) := by
  induction keys generalizing nodes with
  | nil =>
    unfold Auction.refund
    cases nodes[p]? <;> simp
  | cons k rest ih =>
    unfold Auction.refund
    cases hk : nodeAt nodes validators k with
    | none =>
      simp only []
      rw [ih nodes hp]
      have hkn := (nodeAt_eq_none nodes validators k hp).mp hk
      cases hn : nodes[p]? with
      | none => rfl
      | some n =>
        simp only [Option.map_some', Option.some.injEq]
        by_cases hc : mapGet? validators n.Address = some p
        · have hne : n.Address ≠ k := by
            intro h
            rw [h, hkn] at hc
            cases hc
          simp [hc, hne]
        · simp [hc]
    | some qn =>
      obtain ⟨q, node⟩ := qn
      simp only []
      obtain ⟨hkq, hqn⟩ := (nodeAt_eq_some nodes validators k q node).mp hk
      obtain ⟨n0, hn0, hn0a⟩ := hp k q hkq
      rw [hqn] at hn0
      cases hn0
      rw [ih _ (pointerInv_set nodes validators q node
        { node with Balance := wrap64 (node.Balance + node.Bid), Bid := 0 } hp hqn rfl)]
      have hlt : q < nodes.length := (List.getElem?_eq_some.mp hqn).1
      by_cases hqp : q = p
      · subst hqp
        rw [List.getElem?_set, if_pos rfl, if_pos hlt, hqn]
        simp only [Option.map_some', Option.some.injEq, hn0a, List.mem_cons, true_or, hkq,
          and_self, if_true]
        split_ifs
        · simp [wrap64_idem]
        · rfl
      · rw [List.getElem?_set_ne hqp]
        cases hn : nodes[p]? with
        | none => rfl
        | some n =>
          simp only [Option.map_some', Option.some.injEq]
          by_cases hc : mapGet? validators n.Address = some p
          · have hne : n.Address ≠ k := by
              intro h
              rw [h, hkq] at hc
              exact hqp (Option.some.inj hc)
            simp [hc, hne]
          · simp [hc]

theorem nodeAt_refund (validators : List (String × Nat)) (keys : List String)
    (nodes : List Node) (hp : Auction.PointerInv nodes validators) (a : String) (p : Nat)
    (node : Node) (h : nodeAt nodes validators a = some (p, node)) :
    nodeAt (Auction.refund validators nodes keys) validators a =
      some (p, if a ∈ keys then { node with Balance := wrap64 (node.Balance + node.Bid), Bid := 0 }
        else node) := by
  obtain ⟨hap, hn⟩ := (nodeAt_eq_some nodes validators a p node).mp h
  obtain ⟨n0, hn0, hn0a⟩ := hp a p hap
  rw [hn] at hn0
  cases hn0
  rw [nodeAt_eq_some]
  refine ⟨hap, ?_⟩
  rw [refund_getElem? validators keys nodes hp p, hn]
  simp only [Option.map_some', Option.some.injEq, hn0a, hap, and_true]

theorem refund_length (validators : List (String × Nat)) (keys : List String)
    (nodes : List Node) : (Auction.refund validators nodes keys).length = nodes.length := by
  induction keys generalizing nodes with
  | nil => rfl
  | cons k rest ih =>
    unfold Auction.refund
    cases hk : nodeAt nodes validators k with
    | none => exact ih nodes
    | some qn =>
      obtain ⟨q, node⟩ := qn
      simp only []
      rw [ih, List.length_set]

theorem pointerInv_refund (validators : List (String × Nat)) (keys : List String)
    (nodes : List Node) (hp : Auction.PointerInv nodes validators) :
    Auction.PointerInv (Auction.refund validators nodes keys) validators := by
  intro a p hap
  obtain ⟨n, hn, hna⟩ := hp a p hap
  have := nodeAt_refund validators keys nodes hp a p n
    ((nodeAt_eq_some nodes validators a p n).mpr ⟨hap, hn⟩)
  obtain ⟨_, h2⟩ := (nodeAt_eq_some _ validators a p _).mp this
  refine ⟨_, h2, ?_⟩
  split_ifs <;> exact hna

theorem charge_of_nodeAt (validators : List (String × Nat)) (nodes : List Node)
    (winner : String) (sp : Int) (p : Nat) (node : Node)
    (h : nodeAt nodes validators winner = some (p, node)) :
    Auction.charge validators nodes winner sp =
      (nodes.set p { node with Balance := wrap64 (node.Balance - min sp node.Balance) },
        min sp node.Balance) := by
  unfold Auction.charge
  simp only [h]
  by_cases hlt : sp > node.Balance
  · rw [if_pos hlt, min_eq_right (le_of_lt hlt)]
  · rw [if_neg hlt, min_eq_left (not_lt.mp hlt)]

theorem charge_of_none (validators : List (String × Nat)) (nodes : List Node)
    (winner : String) (sp : Int) (h : nodeAt nodes validators winner = none) :
    Auction.charge validators nodes winner sp = (nodes, sp) := by
  unfold Auction.charge
  simp only [h]

theorem roundWinner_some (s : Auction.State) (t : Int) (w : String)
    (h : Auction.roundWinner s t = some w) :
    s.tempBlocks ≠ [] ∧ s.bids ≠ [] ∧
      Auction.weightedWinner (Auction.aggregate s.bids []) t = some w ∧
      w ≠ "" ∧ w ∈ mapKeys (Auction.aggregate s.bids []) ∧
      0 < weightOf (Auction.aggregate s.bids []) w := by
  unfold Auction.roundWinner at h
  split_ifs at h with h1 h2
  cases hw : Auction.weightedWinner (Auction.aggregate s.bids []) t with
  | none => simp [hw] at h
  | some r =>
    rw [hw] at h
    simp only [] at h
    split_ifs at h with h3
    cases h
    refine ⟨?_, ?_, rfl, h3, ?_, ?_⟩
    · intro hnil
      exact h1 (Or.inl (by rw [hnil]; rfl))
    · intro hnil
      exact h1 (Or.inr (by rw [hnil]; rfl))
    · exact mem_keys_positiveEntries _ _ (weightedWinner_mem _ t _ hw h3)
    · exact weightedWinner_pos _ t _ (aggregate_nodup_nil s.bids) hw h3

theorem pickWinner_of_winner (s : Auction.State) (t : Int) (w : String)
    (h : Auction.roundWinner s t = some w) :
    Auction.pickWinner s t = some
      { Blockchain := s.Blockchain ++
          [{ Auction.selectBlockForWinner s.tempBlocks w with
              Validator := w, Transfer := Auction.priceCharged s w }],
        tempBlocks := [],
        nodes :=
          (Auction.charge s.validators (Auction.refunded s) w
            (Auction.cappedPrice (Auction.aggregate s.bids []) w)).1,
        validators := s.validators,
        bids := [],
        miningCost := Auction.updateMiningCost (Auction.priceCharged s w) } := by
  unfold Auction.roundWinner at h
  unfold Auction.pickWinner
  split_ifs at h with h1 h2
  cases hw : Auction.weightedWinner (Auction.aggregate s.bids []) t with
  | none => simp [hw] at h
  | some r =>
    rw [hw] at h
    simp only [] at h
    split_ifs at h with h3
    cases h
    simp only [h1, h2, h3, hw, if_false]
    rfl

theorem pickWinner_of_no_winner (s s' : Auction.State) (t : Int)
    (h : Auction.roundWinner s t = none) (hs : Auction.pickWinner s t = some s') :
    s' = Auction.clearRound s := by
  unfold Auction.roundWinner at h
  unfold Auction.pickWinner at hs
  split_ifs at h with h1 h2
  · simp only [h1, if_true, Option.some.injEq] at hs
    exact hs.symm
  · simp only [h1, h2, if_true, if_false, Option.some.injEq] at hs
    exact hs.symm
  · simp only [h1, h2, if_false] at hs
    cases hw : Auction.weightedWinner (Auction.aggregate s.bids []) t with
    | none => simp [hw] at hs
    | some r =>
      rw [hw] at h hs
      simp only [] at h hs
      split_ifs at h with h3
      simp only [h3, if_true, Option.some.injEq] at hs
      exact hs.symm

/-! ### Addresses are digests -/

theorem sha256_round_length (st : List Nat) (kw : Nat × Nat) :
    (Sha256.round st kw).length = st.length := by
  unfold Sha256.round
  split <;> simp

theorem sha256_foldl_round_length (l : List (Nat × Nat)) (st : List Nat) :
    (l.foldl Sha256.round st).length = st.length := by
  induction l generalizing st with
  | nil => rfl
  | cons x rest ih =>
    simp only [List.foldl_cons]
    rw [ih, sha256_round_length]

theorem sha256_compress_length (hs block : List Nat) :
    (Sha256.compress hs block).length = hs.length := by
  unfold Sha256.compress
  rw [List.length_zipWith, sha256_foldl_round_length]
  simp

theorem sha256_absorb_length (n : Nat) (hs ws : List Nat) :
    (Sha256.absorb n hs ws).length = hs.length := by
  induction n generalizing hs ws with
  | zero => rfl
  | succ n ih =>
    unfold Sha256.absorb
    rw [ih, sha256_compress_length]

theorem sha256_digestWords_length (msg : List Nat) : (Sha256.digestWords msg).length = 8 := by
  unfold Sha256.digestWords
  simp only []
  rw [sha256_absorb_length]
  rfl

theorem calculateHash_length (s : String) : (calculateHash s).length = 64 := by
  unfold calculateHash
  have h := sha256_digestWords_length (Sha256.bytes s)
  have hw : ∀ w, (Sha256.hexWord w).length = 8 := by
    intro w
    simp [Sha256.hexWord]
  match hd : Sha256.digestWords (Sha256.bytes s), h with
  | [a, b, c, d, e, f, g, i], _ =>
    simp [String.length, hw]

theorem calculateHash_ne_empty (s : String) : calculateHash s ≠ "" := by
  intro h
  have := calculateHash_length s
  rw [h] at this
  simp at this

/-! ### Selection of the appended block -/

theorem firstByProposer_eq_find? (blocks : List Block) (w : String) :
    Auction.firstByProposer blocks w = blocks.find? (fun b => decide (b.Proposer = w)) := by
  induction blocks with
  | nil => rfl
  | cons x rest ih =>
    unfold Auction.firstByProposer
    by_cases hx : x.Proposer = w
    · simp [hx]
    · simp [hx, ih]

/-- C9: a round that selects the winner `w` returns, and appends exactly one block to
the ledger: the first candidate of the snapshot whose Proposer is `w`, or the first
candidate of the snapshot when none has that Proposer, with Validator set to `w`,
Transfer set to the charged price and the six other fields unchanged. -/
theorem pickWinner_appends_selected (s : Auction.State) (t : Int) (w : String)
    (hw : Auction.roundWinner s t = some w) :
    ∃ c b s', (s.tempBlocks.find? (fun x => decide (x.Proposer = w)) = some c ∨
        (s.tempBlocks.find? (fun x => decide (x.Proposer = w)) = none ∧
          s.tempBlocks.head? = some c)) ∧
      Auction.pickWinner s t = some s' ∧
      s'.Blockchain = s.Blockchain ++ [b] ∧
      b.Validator = w ∧ b.Transfer = Auction.priceCharged s w ∧
      b.Index = c.Index ∧ b.Timestamp = c.Timestamp ∧ b.BPM = c.BPM ∧ b.Hash = c.Hash ∧
      b.PrevHash = c.PrevHash ∧ b.Proposer = c.Proposer := by
  obtain ⟨hne, _, _, _, _⟩ := roundWinner_some s t w hw
  refine ⟨Auction.selectBlockForWinner s.tempBlocks w,
    { Auction.selectBlockForWinner s.tempBlocks w with
      Validator := w, Transfer := Auction.priceCharged s w }, _, ?_,
    pickWinner_of_winner s t w hw, rfl, rfl, rfl, rfl, rfl, rfl, rfl, rfl, rfl⟩
  unfold Auction.selectBlockForWinner
  have hlen : ¬ s.tempBlocks.length = 0 := fun h => hne (List.length_eq_zero.mp h)
  rw [if_neg hlen, firstByProposer_eq_find?]
  cases hf : s.tempBlocks.find? (fun x => decide (x.Proposer = w)) with
  | some c => left; rfl
  | none =>
    right
    refine ⟨rfl, ?_⟩
    cases hl : s.tempBlocks with
    | nil => exact absurd hl hne
    | cons x rest => rfl

/-! ### The steps of the auction program -/

theorem auction_handleBid_cases (s s' : Auction.State) (session : Nat) (bpm bid : Int)
    (ts : String) (hs : Auction.handleBid s session bpm bid ts = some s') :
    s' = s ∨ ∃ node tip, s.nodes[session]? = some node ∧ bid ≤ node.Balance ∧
      s.Blockchain.getLast? = some tip ∧
      s'.nodes = s.nodes.set session
        { node with Balance := wrap64 (node.Balance - bid), Bid := bid } ∧
      s'.validators = mapSet s.validators node.Address session ∧
      s'.bids = s.bids ++ [⟨node.Address, bid⟩] ∧
      s'.Blockchain = s.Blockchain ∧ s'.miningCost = s.miningCost ∧
      (s'.tempBlocks = s.tempBlocks ++ [Auction.generateBlock tip bpm node.Address ts] ∨
        s'.tempBlocks = s.tempBlocks) := by
  unfold Auction.handleBid at hs
  cases hn : s.nodes[session]? with
  | none => simp [hn] at hs
  | some node =>
    simp only [hn] at hs
    split_ifs at hs with hb
    · cases ht : s.Blockchain.getLast? with
      | none => simp [ht] at hs
      | some tip =>
        simp only [ht] at hs
        split_ifs at hs with hv
        · cases hs
          exact Or.inr ⟨node, tip, rfl, hb, rfl, rfl, rfl, rfl, rfl, rfl, Or.inl rfl⟩
        · cases hs
          exact Or.inr ⟨node, tip, rfl, hb, rfl, rfl, rfl, rfl, rfl, rfl, Or.inr rfl⟩
    · cases hs
      exact Or.inl rfl

theorem auction_pickWinner_cases (s s' : Auction.State) (t : Int)
    (hs : Auction.pickWinner s t = some s') :
    (Auction.roundWinner s t = none ∧ s' = Auction.clearRound s) ∨
      ∃ w, Auction.roundWinner s t = some w ∧
        s' = { Blockchain := s.Blockchain ++
                [{ Auction.selectBlockForWinner s.tempBlocks w with
                    Validator := w, Transfer := Auction.priceCharged s w }],
               tempBlocks := [],
               nodes :=
                 (Auction.charge s.validators (Auction.refunded s) w
                   (Auction.cappedPrice (Auction.aggregate s.bids []) w)).1,
               validators := s.validators,
               bids := [],
               miningCost := Auction.updateMiningCost (Auction.priceCharged s w) } := by
  cases hw : Auction.roundWinner s t with
  | none => exact Or.inl ⟨rfl, pickWinner_of_no_winner s s' t hw hs⟩
  | some w =>
    right
    refine ⟨w, rfl, ?_⟩
    rw [pickWinner_of_winner s t w hw] at hs
    exact (Option.some.inj hs).symm

theorem auction_pickWinner_bids (s s' : Auction.State) (t : Int)
    (hs : Auction.pickWinner s t = some s') : s'.bids = [] ∧ s'.tempBlocks = [] := by
  rcases auction_pickWinner_cases s s' t hs with ⟨_, h⟩ | ⟨w, _, h⟩ <;> rw [h] <;> exact ⟨rfl, rfl⟩

theorem sameSessions_refl (nodes : List Node) : Auction.SameSessions nodes nodes :=
  fun _ n' h => ⟨n', h, rfl, id⟩

theorem sameSessions_trans (a b c : List Node) (h1 : Auction.SameSessions a b)
    (h2 : Auction.SameSessions b c) : Auction.SameSessions a c := by
  intro p n' h
  obtain ⟨n, hn, ha, hr⟩ := h2 p n' h
  obtain ⟨m, hm, ha', hr'⟩ := h1 p n hn
  exact ⟨m, hm, ha.trans ha', fun x => hr (hr' x)⟩

theorem sameSessions_set (nodes : List Node) (q : Nat) (node node' : Node)
    (hq : nodes[q]? = some node) (ha : node'.Address = node.Address)
    (hr : isInt64 node'.Balance) : Auction.SameSessions nodes (nodes.set q node') := by
  intro p n' h
  by_cases hqp : q = p
  · subst hqp
    have hlt : q < nodes.length := (List.getElem?_eq_some.mp hq).1
    rw [List.getElem?_set, if_pos rfl, if_pos hlt] at h
    cases h
    exact ⟨node, hq, ha, fun _ => hr⟩
  · rw [List.getElem?_set_ne hqp] at h
    exact ⟨n', h, rfl, id⟩

theorem sameSessions_refund (validators : List (String × Nat)) (keys : List String)
    (nodes : List Node) :
    Auction.SameSessions nodes (Auction.refund validators nodes keys) := by
  induction keys generalizing nodes with
  | nil => exact sameSessions_refl nodes
  | cons k rest ih =>
    unfold Auction.refund
    cases hk : nodeAt nodes validators k with
    | none => exact ih nodes
    | some qn =>
      obtain ⟨q, node⟩ := qn
      simp only []
      obtain ⟨_, hqn⟩ := (nodeAt_eq_some nodes validators k q node).mp hk
      exact sameSessions_trans _ _ _
        (sameSessions_set nodes q node
          { node with Balance := wrap64 (node.Balance + node.Bid), Bid := 0 } hqn rfl
          (wrap64_isInt64 _)) (ih _)

theorem sameSessions_charge (validators : List (String × Nat)) (nodes : List Node)
    (w : String) (sp : Int) :
    Auction.SameSessions nodes (Auction.charge validators nodes w sp).1 := by
  cases hk : nodeAt nodes validators w with
  | none =>
    rw [charge_of_none validators nodes w sp hk]
    exact sameSessions_refl nodes
  | some qn =>
    obtain ⟨q, node⟩ := qn
    rw [charge_of_nodeAt validators nodes w sp q node hk]
    obtain ⟨_, hqn⟩ := (nodeAt_eq_some nodes validators w q node).mp hk
    exact sameSessions_set nodes q node
      { node with Balance := wrap64 (node.Balance - min sp node.Balance) } hqn rfl
      (wrap64_isInt64 _)

theorem pointerInv_charge (validators : List (String × Nat)) (nodes : List Node)
    (w : String) (sp : Int) (hp : Auction.PointerInv nodes validators) :
    Auction.PointerInv (Auction.charge validators nodes w sp).1 validators := by
  cases hk : nodeAt nodes validators w with
  | none =>
    rw [charge_of_none validators nodes w sp hk]
    exact hp
  | some qn =>
    obtain ⟨q, node⟩ := qn
    rw [charge_of_nodeAt validators nodes w sp q node hk]
    obtain ⟨_, hqn⟩ := (nodeAt_eq_some nodes validators w q node).mp hk
    exact pointerInv_set nodes validators q node
      { node with Balance := wrap64 (node.Balance - min sp node.Balance) } hp hqn rfl

theorem sameSessions_round (s : Auction.State) (w : String) (sp : Int) :
    Auction.SameSessions s.nodes (Auction.charge s.validators (Auction.refunded s) w sp).1 :=
  sameSessions_trans _ _ _ (sameSessions_refund s.validators _ s.nodes)
    (sameSessions_charge s.validators _ w sp)

theorem sameSessions_mem (nodes nodes' : List Node) (h : Auction.SameSessions nodes nodes')
    (n' : Node) (hn : n' ∈ nodes') : ∃ n ∈ nodes, n'.Address = n.Address := by
  obtain ⟨p, hp⟩ := List.mem_iff_getElem?.mp hn
  obtain ⟨n, hn, ha, _⟩ := h p n' hp
  exact ⟨n, List.getElem?_mem hn, ha⟩

/-! ### The registry invariant -/

theorem auction_register_registryInv (s : Auction.State) (ts : String) (balance : Int)
    (h : Auction.RegistryInv s) : Auction.RegistryInv (Auction.register s ts balance) := by
  obtain ⟨h1, h2, h3⟩ := h
  refine ⟨?_, ?_, ?_⟩
  · intro a p hap
    simp only [Auction.register] at hap ⊢
    rw [mapGet?_mapSet] at hap
    by_cases ha : a = calculateHash ts
    · rw [if_pos ha] at hap
      cases hap
      exact ⟨⟨calculateHash ts, balance, 0⟩, by simp, ha.symm⟩
    · rw [if_neg ha] at hap
      obtain ⟨node, hn, hna⟩ := h1 a p hap
      have hlt : p < s.nodes.length := (List.getElem?_eq_some.mp hn).1
      exact ⟨node, by rw [List.getElem?_append_left hlt]; exact hn, hna⟩
  · intro node hn
    simp only [Auction.register] at hn
    rcases List.mem_append.mp hn with h | h
    · exact h2 node h
    · have : node = ⟨calculateHash ts, balance, 0⟩ := by simpa using h
      rw [this]
      exact calculateHash_ne_empty ts
  · intro item hi
    obtain ⟨p, hp⟩ := h3 item hi
    simp only [Auction.register]
    rw [mapGet?_mapSet]
    split_ifs
    · exact ⟨_, rfl⟩
    · exact ⟨p, hp⟩

theorem auction_handleBid_registryInv (s s' : Auction.State) (session : Nat) (bpm bid : Int)
    (ts : String) (h : Auction.RegistryInv s)
    (hs : Auction.handleBid s session bpm bid ts = some s') : Auction.RegistryInv s' := by
  rcases auction_handleBid_cases s s' session bpm bid ts hs with
    rfl | ⟨node, tip, hn, hb, _, hnodes, hval, hbids, _, _, _⟩
  · exact h
  obtain ⟨h1, h2, h3⟩ := h
  have hlt : session < s.nodes.length := (List.getElem?_eq_some.mp hn).1
  refine ⟨?_, ?_, ?_⟩
  · intro a p hap
    rw [hval, mapGet?_mapSet] at hap
    rw [hnodes]
    by_cases ha : a = node.Address
    · rw [if_pos ha] at hap
      cases hap
      refine ⟨{ node with Balance := wrap64 (node.Balance - bid), Bid := bid }, ?_, ha.symm⟩
      rw [List.getElem?_set, if_pos rfl, if_pos hlt]
    · rw [if_neg ha] at hap
      obtain ⟨n, hn', hna⟩ := h1 a p hap
      have hne : session ≠ p := by
        intro hEq
        rw [← hEq, hn] at hn'
        cases hn'
        exact ha hna.symm
      exact ⟨n, by rw [List.getElem?_set_ne hne]; exact hn', hna⟩
  · intro n hmem
    rw [hnodes] at hmem
    rcases List.mem_or_eq_of_mem_set hmem with h | h
    · exact h2 n h
    · rw [h]
      exact h2 node (List.getElem?_mem hn)
  · intro item hi
    rw [hbids] at hi
    rw [hval, mapGet?_mapSet]
    rcases List.mem_append.mp hi with hi | hi
    · obtain ⟨p, hp⟩ := h3 item hi
      split_ifs
      · exact ⟨_, rfl⟩
      · exact ⟨p, hp⟩
    · have : item = ⟨node.Address, bid⟩ := by simpa using hi
      rw [this]
      simp

theorem auction_pickWinner_registryInv (s s' : Auction.State) (t : Int)
    (h : Auction.RegistryInv s) (hs : Auction.pickWinner s t = some s') :
    Auction.RegistryInv s' := by
  obtain ⟨h1, h2, h3⟩ := h
  rcases auction_pickWinner_cases s s' t hs with ⟨_, rfl⟩ | ⟨w, _, rfl⟩
  · exact ⟨h1, h2, fun item hi => absurd hi (List.not_mem_nil _)⟩
  · refine ⟨pointerInv_charge _ _ _ _ (pointerInv_refund _ _ _ h1), ?_,
      fun item hi => absurd hi (List.not_mem_nil _)⟩
    intro n hn
    obtain ⟨m, hm, ha⟩ := sameSessions_mem _ _ (sameSessions_round s w _) n hn
    rw [ha]
    exact h2 m hm

theorem auction_reachable_registryInv (s : Auction.State) (h : Auction.Reachable s) :
    Auction.RegistryInv s := by
  induction h with
  | startup ts =>
    refine ⟨?_, ?_, ?_⟩
    · intro a p hap
      simp [Auction.startup, mapGet?] at hap
    · intro n hn
      simp [Auction.startup] at hn
    · intro item hi
      simp [Auction.startup] at hi
  | register s ts balance _ ih => exact auction_register_registryInv s ts balance ih
  | bid s s' session bpm bid ts _ hs ih =>
    exact auction_handleBid_registryInv s s' _ _ _ _ ih hs
  | round s s' threshold _ hs _ _ ih => exact auction_pickWinner_registryInv s s' _ ih hs

theorem auction_orderly_reachable (s : Auction.State) (h : Auction.Orderly s) :
    Auction.Reachable s := by
  induction h with
  | startup ts => exact Auction.Reachable.startup ts
  | register s ts balance _ _ _ ih => exact Auction.Reachable.register s ts balance ih
  | bid s s' session bpm bid ts _ hs _ _ ih =>
    exact Auction.Reachable.bid s s' session bpm bid ts ih hs
  | round s s' threshold _ hs h0 ht ih => exact Auction.Reachable.round s s' threshold ih hs h0 ht

/-! ### The escrow invariant -/

theorem auction_escrowInv_round (s : Auction.State) (nodes : List Node)
    (h : Auction.EscrowInv s) (hn : Auction.SameSessions s.nodes nodes)
    (chain temp : List Block) (cost : Int) :
    Auction.EscrowInv
      { Blockchain := chain, tempBlocks := temp, nodes := nodes, validators := s.validators,
        bids := [], miningCost := cost } := by
  constructor
  · intro p n' hp
    obtain ⟨n, hn', ha, hr⟩ := hn p n' hp
    obtain ⟨hr', hv⟩ := h.1 p n hn'
    exact ⟨hr hr', by rw [ha]; exact hv⟩
  · rintro p n' _ ⟨item, hi, _⟩
    exact absurd hi (List.not_mem_nil _)

theorem auction_register_escrowInv (s : Auction.State) (ts : String) (balance : Int)
    (h : Auction.EscrowInv s) (hreg : Auction.RegistryInv s)
    (hfresh : mapGet? s.validators (calculateHash ts) = none) (hb : isInt64 balance) :
    Auction.EscrowInv (Auction.register s ts balance) := by
  obtain ⟨h1, h2⟩ := h
  have hold : ∀ (p : Nat) (node : Node), s.nodes[p]? = some node →
      node.Address ≠ calculateHash ts := by
    intro p node hn hEq
    have := (h1 p node hn).2
    rw [hEq, hfresh] at this
    cases this
  constructor
  · intro p node hn
    simp only [Auction.register] at hn ⊢
    rcases getElem?_snoc_cases _ _ _ _ hn with ⟨_, hn'⟩ | ⟨hp, hx⟩
    · refine ⟨(h1 p node hn').1, ?_⟩
      rw [mapGet?_mapSet_other _ _ _ _ (hold p node hn')]
      exact (h1 p node hn').2
    · rw [hx, hp]
      exact ⟨hb, mapGet?_mapSet_same _ _ _⟩
  · intro p node hn hex
    simp only [Auction.register] at hn hex
    rcases getElem?_snoc_cases _ _ _ _ hn with ⟨_, hn'⟩ | ⟨hp, hx⟩
    · exact h2 p node hn' hex
    · exfalso
      obtain ⟨item, hi, hia, _⟩ := hex
      obtain ⟨q, hq⟩ := hreg.2.2 item hi
      rw [hia, hx] at hq
      simp only [] at hq
      rw [hfresh] at hq
      cases hq

theorem auction_handleBid_escrowInv (s s' : Auction.State) (session : Nat) (bpm bid : Int)
    (ts : String) (h : Auction.EscrowInv s)
    (hs : Auction.handleBid s session bpm bid ts = some s')
    (hno : ∀ node, s.nodes[session]? = some node → bid ≤ node.Balance →
      isInt64 (node.Balance - bid)) : Auction.EscrowInv s' := by
  rcases auction_handleBid_cases s s' session bpm bid ts hs with
    rfl | ⟨node, tip, hn, hb, _, hnodes, hval, hbids, _, _, _⟩
  · exact h
  obtain ⟨h1, h2⟩ := h
  have hlt : session < s.nodes.length := (List.getElem?_eq_some.mp hn).1
  have hrange := hno node hn hb
  have hw : wrap64 (node.Balance - bid) = node.Balance - bid := wrap64_of_isInt64 _ hrange
  have hother : ∀ (p : Nat) (n : Node), session ≠ p → s.nodes[p]? = some n →
      n.Address ≠ node.Address := by
    intro p n hne hp hEq
    have e1 := (h1 p n hp).2
    have e2 := (h1 session node hn).2
    rw [hEq, e2] at e1
    exact hne (Option.some.inj e1)
  constructor
  · intro p n hp
    rw [hnodes] at hp
    rw [hval]
    by_cases hsp : session = p
    · subst hsp
      rw [List.getElem?_set, if_pos rfl, if_pos hlt] at hp
      cases hp
      exact ⟨wrap64_isInt64 _, mapGet?_mapSet_same _ _ _⟩
    · rw [List.getElem?_set_ne hsp] at hp
      refine ⟨(h1 p n hp).1, ?_⟩
      rw [mapGet?_mapSet_other _ _ _ _ (hother p n hsp hp)]
      exact (h1 p n hp).2
  · intro p n hp hex
    rw [hnodes] at hp
    rw [hbids] at hex
    by_cases hsp : session = p
    · subst hsp
      rw [List.getElem?_set, if_pos rfl, if_pos hlt] at hp
      cases hp
      simp only [hw]
      have hbal := (h1 session node hn).1
      obtain ⟨item, hi, hia, hpos⟩ := hex
      simp only [] at hia
      rcases List.mem_append.mp hi with hi | hi
      · have := (h2 session node hn ⟨item, hi, hia, hpos⟩).1
        refine ⟨by omega, by omega, by omega⟩
      · have hit : item = ⟨node.Address, bid⟩ := by simpa using hi
        rw [hit] at hpos
        simp only [] at hpos
        refine ⟨by omega, by omega, by omega⟩
    · rw [List.getElem?_set_ne hsp] at hp
      apply h2 p n hp
      obtain ⟨item, hi, hia, hpos⟩ := hex
      rcases List.mem_append.mp hi with hi | hi
      · exact ⟨item, hi, hia, hpos⟩
      · have hit : item = ⟨node.Address, bid⟩ := by simpa using hi
        rw [hit] at hia
        exact absurd hia.symm (hother p n hsp hp)

theorem auction_orderly_escrowInv (s : Auction.State) (h : Auction.Orderly s) :
    Auction.EscrowInv s := by
  induction h with
  | startup ts =>
    constructor
    · intro p node hn
      simp [Auction.startup] at hn
    · intro p node hn
      simp [Auction.startup] at hn
  | register s ts balance hs hfresh hb ih =>
    exact auction_register_escrowInv s ts balance ih
      (auction_reachable_registryInv s (auction_orderly_reachable s hs)) hfresh hb
  | bid s s' session bpm bid ts _ hs _ hno ih =>
    exact auction_handleBid_escrowInv s s' _ _ _ _ ih hs hno
  | round s s' threshold _ hs _ _ ih =>
    rcases auction_pickWinner_cases s s' threshold hs with ⟨_, rfl⟩ | ⟨w, _, rfl⟩
    · exact auction_escrowInv_round s s.nodes ih (sameSessions_refl _) _ _ _
    · exact auction_escrowInv_round s _ ih (sameSessions_round s w _) _ _ _

theorem secondHighestBid_nonneg (weights : List (String × Int)) (winner : String) :
    0 ≤ Auction.secondHighestBid weights winner := by
  rcases secondHighestBid_isSecondPrice weights winner with ⟨p, _, _, hpos, hp, _⟩ | ⟨_, h0⟩
  · omega
  · omega

theorem cappedPrice_bounds (weights : List (String × Int)) (winner : String)
    (hw : 0 < weightOf weights winner) :
    0 ≤ Auction.cappedPrice weights winner ∧
      Auction.cappedPrice weights winner ≤ weightOf weights winner ∧
      Auction.cappedPrice weights winner ≤ Auction.secondHighestBid weights winner := by
  have := secondHighestBid_nonneg weights winner
  unfold Auction.cappedPrice
  simp only []
  split_ifs <;> omega

/-- C6, as the code has it: in a round that selects the winner `w`, in an execution
in which every session was admitted at an address of its own and no escrow
`Balance -= bid` left the range of `int`, the round returns and the block appended to
the ledger carries the charged price as Transfer; that price is not negative, is at
most the winner's aggregated bid `weights[w]` (itself at most the sum of the winner's
positive bids of the round) and at most the winner's balance after the refund; and it
is 0 when every positive bid of the round comes from a single address. -/
theorem priceCharged_bounds (s : Auction.State) (t : Int) (w : String)
    (hr : Auction.Orderly s) (hw : Auction.roundWinner s t = some w) :
    (∃ s' b, Auction.pickWinner s t = some s' ∧ s'.Blockchain = s.Blockchain ++ [b] ∧
      b.Transfer = Auction.priceCharged s w) ∧
    0 ≤ Auction.priceCharged s w ∧
    Auction.priceCharged s w ≤ weightOf (Auction.aggregate s.bids []) w ∧
    weightOf (Auction.aggregate s.bids []) w ≤ Auction.bidTotal s.bids w ∧
    (∃ p node, nodeAt (Auction.refunded s) s.validators w = some (p, node) ∧
      Auction.priceCharged s w ≤ node.Balance) ∧
    ((∃ a, ∀ item ∈ s.bids, 0 < item.Bid → item.NodeAddress = a) →
      Auction.priceCharged s w = 0) := by
  obtain ⟨_, _, _, _, hkey, hwpos⟩ := roundWinner_some s t w hw
  obtain ⟨hptr, _, hbidders⟩ := auction_reachable_registryInv s (auction_orderly_reachable s hr)
  obtain ⟨_, h2⟩ := auction_orderly_escrowInv s hr
  obtain ⟨item, hi, hia, hipos⟩ := (mem_keys_aggregate s.bids w).mp hkey
  obtain ⟨p, hp⟩ := hbidders item hi
  rw [hia] at hp
  obtain ⟨node, hnode, hna⟩ := hptr w p hp
  obtain ⟨_, hbal, hbal'⟩ := h2 p node hnode ⟨item, hi, hia.trans hna.symm, hipos⟩
  have hcap := cappedPrice_bounds _ w hwpos
  have href : nodeAt (Auction.refunded s) s.validators w =
      some (p, { node with Balance := node.Balance + node.Bid, Bid := 0 }) := by
    unfold Auction.refunded
    rw [nodeAt_refund s.validators _ s.nodes hptr w p node
      ((nodeAt_eq_some _ _ _ _ _).mpr ⟨hp, hnode⟩), if_pos hkey,
      wrap64_of_isInt64 _ ⟨by omega, hbal'⟩]
  have hprice : Auction.priceCharged s w =
      min (Auction.cappedPrice (Auction.aggregate s.bids []) w) (node.Balance + node.Bid) := by
    unfold Auction.priceCharged
    rw [charge_of_nodeAt _ _ _ _ _ _ href]
  refine ⟨⟨_, _, pickWinner_of_winner s t w hw, rfl, rfl⟩, ?_, ?_, weightOf_aggregate_le s.bids w,
    ⟨_, _, href, ?_⟩, ?_⟩
  · rw [hprice]
    exact le_min hcap.1 hbal
  · rw [hprice]
    exact le_trans (min_le_left _ _) hcap.2.1
  · rw [hprice]
    exact min_le_right _ _
  · rintro ⟨a, hall⟩
    have hwa : w = a := by
      rw [← hia]
      exact hall item hi hipos
    have hsecond : Auction.secondHighestBid (Auction.aggregate s.bids []) w = 0 := by
      rcases secondHighestBid_isSecondPrice (Auction.aggregate s.bids []) w with
        ⟨q, hq, hqne, _, _, _⟩ | ⟨_, h0⟩
      · exfalso
        obtain ⟨it, hit, hita, hitpos⟩ :=
          (mem_keys_aggregate s.bids q.1).mp (List.mem_map.mpr ⟨q, hq, rfl⟩)
        apply hqne
        rw [← hita, hwa]
        exact hall it hit hitpos
      · exact h0
    rw [hprice]
    have h0 : Auction.cappedPrice (Auction.aggregate s.bids []) w = 0 := by
      have := hcap.2.2
      rw [hsecond] at this
      omega
    rw [h0]
    exact min_eq_left hbal

/-! ### One bid per address -/

theorem auction_handleBid_split (s : Auction.State) (session : Nat) (bpm bid : Int)
    (ts : String) (node : Node) (hn : s.nodes[session]? = some node)
    (hb : bid ≤ node.Balance) :
    Auction.handleBid s session bpm bid ts =
      (Auction.recordBid s session bid).bind
        (fun s1 => Auction.submitCandidate s1 node.Address bpm ts) := by
  unfold Auction.handleBid Auction.recordBid
  have hge : node.Balance ≥ bid := hb
  simp only [hn, if_pos hge, Option.some_bind]
  unfold Auction.submitCandidate
  cases s.Blockchain.getLast? <;> rfl

theorem auction_handleBid_accept (s : Auction.State) (session : Nat) (bpm bid : Int)
    (ts : String) (node : Node) (hn : s.nodes[session]? = some node)
    (hb : bid ≤ node.Balance) (hc : s.Blockchain ≠ []) :
    ∃ blk, Auction.handleBid s session bpm bid ts =
      some { s with
        nodes := s.nodes.set session
          { node with Balance := wrap64 (node.Balance - bid), Bid := bid },
        validators := mapSet s.validators node.Address session,
        bids := s.bids ++ [⟨node.Address, bid⟩],
        tempBlocks := s.tempBlocks ++ [blk] } ∧ blk.Proposer = node.Address := by
  unfold Auction.handleBid
  simp only [hn]
  have hge : node.Balance ≥ bid := hb
  rw [if_pos hge]
  cases ht : s.Blockchain.getLast? with
  | none => exact absurd (List.getLast?_eq_none_iff.mp ht) hc
  | some tip =>
    simp only []
    have hv : isBlockValid (Auction.generateBlock tip bpm node.Address ts) tip = true :=
      isBlockValid_of_linkOk _ _ (auction_generateBlock_linkOk tip bpm node.Address ts)
    rw [if_pos hv]
    exact ⟨_, rfl, rfl⟩

theorem sessionAddress_of_some (nodes : List Node) (p : Nat) (node : Node)
    (h : nodes[p]? = some node) : Auction.sessionAddress nodes p = node.Address := by
  unfold Auction.sessionAddress
  rw [h]

theorem sessionAddress_set (nodes : List Node) (q p : Nat) (node node' : Node)
    (hq : nodes[q]? = some node) (ha : node'.Address = node.Address) :
    Auction.sessionAddress (nodes.set q node') p = Auction.sessionAddress nodes p := by
  unfold Auction.sessionAddress
  by_cases hqp : q = p
  · subst hqp
    have hlt : q < nodes.length := (List.getElem?_eq_some.mp hq).1
    rw [List.getElem?_set, if_pos rfl, if_pos hlt, hq]
    exact ha
  · rw [List.getElem?_set_ne hqp]

theorem auction_placeBids_spec (reqs : List BidRequest) (s : Auction.State)
    (hc : s.Blockchain ≠ [])
    (hnd : (reqs.map (fun r => Auction.sessionAddress s.nodes r.session)).Nodup)
    (hok : ∀ r ∈ reqs, ∃ node, s.nodes[r.session]? = some node ∧ r.bid ≤ node.Balance) :
    ∃ s1, Auction.placeBids s reqs = some s1 ∧ s1.Blockchain = s.Blockchain ∧
      s1.bids = s.bids ++
        reqs.map (fun r => ⟨Auction.sessionAddress s.nodes r.session, r.bid⟩) ∧
      s1.tempBlocks.length = s.tempBlocks.length + reqs.length ∧
      (∀ a, a ∉ reqs.map (fun r => Auction.sessionAddress s.nodes r.session) →
        mapGet? s1.validators a = mapGet? s.validators a) ∧
      (∀ p, p ∉ reqs.map BidRequest.session → s1.nodes[p]? = s.nodes[p]?) ∧
      ∀ r ∈ reqs, ∀ node, s.nodes[r.session]? = some node →
        s1.nodes[r.session]? =
          some { node with Balance := wrap64 (node.Balance - r.bid), Bid := r.bid } ∧
        mapGet? s1.validators node.Address = some r.session := by
  induction reqs generalizing s with
  | nil =>
    refine ⟨s, rfl, rfl, by simp, by simp, fun _ _ => rfl, fun _ _ => rfl, ?_⟩
    intro r hr
    exact absurd hr (List.not_mem_nil _)
  | cons r rest ih =>
    simp only [List.map_cons, List.nodup_cons] at hnd
    obtain ⟨node, hn, hb⟩ := hok r (List.mem_cons_self _ _)
    obtain ⟨blk, hstep, _⟩ := auction_handleBid_accept s r.session r.bpm r.bid r.ts node hn hb hc
    have hra : Auction.sessionAddress s.nodes r.session = node.Address :=
      sessionAddress_of_some _ _ _ hn
    have haddr : ∀ p, Auction.sessionAddress (s.nodes.set r.session
        { node with Balance := wrap64 (node.Balance - r.bid), Bid := r.bid }) p =
        Auction.sessionAddress s.nodes p :=
      fun p => sessionAddress_set s.nodes r.session p node _ hn rfl
    have hsess : ∀ q ∈ rest, r.session ≠ q.session := by
      intro q hq hEq
      apply hnd.1
      rw [hEq]
      exact List.mem_map.mpr ⟨q, hq, rfl⟩
    have hok' : ∀ q ∈ rest, ∃ n,
        (s.nodes.set r.session
          { node with Balance := wrap64 (node.Balance - r.bid), Bid := r.bid })[q.session]? =
            some n ∧ q.bid ≤ n.Balance := by
      intro q hq
      rw [List.getElem?_set_ne (hsess q hq)]
      exact hok q (List.mem_cons_of_mem _ hq)
    have hnd' : (rest.map (fun q => Auction.sessionAddress (s.nodes.set r.session
        { node with Balance := wrap64 (node.Balance - r.bid), Bid := r.bid }) q.session)).Nodup := by
      simp only [haddr]
      exact hnd.2
    obtain ⟨s1, hp, hchain, hbids, htemp, hothers, hnodes, hmine⟩ :=
      ih { s with
        nodes := s.nodes.set r.session
          { node with Balance := wrap64 (node.Balance - r.bid), Bid := r.bid },
        validators := mapSet s.validators node.Address r.session,
        bids := s.bids ++ [⟨node.Address, r.bid⟩],
        tempBlocks := s.tempBlocks ++ [blk] } hc hnd' hok'
    simp only [haddr] at hbids hothers
    have hlt : r.session < s.nodes.length := (List.getElem?_eq_some.mp hn).1
    refine ⟨s1, ?_, hchain, ?_, ?_, ?_, ?_, ?_⟩
    · unfold Auction.placeBids
      rw [hstep]
      exact hp
    · rw [hbids]
      simp [hra]
    · rw [htemp]
      simp
      omega
    · intro a ha
      simp only [List.map_cons, List.mem_cons, not_or] at ha
      rw [hothers a ha.2]
      rw [hra] at ha
      exact mapGet?_mapSet_other _ _ _ _ ha.1
    · intro p hp'
      simp only [List.map_cons, List.mem_cons, not_or] at hp'
      rw [hnodes p hp'.2]
      exact List.getElem?_set_ne (fun h => hp'.1 h.symm)
    · intro q hq n hqn
      rcases List.mem_cons.mp hq with h | h
      · subst h
        rw [hn] at hqn
        cases hqn
        constructor
        · have hns : q.session ∉ rest.map BidRequest.session := by
            intro hmem
            obtain ⟨q', hq', hEq⟩ := List.mem_map.mp hmem
            exact hsess q' hq' hEq.symm
          rw [hnodes _ hns]
          simp only []
          rw [List.getElem?_set, if_pos rfl, if_pos hlt]
        · rw [← hra, hothers _ hnd.1, hra]
          exact mapGet?_mapSet_same _ _ _
      · have hne := hsess q h
        apply hmine q h n
        simp only []
        rw [List.getElem?_set_ne hne]
        exact hqn

theorem auction_placeBids_reachable (reqs : List BidRequest) (s s1 : Auction.State)
    (hr : Auction.Reachable s) (hp : Auction.placeBids s reqs = some s1) :
    Auction.Reachable s1 := by
  induction reqs generalizing s with
  | nil =>
    simp only [Auction.placeBids, Option.some.injEq] at hp
    rw [← hp]
    exact hr
  | cons r rest ih =>
    unfold Auction.placeBids at hp
    cases hs : Auction.handleBid s r.session r.bpm r.bid r.ts with
    | none => simp [hs] at hp
    | some s' =>
      simp only [hs] at hp
      exact ih s' (Auction.Reachable.bid s s' _ _ _ _ hr hs) hp

theorem mapSet_of_not_mem {α : Type} (m : List (String × α)) (k : String) (v : α)
    (h : k ∉ mapKeys m) : mapSet m k v = m ++ [(k, v)] := by
  induction m with
  | nil => rfl
  | cons x rest ih =>
    obtain ⟨k', x'⟩ := x
    simp only [mapKeys, List.map_cons, List.mem_cons, not_or] at h
    unfold mapSet
    rw [if_neg (fun e => h.1 e.symm)]
    simp only [List.cons_append, List.cons.injEq, true_and]
    exact ih h.2

theorem weightOf_of_not_mem (weights : List (String × Int)) (k : String)
    (h : k ∉ mapKeys weights) : weightOf weights k = 0 := by
  unfold weightOf
  rw [(mapGet?_eq_none weights k).mpr h]
  rfl

theorem aggregate_distinct (bids : List BidItem) (weights : List (String × Int))
    (hnd : (mapKeys weights ++ bids.map BidItem.NodeAddress).Nodup)
    (hpos : ∀ b ∈ bids, 0 < b.Bid ∧ b.Bid < 9223372036854775808) :
    Auction.aggregate bids weights = weights ++ bids.map (fun b => (b.NodeAddress, b.Bid)) := by
  induction bids generalizing weights with
  | nil => simp [Auction.aggregate]
  | cons b rest ih =>
    unfold Auction.aggregate
    obtain ⟨hb0, hb1⟩ := hpos b (List.mem_cons_self _ _)
    rw [if_neg (by omega)]
    have hnot : b.NodeAddress ∉ mapKeys weights := by
      intro hmem
      have := List.nodup_append.mp hnd
      exact this.2.2 hmem (by simp)
    rw [weightOf_of_not_mem weights _ hnot, zero_add,
      wrap64_of_isInt64 _ ⟨by omega, hb1⟩, mapSet_of_not_mem _ _ _ hnot]
    rw [ih]
    · simp
    · simp only [mapKeys, List.map_append, List.map_cons, List.map_nil, List.append_assoc,
        List.singleton_append]
      simpa [mapKeys] using hnd
    · intro x hx
      exact hpos x (List.mem_cons_of_mem _ hx)

theorem weightedWinner_of_pos (weights : List (String × Int)) (t : Int)
    (h : 0 < Auction.totalWeight weights) :
    ∃ r, Auction.weightedWinner weights t = some r ∧
      r ∈ mapKeys (Auction.positiveEntries weights) := by
  have hkeys : mapKeys (Auction.positiveEntries weights) ≠ [] := by
    intro hnil
    have : Auction.positiveEntries weights = [] := by
      simpa [mapKeys] using hnil
    unfold Auction.totalWeight at h
    rw [this] at h
    simp at h
  have hskeys : Auction.sortedKeys weights ≠ [] := by
    intro hnil
    have := (sortedKeys_perm weights).length_eq
    rw [hnil] at this
    exact hkeys (List.length_eq_zero.mp this.symm)
  unfold Auction.weightedWinner
  simp only []
  have hcond : ¬ (Auction.totalWeight weights = 0 ∨
      (mapKeys (Auction.positiveEntries weights)).length = 0) := by
    rintro (h' | h')
    · omega
    · exact hkeys (List.length_eq_zero.mp h')
  rw [if_neg hcond, if_neg (by omega)]
  cases hw : Auction.walk weights t (Auction.sortedKeys weights) 0 with
  | some r =>
    exact ⟨r, rfl, (sortedKeys_perm weights).mem_iff.mp (walk_mem weights t _ 0 r hw)⟩
  | none =>
    refine ⟨_, rfl, (sortedKeys_perm weights).mem_iff.mp ?_⟩
    rw [List.getLastD_eq_getLast?, List.getLast?_eq_getLast _ hskeys]
    exact List.getLast_mem hskeys

/-- C8, as the code has it: from a reachable state with an empty bid buffer, let
sessions with pairwise distinct addresses each place one bid, positive and not above
its `int` balance, the bids summing to at most `2^63 - 1`, each pass of the bidding
loop being atomic, and let `pickWinner` run. The round returns and selects a winner
among the bidders; after the round every bidder has a pending Bid of 0, every bidder
but the winner has the balance it had before bidding, and the winner has its balance
before bidding minus the charged price, which is the minimum of the capped second
price and the winner's balance after the refund (its balance before bidding). -/
theorem refund_and_charge (s0 : Auction.State) (reqs : List BidRequest) (t : Int)
    (hr : Auction.Reachable s0) (hb : s0.bids = []) (hne : reqs ≠ [])
    (hnd : (reqs.map (fun r => Auction.sessionAddress s0.nodes r.session)).Nodup)
    (hok : ∀ r ∈ reqs, ∃ node, s0.nodes[r.session]? = some node ∧ isInt64 node.Balance ∧
      0 < r.bid ∧ r.bid ≤ node.Balance)
    (hsum : (reqs.map BidRequest.bid).sum < 9223372036854775808) :
    ∃ s1 s2 w, Auction.placeBids s0 reqs = some s1 ∧ Auction.roundWinner s1 t = some w ∧
      Auction.pickWinner s1 t = some s2 ∧
      (∃ r ∈ reqs, Auction.sessionAddress s0.nodes r.session = w) ∧
      ∀ r ∈ reqs, ∀ node0, s0.nodes[r.session]? = some node0 →
        ∃ node2, s2.nodes[r.session]? = some node2 ∧
          Auction.nodeOf s2 node0.Address = some node2 ∧
          node2.Address = node0.Address ∧ node2.Bid = 0 ∧
          (node0.Address ≠ w → node2.Balance = node0.Balance) ∧
          (node0.Address = w →
            nodeAt (Auction.refunded s1) s1.validators w =
              some (r.session, { node0 with Bid := 0 }) ∧
            Auction.priceCharged s1 w =
              min (Auction.cappedPrice (Auction.aggregate s1.bids []) w) node0.Balance ∧
            node2.Balance = node0.Balance - Auction.priceCharged s1 w) := by
  have hc : s0.Blockchain ≠ [] := (auction_reachable_bufferInv s0 hr).1.1
  obtain ⟨s1, hp, _, hbids, htemp, _, _, hmine⟩ :=
    auction_placeBids_spec reqs s0 hc hnd
      (fun r hr' => by
        obtain ⟨node, hn, _, _, hle⟩ := hok r hr'
        exact ⟨node, hn, hle⟩)
  rw [hb, List.nil_append] at hbids
  have hbpos : ∀ r ∈ reqs, 0 < r.bid ∧ r.bid < 9223372036854775808 := by
    intro r hrm
    obtain ⟨node, _, hrange, hpos, hle⟩ := hok r hrm
    exact ⟨hpos, by omega⟩
  have hagg : Auction.aggregate s1.bids [] =
      reqs.map (fun r => (Auction.sessionAddress s0.nodes r.session, r.bid)) := by
    rw [aggregate_distinct s1.bids []]
    · rw [hbids]
      simp [List.map_map, Function.comp]
    · rw [hbids]
      simpa [mapKeys, List.map_map, Function.comp] using hnd
    · intro b hbm
      rw [hbids] at hbm
      obtain ⟨r, hrm, rfl⟩ := List.mem_map.mp hbm
      exact hbpos r hrm
  have hposE : Auction.positiveEntries (Auction.aggregate s1.bids []) =
      Auction.aggregate s1.bids [] := by
    unfold Auction.positiveEntries
    rw [List.filter_eq_self]
    intro p hpm
    rw [hagg] at hpm
    obtain ⟨r, hrm, rfl⟩ := List.mem_map.mp hpm
    simpa using (hbpos r hrm).1
  have hkeys : ∀ a, a ∈ mapKeys (Auction.aggregate s1.bids []) ↔
      ∃ r ∈ reqs, Auction.sessionAddress s0.nodes r.session = a := by
    intro a
    rw [hagg]
    simp [mapKeys]
  have hws : Auction.weightSum (Auction.aggregate s1.bids []) = (reqs.map BidRequest.bid).sum := by
    unfold Auction.weightSum
    rw [hposE, hagg, List.map_map]
    rfl
  obtain ⟨r0, hr0⟩ := List.exists_mem_of_ne_nil reqs hne
  have hsumpos : 0 < (reqs.map BidRequest.bid).sum := by
    have h1 : ∀ x ∈ reqs.map BidRequest.bid, 0 ≤ x := by
      intro x hx
      obtain ⟨r, hrm, rfl⟩ := List.mem_map.mp hx
      exact le_of_lt (hbpos r hrm).1
    have h2 := List.single_le_sum h1 r0.bid (List.mem_map.mpr ⟨r0, hr0, rfl⟩)
    have := (hbpos r0 hr0).1
    omega
  have htot : Auction.totalWeight (Auction.aggregate s1.bids []) =
      (reqs.map BidRequest.bid).sum := by
    rw [totalWeight_eq_weightSum _ (by rw [hws]; exact hsum), hws]
  obtain ⟨w, hwin, hwmem⟩ :=
    weightedWinner_of_pos (Auction.aggregate s1.bids []) t (by rw [htot]; exact hsumpos)
  rw [hposE] at hwmem
  obtain ⟨rw, hrw, hrwa⟩ := (hkeys w).mp hwmem
  have hreg0 := auction_reachable_registryInv s0 hr
  have hwne : w ≠ "" := by
    obtain ⟨node, hn, _⟩ := hok rw hrw
    rw [← hrwa, sessionAddress_of_some _ _ _ hn]
    exact hreg0.2.1 node (List.getElem?_mem hn)
  have hround : Auction.roundWinner s1 t = some w := by
    unfold Auction.roundWinner
    have hlen : 0 < reqs.length := List.length_pos.mpr hne
    have h1 : ¬ (s1.tempBlocks.length = 0 ∨ s1.bids.length = 0) := by
      rintro (h | h)
      · omega
      · rw [hbids, List.length_map] at h
        omega
    have h2 : ¬ (Auction.aggregate s1.bids []).length = 0 := by
      intro h
      have hnil := List.length_eq_zero.mp h
      rw [hnil] at hwmem
      simp [mapKeys] at hwmem
    rw [if_neg h1, if_neg h2, hwin]
    simp only []
    rw [if_neg hwne]
  have hwpos := (roundWinner_some s1 t w hround).2.2.2.2.2
  have hcap := cappedPrice_bounds _ w hwpos
  have hptr1 := (auction_reachable_registryInv s1 (auction_placeBids_reachable reqs s0 s1 hr hp)).1
  have hptrR : Auction.PointerInv (Auction.refunded s1) s1.validators :=
    pointerInv_refund _ _ _ hptr1
  refine ⟨s1, _, w, hp, hround, pickWinner_of_winner s1 t w hround, ⟨rw, hrw, hrwa⟩, ?_⟩
  intro r hrm node0 hn0
  obtain ⟨n0, hn0', hrange, hpos, hle⟩ := hok r hrm
  rw [hn0] at hn0'
  cases hn0'
  obtain ⟨hn1, hv1⟩ := hmine r hrm node0 hn0
  have hrkey : node0.Address ∈ mapKeys (Auction.aggregate s1.bids []) :=
    (hkeys _).mpr ⟨r, hrm, sessionAddress_of_some _ _ _ hn0⟩
  have href : nodeAt (Auction.refunded s1) s1.validators node0.Address =
      some (r.session, { node0 with Bid := 0 }) := by
    unfold Auction.refunded
    rw [nodeAt_refund s1.validators _ s1.nodes hptr1 node0.Address r.session _
      ((nodeAt_eq_some _ _ _ _ _).mpr ⟨hv1, hn1⟩), if_pos hrkey]
    simp only [wrap64_add_wrap64, sub_add_cancel, wrap64_of_isInt64 _ hrange]
  have hrefN := ((nodeAt_eq_some _ _ _ _ _).mp href).2
  simp only [Auction.nodeOf]
  by_cases hwa : node0.Address = w
  · replace href : nodeAt (Auction.refunded s1) s1.validators w =
        some (r.session, { node0 with Bid := 0 }) := by
      rw [← hwa]
      exact href
    have hprice : Auction.priceCharged s1 w =
        min (Auction.cappedPrice (Auction.aggregate s1.bids []) w) node0.Balance := by
      unfold Auction.priceCharged
      rw [charge_of_nodeAt _ _ _ _ _ _ href]
    have hlt : r.session < (Auction.refunded s1).length := (List.getElem?_eq_some.mp hrefN).1
    have hmin1 := min_le_right (Auction.cappedPrice (Auction.aggregate s1.bids []) w)
      node0.Balance
    have hmin2 : 0 ≤ min (Auction.cappedPrice (Auction.aggregate s1.bids []) w)
        node0.Balance := le_min hcap.1 (by omega)
    have hnode2 : (Auction.charge s1.validators (Auction.refunded s1) w
        (Auction.cappedPrice (Auction.aggregate s1.bids []) w)).1[r.session]? =
        some { node0 with
          Balance := node0.Balance - Auction.priceCharged s1 w, Bid := 0 } := by
      rw [charge_of_nodeAt _ _ _ _ _ _ href]
      simp only []
      rw [List.getElem?_set, if_pos rfl, if_pos hlt, hprice,
        wrap64_of_isInt64 _ ⟨by omega, by omega⟩]
    refine ⟨_, hnode2, ?_, rfl, rfl, fun h => absurd hwa h, fun _ => ⟨href, hprice, rfl⟩⟩
    rw [(nodeAt_eq_some _ _ _ _ _).mpr ⟨hv1, hnode2⟩]
    rfl
  · have hnode2 : (Auction.charge s1.validators (Auction.refunded s1) w
        (Auction.cappedPrice (Auction.aggregate s1.bids []) w)).1[r.session]? =
        some { node0 with Bid := 0 } := by
      cases hk : nodeAt (Auction.refunded s1) s1.validators w with
      | none =>
        rw [charge_of_none _ _ _ _ hk]
        exact hrefN
      | some qn =>
        obtain ⟨q, nw⟩ := qn
        rw [charge_of_nodeAt _ _ _ _ _ _ hk]
        simp only []
        have hqne : q ≠ r.session := by
          intro hEq
          obtain ⟨hvq, _⟩ := (nodeAt_eq_some _ _ _ _ _).mp hk
          obtain ⟨n, hn, hna⟩ := hptrR w q hvq
          rw [hEq, hrefN] at hn
          cases hn
          exact hwa hna
        rw [List.getElem?_set_ne hqne]
        exact hrefN
    refine ⟨_, hnode2, ?_, rfl, rfl, fun _ => rfl, fun h => absurd h hwa⟩
    rw [(nodeAt_eq_some _ _ _ _ _).mpr ⟨hv1, hnode2⟩]
    rfl

/-! ## The lottery pool -/

theorem lottery_fillPool_count (validators : List (String × Node)) (temp : List Block)
    (pool pool' seen : List String)
    (hinv : ∀ a, pool.count a =
      if a ∈ seen ∧ 0 < balanceOf validators a then (balanceOf validators a).toNat else 0)
    (h : Lottery.fillPool validators temp pool = some pool') :
    ∀ a, pool'.count a =
      if a ∈ seen ++ temp.map Block.Validator ∧ 0 < balanceOf validators a then
        (balanceOf validators a).toNat
      else 0 := by
  induction temp generalizing pool seen with
  | nil =>
    unfold Lottery.fillPool at h
    cases h
    simpa using hinv
  | cons block rest ih =>
    unfold Lottery.fillPool at h
    have hseen : ∀ a, a ∈ seen ++ (block :: rest).map Block.Validator ↔
        a ∈ (seen ++ [block.Validator]) ++ rest.map Block.Validator := by
      intro a
      simp only [List.map_cons, List.mem_append, List.mem_cons, List.mem_singleton,
        List.not_mem_nil, or_false]
      tauto
    have hgoal : ∀ (p : List String),
        (∀ a, p.count a =
          if a ∈ seen ++ [block.Validator] ∧ 0 < balanceOf validators a then
            (balanceOf validators a).toNat
          else 0) →
        Lottery.fillPool validators rest p = some pool' →
        ∀ a, pool'.count a =
          if a ∈ seen ++ (block :: rest).map Block.Validator ∧ 0 < balanceOf validators a then
            (balanceOf validators a).toNat
          else 0 := by
      intro p hp hfp a
      have := ih p (seen ++ [block.Validator]) hp hfp a
      rw [this]
      by_cases hm : a ∈ seen ++ (block :: rest).map Block.Validator
      · have hm' := (hseen a).mp hm
        simp only [hm, hm', true_and]
      · have hm' : ¬ a ∈ (seen ++ [block.Validator]) ++ rest.map Block.Validator :=
          fun h' => hm ((hseen a).mpr h')
        simp only [hm, hm', false_and, if_false]
    by_cases hin : block.Validator ∈ pool
    · rw [if_pos hin] at h
      apply hgoal pool _ h
      intro a
      rw [hinv a]
      by_cases ha : a = block.Validator
      · have hpos : 0 < pool.count block.Validator := List.count_pos_iff.mpr hin
        rw [hinv] at hpos
        split_ifs at hpos with hc
        · rw [ha]
          have hc' : block.Validator ∈ seen ++ [block.Validator] ∧
              0 < balanceOf validators block.Validator :=
            ⟨List.mem_append_right _ (List.mem_singleton_self _), hc.2⟩
          rw [if_pos hc, if_pos hc']
        · omega
      · have : a ∈ seen ++ [block.Validator] ↔ a ∈ seen := by
          simp [ha]
        simp only [this]
    · rw [if_neg hin] at h
      cases hg : mapGet? validators block.Validator with
      | none => simp [hg] at h
      | some set =>
        simp only [hg] at h
        apply hgoal _ _ h
        intro a
        rw [List.count_append, hinv a]
        by_cases ha : a = block.Validator
        · rw [ha]
          have hzero : pool.count block.Validator = 0 := List.count_eq_zero.mpr hin
          rw [hinv] at hzero
          have hbal : balanceOf validators block.Validator = set.Balance := by
            simp [balanceOf, hg]
          rw [hzero, List.count_replicate_self, hbal]
          have hmem : block.Validator ∈ seen ++ [block.Validator] :=
            List.mem_append_right _ (List.mem_singleton_self _)
          by_cases hpos : 0 < set.Balance
          · simp [hmem, hpos]
          · have : set.Balance.toNat = 0 := by omega
            simp [hpos, this]
        · have hmem : a ∈ seen ++ [block.Validator] ↔ a ∈ seen := by
            simp [ha]
          have hrep : (List.replicate set.Balance.toNat block.Validator).count a = 0 := by
            apply List.count_eq_zero.mpr
            intro hmem'
            exact ha (List.eq_of_mem_replicate hmem')
          rw [hrep]
          simp only [hmem, add_zero]

theorem lottery_fillPool_total (validators : List (String × Node)) (temp : List Block)
    (pool : List String)
    (hreg : ∀ b ∈ temp, ∃ node, mapGet? validators b.Validator = some node) :
    ∃ pool', Lottery.fillPool validators temp pool = some pool' := by
  induction temp generalizing pool with
  | nil => exact ⟨pool, rfl⟩
  | cons block rest ih =>
    unfold Lottery.fillPool
    have hrest : ∀ b ∈ rest, ∃ node, mapGet? validators b.Validator = some node :=
      fun b hb => hreg b (List.mem_cons_of_mem _ hb)
    split_ifs
    · exact ih pool hrest
    · obtain ⟨node, hn⟩ := hreg block (List.mem_cons_self _ _)
      simp only [hn]
      exact ih _ hrest

theorem lottery_firstByValidator_some (blocks : List Block) (w : String)
    (h : ∃ b ∈ blocks, b.Validator = w) : ∃ b, Lottery.firstByValidator blocks w = some b := by
  induction blocks with
  | nil =>
    obtain ⟨b, hb, _⟩ := h
    exact absurd hb (List.not_mem_nil _)
  | cons x rest ih =>
    unfold Lottery.firstByValidator
    by_cases hx : x.Validator = w
    · exact ⟨x, by rw [if_pos hx]⟩
    · rw [if_neg hx]
      obtain ⟨b, hb, hbw⟩ := h
      rcases List.mem_cons.mp hb with hbx | hbr
      · rw [hbx] at hbw
        exact absurd hbw hx
      · exact ih ⟨b, hbr, hbw⟩

theorem lottery_pickWinner_of_pool (chain temp : List Block) (validators : List (String × Node))
    (pool : List String) (draw : Nat) (s' : Lottery.State) (hne : temp ≠ [])
    (h : Lottery.fillPool validators temp [] = some pool)
    (hs : Lottery.pickWinner ⟨chain, temp, validators⟩ draw = some s') :
    ∃ w, pool[draw]? = some w ∧
      ((∃ b, Lottery.firstByValidator temp w = some b ∧ s' = ⟨chain ++ [b], [], validators⟩) ∨
        (Lottery.firstByValidator temp w = none ∧ s' = ⟨chain, [], validators⟩)) := by
  unfold Lottery.pickWinner at hs
  simp only [] at hs
  have hlen : temp.length > 0 := List.length_pos.mpr hne
  rw [if_pos hlen, h] at hs
  simp only [] at hs
  split_ifs at hs with h0
  cases hd : pool[draw]? with
  | none => simp [hd] at hs
  | some w =>
    simp only [hd] at hs
    refine ⟨w, rfl, ?_⟩
    cases hf : Lottery.firstByValidator temp w with
    | none =>
      simp only [hf] at hs
      right
      exact ⟨rfl, (Option.some.inj hs).symm⟩
    | some b =>
      simp only [hf] at hs
      left
      exact ⟨b, rfl, (Option.some.inj hs).symm⟩

/-- C10: the pool that `pickWinner` fills from a candidate snapshot and a registry
holds each address as many times as its balance when the address is the Validator of
at least one candidate and its balance is positive, and no entry of it otherwise; so
no draw index selects an address whose balance is 0, and a round that completes on a
non-empty snapshot appends the first candidate of the drawn address, whose balance is
positive. The pool is built whenever every candidate names a registered address, and
with balances `{A:10, B:0, C:5}` and candidates from A and C it has 15 entries, 10 of
them A. -/
theorem lotteryPool_counts (validators : List (String × Node)) (temp : List Block)
    (pool : List String) (h : Lottery.fillPool validators temp [] = some pool) :
    (∀ a, pool.count a =
      if (∃ b ∈ temp, b.Validator = a) ∧ 0 < balanceOf validators a then
        (balanceOf validators a).toNat
      else 0) ∧
    (∀ (draw : Nat) (a : String), pool[draw]? = some a → balanceOf validators a ≠ 0) ∧
    (∀ (chain : List Block) (draw : Nat) (s' : Lottery.State), temp ≠ [] →
      Lottery.pickWinner ⟨chain, temp, validators⟩ draw = some s' →
        ∃ w b, pool[draw]? = some w ∧ 0 < balanceOf validators w ∧
          Lottery.firstByValidator temp w = some b ∧ s' = ⟨chain ++ [b], [], validators⟩) ∧
    (∀ (vs : List (String × Node)) (cs : List Block),
      (∀ b ∈ cs, ∃ node, mapGet? vs b.Validator = some node) →
        ∃ p, Lottery.fillPool vs cs [] = some p) ∧
    (∃ p, Lottery.fillPool Lottery.scenarioRegistry Lottery.scenarioCandidates [] = some p ∧
      p.length = 15 ∧ p.count "A" = 10 ∧ p.count "B" = 0 ∧ p.count "C" = 5) := by
  have hcount : ∀ a, pool.count a =
      if (∃ b ∈ temp, b.Validator = a) ∧ 0 < balanceOf validators a then
        (balanceOf validators a).toNat
      else 0 := by
    intro a
    have := lottery_fillPool_count validators temp [] pool [] (by simp) h a
    rw [this]
    have hm : a ∈ [] ++ temp.map Block.Validator ↔ ∃ b ∈ temp, b.Validator = a := by
      simp [List.mem_map]
    simp only [hm]
  have hdrawn : ∀ (draw : Nat) (a : String), pool[draw]? = some a →
      (∃ b ∈ temp, b.Validator = a) ∧ 0 < balanceOf validators a := by
    intro draw a hd
    have hmem : a ∈ pool := List.getElem?_mem hd
    have hpos : 0 < pool.count a := List.count_pos_iff.mpr hmem
    rw [hcount a] at hpos
    split_ifs at hpos with hc
    · exact hc
    · omega
  refine ⟨hcount, ?_, ?_, fun vs cs hreg => lottery_fillPool_total vs cs [] hreg, ?_⟩
  · intro draw a hd
    have := (hdrawn draw a hd).2
    omega
  · intro chain draw s' hne hs
    obtain ⟨w, hw, hcase⟩ := lottery_pickWinner_of_pool chain temp validators pool draw s' hne h hs
    obtain ⟨hex, hbal⟩ := hdrawn draw w hw
    rcases hcase with ⟨b, hb, hs'⟩ | ⟨hnone, _⟩
    · exact ⟨w, b, hw, hbal, hb, hs'⟩
    · obtain ⟨b, hb⟩ := lottery_firstByValidator_some temp w hex
      rw [hnone] at hb
      cases hb
  · exact ⟨List.replicate 10 "A" ++ List.replicate 5 "C", by decide, by decide, by decide,
      by decide, by decide⟩

/-! ## Rounds with nothing eligible -/

theorem aggregate_no_positive (bids : List BidItem) (weights : List (String × Int))
    (h : ∀ item ∈ bids, item.Bid ≤ 0) : Auction.aggregate bids weights = weights := by
  induction bids with
  | nil => rfl
  | cons b rest ih =>
    unfold Auction.aggregate
    rw [if_pos (h b (List.mem_cons_self _ _))]
    exact ih (fun item hi => h item (List.mem_cons_of_mem _ hi))

theorem auction_pickWinner_idle (s : Auction.State) (t : Int)
    (h : s.tempBlocks = [] ∨ ∀ item ∈ s.bids, item.Bid ≤ 0) :
    Auction.pickWinner s t = some (Auction.clearRound s) := by
  unfold Auction.pickWinner
  simp only []
  rcases h with h | h
  · rw [if_pos (Or.inl (by rw [h]; rfl))]
  · by_cases h1 : s.tempBlocks.length = 0 ∨ s.bids.length = 0
    · rw [if_pos h1]
    · rw [if_neg h1, if_pos (by rw [aggregate_no_positive s.bids [] h]; rfl)]

/-- C12: a round of the auction run with no candidate, or with no positive bid in
the buffer (an empty bid buffer included), returns and leaves `Blockchain`, every node
and the registry as they were, empties `tempBlocks` and `bids` and sets `miningCost`
to 0; a round of the lottery run with no candidate completes and leaves the whole
state as it was, the buffer being empty; in both programs a second such round changes
nothing more. -/
theorem idle_round_noop (sa : Auction.State) (sl : Lottery.State) (t t' : Int)
    (draw draw' : Nat)
    (ha : sa.tempBlocks = [] ∨ ∀ item ∈ sa.bids, item.Bid ≤ 0) (hl : sl.tempBlocks = []) :
    (∃ sa', Auction.pickWinner sa t = some sa' ∧
      sa'.Blockchain = sa.Blockchain ∧
      sa'.nodes = sa.nodes ∧ sa'.validators = sa.validators ∧
      Auction.registry sa' = Auction.registry sa ∧
      sa'.tempBlocks = [] ∧ sa'.bids = [] ∧
      sa'.miningCost = 0 ∧
      Auction.pickWinner sa' t' = some sa') ∧
    Lottery.pickWinner sl draw = some sl ∧
    (Lottery.pickWinner sl draw).bind (fun s => Lottery.pickWinner s draw') = some sl := by
  have h1 := auction_pickWinner_idle sa t ha
  have h2 : Auction.pickWinner (Auction.clearRound sa) t' = some (Auction.clearRound sa) := by
    rw [auction_pickWinner_idle (Auction.clearRound sa) t' (Or.inl rfl)]
    rfl
  have h3 : ∀ d, Lottery.pickWinner sl d = some sl := by
    intro d
    unfold Lottery.pickWinner
    simp only [hl, List.length_nil, gt_iff_lt, lt_self_iff_false, if_false]
    cases sl
    simp only [] at hl
    rw [hl]
  refine ⟨⟨Auction.clearRound sa, h1, rfl, rfl, rfl, rfl, rfl, rfl, ?_, h2⟩, h3 draw, ?_⟩
  · show Auction.updateMiningCost 0 = 0
    decide
  · rw [h3 draw]
    exact h3 draw'

/-! ## The empty lottery pool -/

theorem lottery_pickWinner_empty_pool (s : Lottery.State) (draw : Nat)
    (hne : s.tempBlocks ≠ [])
    (hp : Lottery.fillPool s.validators s.tempBlocks [] = some []) :
    Lottery.pickWinner s draw = none := by
  unfold Lottery.pickWinner
  simp only []
  rw [if_pos (List.length_pos.mpr hne), hp]
  rfl

/-! ## Candidates and bids come in pairs -/

theorem auction_handleBid_pairedInv (s s' : Auction.State) (session : Nat) (bpm bid : Int)
    (ts : String) (h : Auction.PairedInv s)
    (hs : Auction.handleBid s session bpm bid ts = some s') : Auction.PairedInv s' := by
  unfold Auction.handleBid at hs
  cases hn : s.nodes[session]? with
  | none => simp [hn] at hs
  | some node =>
    simp only [hn] at hs
    split_ifs at hs with hb
    · cases ht : s.Blockchain.getLast? with
      | none => simp [ht] at hs
      | some tip =>
        simp only [ht] at hs
        have hv : isBlockValid (Auction.generateBlock tip bpm node.Address ts) tip = true :=
          isBlockValid_of_linkOk _ _ (auction_generateBlock_linkOk tip bpm node.Address ts)
        rw [if_pos hv] at hs
        cases hs
        unfold Auction.PairedInv at h ⊢
        simp only [List.map_append, List.map_cons, List.map_nil]
        rw [h]
        rfl
    · cases hs
      exact h

theorem auction_reachable_pairedInv (s : Auction.State) (h : Auction.Reachable s) :
    Auction.PairedInv s := by
  induction h with
  | startup ts => rfl
  | register s ts balance _ ih => exact ih
  | bid s s' session bpm bid ts _ hs ih => exact auction_handleBid_pairedInv s s' _ _ _ _ ih hs
  | round s s' threshold _ hs _ _ _ =>
    unfold Auction.PairedInv
    rw [(auction_pickWinner_bids s s' threshold hs).1, (auction_pickWinner_bids s s' threshold hs).2]
    rfl

theorem auction_firstByProposer_some (blocks : List Block) (w : String)
    (h : w ∈ blocks.map Block.Proposer) :
    ∃ b, Auction.firstByProposer blocks w = some b := by
  induction blocks with
  | nil => simp at h
  | cons x rest ih =>
    unfold Auction.firstByProposer
    by_cases hx : x.Proposer = w
    · exact ⟨x, by rw [if_pos hx]⟩
    · rw [if_neg hx]
      apply ih
      simp only [List.map_cons, List.mem_cons] at h
      rcases h with h | h
      · exact absurd h.symm hx
      · exact h

/-- C14: in a round of a reachable state of the auction (every bid record was added
together with a candidate proposed by the bidder) that selects the winner `w`, the
snapshot holds a candidate whose Proposer is `w`; `selectBlockForWinner` returns the
first such candidate, not the fallback `blocks[0]` of a non-matching proposer and not
the empty block, and the round returns with an appended block that has `w` as its
Proposer and as its Validator. -/
theorem fallback_unused (s : Auction.State) (t : Int) (w : String)
    (hr : Auction.Reachable s) (hw : Auction.roundWinner s t = some w) :
    (∃ c ∈ s.tempBlocks, c.Proposer = w) ∧
    Auction.firstByProposer s.tempBlocks w =
      some (Auction.selectBlockForWinner s.tempBlocks w) ∧
    (Auction.selectBlockForWinner s.tempBlocks w).Proposer = w ∧
    Auction.selectBlockForWinner s.tempBlocks w ≠ Block.zero ∧
    ∃ b s', Auction.pickWinner s t = some s' ∧ s'.Blockchain = s.Blockchain ++ [b] ∧
      b.Proposer = w ∧ b.Validator = w ∧ b.Proposer = b.Validator := by
  obtain ⟨hne, _, _, hwne, hkey, _⟩ := roundWinner_some s t w hw
  obtain ⟨item, hi, hia, _⟩ := (mem_keys_aggregate s.bids w).mp hkey
  have hmem : w ∈ s.tempBlocks.map Block.Proposer := by
    rw [auction_reachable_pairedInv s hr]
    exact List.mem_map.mpr ⟨item, hi, hia⟩
  obtain ⟨b, hb⟩ := auction_firstByProposer_some s.tempBlocks w hmem
  obtain ⟨hbmem, hbw⟩ := auction_firstByProposer_mem s.tempBlocks w b hb
  have hsel : Auction.selectBlockForWinner s.tempBlocks w = b := by
    unfold Auction.selectBlockForWinner
    have hlen : ¬ s.tempBlocks.length = 0 := fun h => hne (List.length_eq_zero.mp h)
    rw [if_neg hlen, hb]
  rw [hsel]
  refine ⟨⟨b, hbmem, hbw⟩, hb, hbw, ?_, ?_⟩
  · intro hz
    rw [hz] at hbw
    exact hwne hbw.symm
  · refine ⟨{ b with Validator := w, Transfer := Auction.priceCharged s w }, _,
      pickWinner_of_winner s t w hw, ?_, hbw, rfl, hbw⟩
    simp only []
    rw [hsel]

/-! ## The mining fee -/

theorem round53_small (x : Nat) (h : x < 2 ^ 53) : Auction.round53 x = x := by
  unfold Auction.round53
  simp only []
  by_cases hx : x = 0
  · simp [hx]
  · have hlog : Nat.log2 x < 53 := (Nat.log2_lt hx).mpr h
    rw [if_neg hx, if_pos (by omega)]

theorem round53_large (x : Nat) (h : 2 ^ 53 ≤ x) :
    ∃ s, 1 ≤ s ∧ 2 ^ (s + 52) ≤ x ∧ x < 2 ^ (s + 53) ∧
      Auction.round53 x =
        (if 2 ^ (s - 1) < x % 2 ^ s ∨ (x % 2 ^ s = 2 ^ (s - 1) ∧ (x / 2 ^ s) % 2 = 1) then
          x / 2 ^ s + 1
        else x / 2 ^ s) * 2 ^ s := by
  have hx : x ≠ 0 := by
    intro h0
    rw [h0] at h
    simp at h
  have hlog : 53 ≤ Nat.log2 x := by
    by_contra hlt
    have := (Nat.log2_lt hx).mp (not_le.mp hlt)
    omega
  refine ⟨Nat.log2 x - 52, by omega, ?_, ?_, ?_⟩
  · have : Nat.log2 x - 52 + 52 = Nat.log2 x := by omega
    rw [this]
    exact Nat.log2_self_le hx
  · have : Nat.log2 x - 52 + 53 = Nat.log2 x + 1 := by omega
    rw [this]
    exact Nat.lt_log2_self
  · unfold Auction.round53
    simp only []
    rw [if_neg hx, if_neg (by omega)]
    have hs : Nat.log2 x + 1 - 53 = Nat.log2 x - 52 := by omega
    rw [hs, Nat.shiftLeft_eq, Nat.shiftRight_eq_div_pow]

theorem roundUp_lt (x P h M : Nat) (hP : P = 2 * h) (hx : x + h < M) :
    (if h < x % P ∨ (x % P = h ∧ (x / P) % 2 = 1) then x / P + 1 else x / P) * P < M := by
  have hdm := Nat.div_add_mod x P
  have hmul : P * (x / P) = x / P * P := Nat.mul_comm _ _
  split_ifs with hc
  · have hr : h ≤ x % P := by
      rcases hc with hc | hc
      · omega
      · omega
    rw [Nat.add_mul, Nat.one_mul]
    omega
  · omega

theorem roundUp_ge (x P h L : Nat) (hpos : 0 < P) (hdvd : P ∣ L) (hL : L ≤ x) :
    L ≤ (if h < x % P ∨ (x % P = h ∧ (x / P) % 2 = 1) then x / P + 1 else x / P) * P := by
  obtain ⟨l, rfl⟩ := hdvd
  have hl : l ≤ x / P := by
    rw [Nat.le_div_iff_mul_le hpos, Nat.mul_comm]
    exact hL
  have h1 : P * l ≤ x / P * P := by
    rw [Nat.mul_comm P l]
    exact Nat.mul_le_mul_right P hl
  split_ifs
  · rw [Nat.add_mul]
    omega
  · exact h1

theorem fee_quotient (n : Nat) (h : n < 6755399441055744) :
    Auction.round53 (Auction.round53 n * Auction.burnRateNum) / 2 ^ 56 = n / 20 := by
  rw [round53_small n (by norm_num; omega)]
  unfold Auction.burnRateNum
  have hlow : n / 20 * 2 ^ 56 ≤ n * 3602879701896397 := by
    norm_num
    omega
  by_cases hx : n * 3602879701896397 < 2 ^ 53
  · rw [round53_small _ hx]
    apply Nat.div_eq_of_lt_le
    · exact hlow
    · norm_num
      norm_num at hx
      omega
  · obtain ⟨s, hs1, hs2, _, hr⟩ := round53_large _ (not_lt.mp hx)
    have hs52 : s ≤ 52 := by
      by_contra hgt
      have hpow : 2 ^ 105 ≤ 2 ^ (s + 52) := Nat.pow_le_pow_right (by norm_num) (by omega)
      have : 2 ^ 105 ≤ n * 3602879701896397 := le_trans hpow hs2
      norm_num at this
      omega
    have hh : 2 ^ (s - 1) ≤ 2 ^ 51 := Nat.pow_le_pow_right (by norm_num) (by omega)
    have hP : 2 ^ s = 2 * 2 ^ (s - 1) := by
      have : s = (s - 1) + 1 := by omega
      conv_lhs => rw [this]
      rw [pow_succ]
      ring
    have hd56 : 2 ^ s ∣ 2 ^ 56 := pow_dvd_pow 2 (by omega)
    rw [hr]
    apply Nat.div_eq_of_lt_le
    · exact roundUp_ge _ _ _ _ (by positivity) (Dvd.dvd.mul_left hd56 _) hlow
    · apply roundUp_lt _ _ _ _ hP
      norm_num at hh ⊢
      omega

theorem updateMiningCost_quotient (c : Int) (h0 : 0 ≤ c) (h : c < 6755399441055744) :
    Auction.updateMiningCost c = c / 20 := by
  unfold Auction.updateMiningCost
  simp only []
  rw [if_neg (by omega)]
  have hn : c.natAbs < 6755399441055744 := by omega
  rw [fee_quotient c.natAbs hn]
  omega

theorem updateMiningCost_rounds_up :
    Auction.updateMiningCost 6755399441055759 = 337769972052788 := by
  unfold Auction.updateMiningCost
  simp only []
  rw [if_neg (by norm_num)]
  have hn : (6755399441055759 : Int).natAbs = 6755399441055759 := rfl
  rw [hn, round53_small 6755399441055759 (by norm_num)]
  obtain ⟨s, _, hs2, hs3, hr⟩ :=
    round53_large (6755399441055759 * Auction.burnRateNum) (by norm_num [Auction.burnRateNum])
  have hs : s = 52 := by
    by_contra hne
    rcases Nat.lt_or_gt_of_ne hne with hlt | hgt
    · have hpow : 2 ^ (s + 53) ≤ 2 ^ 104 := Nat.pow_le_pow_right (by norm_num) (by omega)
      have := lt_of_lt_of_le hs3 hpow
      norm_num [Auction.burnRateNum] at this
    · have hpow : 2 ^ 105 ≤ 2 ^ (s + 52) := Nat.pow_le_pow_right (by norm_num) (by omega)
      have := le_trans hpow hs2
      norm_num [Auction.burnRateNum] at this
  subst hs
  rw [hr]
  norm_num [Auction.burnRateNum]

theorem auction_priceCharged_nonneg (s : Auction.State) (t : Int) (w : String)
    (hr : Auction.Orderly s) (hw : Auction.roundWinner s t = some w) :
    0 ≤ Auction.priceCharged s w := by
  obtain ⟨_, _, _, _, hkey, hwpos⟩ := roundWinner_some s t w hw
  obtain ⟨hptr, _, hbidders⟩ := auction_reachable_registryInv s (auction_orderly_reachable s hr)
  obtain ⟨_, h2⟩ := auction_orderly_escrowInv s hr
  obtain ⟨item, hi, hia, hipos⟩ := (mem_keys_aggregate s.bids w).mp hkey
  obtain ⟨p, hp⟩ := hbidders item hi
  rw [hia] at hp
  obtain ⟨node, hnode, hna⟩ := hptr w p hp
  obtain ⟨_, hbal, hbal'⟩ := h2 p node hnode ⟨item, hi, hia.trans hna.symm, hipos⟩
  have hcap := cappedPrice_bounds _ w hwpos
  have href : nodeAt (Auction.refunded s) s.validators w =
      some (p, { node with Balance := node.Balance + node.Bid, Bid := 0 }) := by
    unfold Auction.refunded
    rw [nodeAt_refund s.validators _ s.nodes hptr w p node
      ((nodeAt_eq_some _ _ _ _ _).mpr ⟨hp, hnode⟩), if_pos hkey,
      wrap64_of_isInt64 _ ⟨by omega, hbal'⟩]
  unfold Auction.priceCharged
  rw [charge_of_nodeAt _ _ _ _ _ _ href]
  exact le_min hcap.1 hbal

theorem nodeAt_charge (validators : List (String × Nat)) (nodes : List Node) (w : String)
    (sp : Int) (hp : Auction.PointerInv nodes validators) (a : String) :
    nodeAt (Auction.charge validators nodes w sp).1 validators a =
      if a = w then
        (nodeAt nodes validators w).map (fun pn =>
          (pn.1, { pn.2 with
            Balance := wrap64 (pn.2.Balance - (Auction.charge validators nodes w sp).2) }))
      else nodeAt nodes validators a := by
  cases hk : nodeAt nodes validators w with
  | none =>
    rw [charge_of_none _ _ _ _ hk]
    by_cases ha : a = w
    · rw [if_pos ha, ha, hk]
      rfl
    · rw [if_neg ha]
  | some qn =>
    obtain ⟨q, n⟩ := qn
    rw [charge_of_nodeAt _ _ _ _ _ _ hk]
    obtain ⟨hvq, hnq⟩ := (nodeAt_eq_some _ _ _ _ _).mp hk
    have hlt : q < nodes.length := (List.getElem?_eq_some.mp hnq).1
    by_cases ha : a = w
    · rw [if_pos ha, ha]
      simp only [Option.map_some']
      rw [nodeAt_eq_some]
      exact ⟨hvq, by rw [List.getElem?_set, if_pos rfl, if_pos hlt]⟩
    · rw [if_neg ha]
      simp only []
      unfold nodeAt
      cases hva : mapGet? validators a with
      | none => rfl
      | some p =>
        simp only []
        have hne : q ≠ p := by
          intro hEq
          obtain ⟨n1, hn1, hn1a⟩ := hp a p hva
          obtain ⟨n2, hn2, hn2a⟩ := hp w q hvq
          rw [hEq, hn1] at hn2
          cases hn2
          exact ha (hn1a.symm.trans hn2a)
        rw [List.getElem?_set_ne hne]

/-- C13, as the code has it: after a round of a reachable state that selects the
winner `w`, the round returns and `miningCost` is `int(float64(priceCharged) *
burnRate)` of the charged price; it is the integer quotient of the price by 20
whenever the price is not negative and below `3 * 2^51 = 6755399441055744`, as
`updateMiningCost c = c / 20` for every `0 ≤ c < 3 * 2^51`, and the price is not
negative in an orderly execution. The fee is not taken from any balance: the nodes
after the round are the refunded nodes with the winner debited by the charged price
alone, the appended block carries that price as Transfer, and neither the ledger nor
the nodes after the round depend on the fee counter. -/
theorem miningCost_after_round (s : Auction.State) (t : Int) (w : String)
    (hr : Auction.Reachable s) (hw : Auction.roundWinner s t = some w) :
    ∃ s', Auction.pickWinner s t = some s' ∧
    s'.miningCost = Auction.updateMiningCost (Auction.priceCharged s w) ∧
    (0 ≤ Auction.priceCharged s w → Auction.priceCharged s w < 6755399441055744 →
      s'.miningCost = Auction.priceCharged s w / 20) ∧
    (Auction.Orderly s → 0 ≤ Auction.priceCharged s w) ∧
    (∀ c : Int, 0 ≤ c → c < 6755399441055744 → Auction.updateMiningCost c = c / 20) ∧
    s'.validators = s.validators ∧
    (∀ a, nodeAt s'.nodes s'.validators a =
      if a = w then
        (nodeAt (Auction.refunded s) s.validators w).map (fun pn =>
          (pn.1, { pn.2 with Balance := wrap64 (pn.2.Balance - Auction.priceCharged s w) }))
      else nodeAt (Auction.refunded s) s.validators a) ∧
    (∃ b, s'.Blockchain = s.Blockchain ++ [b] ∧ b.Transfer = Auction.priceCharged s w) ∧
    ∀ m : Int, ∃ s'', Auction.pickWinner { s with miningCost := m } t = some s'' ∧
      s''.Blockchain = s'.Blockchain ∧ s''.nodes = s'.nodes ∧
      s''.validators = s'.validators := by
  have hptr := (auction_reachable_registryInv s hr).1
  refine ⟨_, pickWinner_of_winner s t w hw, rfl, ?_,
    fun ho => auction_priceCharged_nonneg s t w ho hw, updateMiningCost_quotient, rfl, ?_,
    ⟨_, rfl, rfl⟩, ?_⟩
  · intro hnn hlt
    exact updateMiningCost_quotient _ hnn hlt
  · intro a
    exact nodeAt_charge s.validators (Auction.refunded s) w _
      (pointerInv_refund _ _ _ hptr) a
  · intro m
    have hw' : Auction.roundWinner { s with miningCost := m } t = some w := hw
    exact ⟨_, pickWinner_of_winner _ t w hw', rfl, rfl, rfl⟩

/-! ## Scenarios -/

set_option maxRecDepth 1000000

theorem eq_some_getD {α : Type} (o : Option α) (d : α) (h : o.isSome = true) :
    o = some (o.getD d) := by
  cases o with
  | none => cases h
  | some x => rfl

theorem auction_demoOpen_reachable : Auction.Reachable Auction.demoOpen :=
  Auction.Reachable.register _ _ _
    (Auction.Reachable.register _ _ _ (Auction.Reachable.startup demoStartTime))

theorem auction_demoBidding_eq :
    Auction.placeBids Auction.demoOpen Auction.demoRequests = some Auction.demoBidding :=
  eq_some_getD _ _ (by decide)

theorem auction_demoBidding_reachable : Auction.Reachable Auction.demoBidding :=
  auction_placeBids_reachable _ _ _ auction_demoOpen_reachable auction_demoBidding_eq

theorem auction_demoSettled_reachable : Auction.Reachable Auction.demoSettled :=
  Auction.Reachable.round Auction.demoBidding _ 0 auction_demoBidding_reachable
    (eq_some_getD _ _ (by decide)) (by decide) (by decide)

theorem lottery_demoOpen_reachable : Lottery.Reachable Lottery.demoOpen :=
  Lottery.Reachable.register _ _ _
    (Lottery.Reachable.register _ _ _ (Lottery.Reachable.startup demoStartTime))

theorem lottery_demoSettled_reachable : Lottery.Reachable Lottery.demoSettled :=
  Lottery.Reachable.round Lottery.demoBidding _ 0
    (Lottery.Reachable.bid Lottery.demoFirst _ demoBob 65 20 _
      (Lottery.Reachable.bid Lottery.demoOpen _ demoAlice 70 30 _ lottery_demoOpen_reachable
        (eq_some_getD _ _ (by decide)))
      (eq_some_getD _ _ (by decide)))
    (eq_some_getD _ _ (by decide))

theorem auction_demoWinner : Auction.roundWinner Auction.demoBidding 0 = some demoBob := by
  decide

theorem chain_invariant_witness :
    Auction.demoSettled.Blockchain.length = 2 ∧ Lottery.demoSettled.Blockchain.length = 2 ∧
      ChainLinked Auction.demoSettled.Blockchain ∧ ChainLinked Lottery.demoSettled.Blockchain :=
  ⟨by decide, by decide,
    chain_invariant Auction.demoSettled Lottery.demoSettled auction_demoSettled_reachable
      lottery_demoSettled_reachable⟩

theorem isBlockValid_iff_witness :
    isBlockValid edgeNew edgeOld = true ∧
      (isBlockValid edgeNew edgeOld = true ↔
        edgeNew.Index = -9223372036854775808 ∧ edgeOld.Hash = edgeNew.PrevHash ∧
          calculateBlockHash edgeNew = edgeNew.Hash) :=
  ⟨by decide, (isBlockValid_iff edgeNew edgeOld (by decide) (by decide)).2.2.1 (by decide)⟩

/-! ## Witnesses and counterexamples -/

theorem weightedWinner_of_zero_total (weights : List (String × Int)) (t : Int)
    (h : Auction.totalWeight weights = 0) : Auction.weightedWinner weights t = some "" := by
  unfold Auction.weightedWinner
  simp only []
  rw [if_pos (Or.inl h)]

theorem weightedWinner_of_neg_total (weights : List (String × Int)) (t : Int)
    (h : Auction.totalWeight weights < 0)
    (hk : (mapKeys (Auction.positiveEntries weights)).length ≠ 0) :
    Auction.weightedWinner weights t = none := by
  unfold Auction.weightedWinner
  simp only []
  rw [if_neg (by rintro (h' | h') <;> omega), if_pos (by omega)]

theorem auction_pickWinner_no_draw (s : Auction.State) (t : Int)
    (h : Auction.weightedWinner (Auction.aggregate s.bids []) t = some "") :
    Auction.pickWinner s t = some (Auction.clearRound s) := by
  unfold Auction.pickWinner
  simp only []
  split_ifs with h1 h2
  · rfl
  · rfl
  · rw [h]
    simp

theorem auction_orderly_bid (s s' : Auction.State) (session : Nat) (bpm bid : Int)
    (ts : String) (node : Node) (ho : Auction.Orderly s)
    (hn : s.nodes[session]? = some node)
    (hs : Auction.handleBid s session bpm bid ts = some s') (hb : isInt64 bid)
    (hr : isInt64 (node.Balance - bid)) : Auction.Orderly s' := by
  refine Auction.Orderly.bid s s' session bpm bid ts ho hs hb ?_
  intro n hn' _
  rw [hn] at hn'
  cases hn'
  exact hr

theorem auction_demoOpen_orderly : Auction.Orderly Auction.demoOpen :=
  Auction.Orderly.register _ _ _
    (Auction.Orderly.register _ _ _ (Auction.Orderly.startup demoStartTime) (by decide)
      (by decide))
    (by decide) (by decide)

theorem auction_demoBidding_orderly : Auction.Orderly Auction.demoBidding :=
  auction_orderly_bid Auction.demoFirst _ 1 65 20 "2024-03-01 12:00:11.5 +0000 UTC m=+11.5"
    ⟨demoBob, 50, 0⟩
    (auction_orderly_bid Auction.demoOpen _ 0 70 30 "2024-03-01 12:00:10.5 +0000 UTC m=+10.5"
      ⟨demoAlice, 100, 0⟩ auction_demoOpen_orderly (by decide) (eq_some_getD _ _ (by decide))
      (by decide) (by decide))
    (by decide) (by decide) (by decide) (by decide)

theorem weightedWinner_proportional_witness :
    Auction.weightedWinner Auction.demoWeights 2 = some "b" ∧
      Auction.totalWeight Auction.demoWeights = Auction.weightSum Auction.demoWeights :=
  ⟨by decide,
    (weightedWinner_proportional Auction.demoWeights 2 (by decide) (by decide) (by decide)
      (by decide)).1⟩

/-- C4, as the claim has it, fails three ways. For the weight map `{"": 1}` and the
threshold 0, which lies in `[0, 1)`, the result of `weightedWinner` is the empty
string. For four weights of `2^62`, whose sum `2^64` is reduced to the `int` 0, the
result is the empty string for every threshold, though every weight is positive. For
two weights of `2^62`, whose sum `2^63` is reduced to a negative `int`, `rng.Intn`
panics and there is no result. -/
theorem weightedWinner_not_proportional :
    ((mapKeys [(("" : String), (1 : Int))]).Nodup ∧
      (0 : Int) < Auction.totalWeight [("", 1)] ∧
      Auction.weightedWinner [("", 1)] 0 = some "") ∧
    ((mapKeys Auction.quadWeights).Nodup ∧ (∀ p ∈ Auction.quadWeights, 0 < p.2) ∧
      Auction.weightSum Auction.quadWeights = 18446744073709551616 ∧
      Auction.totalWeight Auction.quadWeights = 0 ∧
      ∀ t, Auction.weightedWinner Auction.quadWeights t = some "") ∧
    ((mapKeys Auction.pairWeights).Nodup ∧ (∀ p ∈ Auction.pairWeights, 0 < p.2) ∧
      Auction.weightSum Auction.pairWeights = 9223372036854775808 ∧
      Auction.totalWeight Auction.pairWeights = -9223372036854775808 ∧
      ∀ t, Auction.weightedWinner Auction.pairWeights t = none) :=
  ⟨⟨by decide, by decide, by decide⟩,
    ⟨by decide, by decide, by decide, by decide,
      fun t => weightedWinner_of_zero_total _ t (by decide)⟩,
    ⟨by decide, by decide, by decide, by decide,
      fun t => weightedWinner_of_neg_total _ t (by decide) (by decide)⟩⟩

theorem secondHighestBid_max_witness :
    Auction.firstOther [⟨"b", 5⟩, ⟨"a", 5⟩, ⟨"c", 1⟩] "a" = 5 ∧
      Auction.firstOther [⟨"b", 5⟩, ⟨"a", 5⟩, ⟨"c", 1⟩] "a" =
        Auction.secondHighestBid Auction.tiedWeights "a" :=
  ⟨by decide,
    (secondHighestBid_max Auction.tiedWeights "a" [⟨"b", 5⟩, ⟨"a", 5⟩, ⟨"c", 1⟩]
      (by decide) (by decide)).1⟩

theorem priceCharged_bounds_witness :
    Auction.priceCharged Auction.demoBidding demoBob = 20 ∧
      0 ≤ Auction.priceCharged Auction.demoBidding demoBob ∧
      Auction.priceCharged Auction.demoBidding demoBob ≤
        weightOf (Auction.aggregate Auction.demoBidding.bids []) demoBob :=
  ⟨by decide,
    (priceCharged_bounds Auction.demoBidding 0 demoBob auction_demoBidding_orderly
      auction_demoWinner).2.1,
    (priceCharged_bounds Auction.demoBidding 0 demoBob auction_demoBidding_orderly
      auction_demoWinner).2.2.1⟩

theorem auction_sharedBidding_reachable : Auction.Reachable Auction.sharedBidding :=
  auction_placeBids_reachable _ _ _
    (Auction.Reachable.register _ _ _
      (Auction.Reachable.register _ _ _ (Auction.Reachable.startup demoStartTime)))
    (eq_some_getD _ _ (by decide))

theorem auction_edgeBidding_reachable : Auction.Reachable Auction.edgeBidding :=
  auction_placeBids_reachable _ _ _
    (Auction.Reachable.register _ _ _ (Auction.Reachable.startup demoStartTime))
    (eq_some_getD _ _ (by decide))

/-- C6, as the claim has it, fails two ways. Two sessions admitted at the same
instant share one address; the first, with balance 100, bids 30 and the second, with
balance -50, bids -50: the round has one positive bidder, who wins, and the price
charged and recorded as Transfer is -50. A single session with the largest `int` as
balance bids 5, then -10, which makes `Balance -= bid` overflow, then the smallest
`int`: it wins the round as the only bidder and the price charged is
-9223372036854775804. -/
theorem priceCharged_negative :
    (Auction.Reachable Auction.sharedBidding ∧
      Auction.sharedBidding.nodes = [⟨demoAlice, 70, 30⟩, ⟨demoAlice, 0, -50⟩] ∧
      Auction.sharedBidding.bids = [⟨demoAlice, 30⟩, ⟨demoAlice, -50⟩] ∧
      Auction.roundWinner Auction.sharedBidding 0 = some demoAlice ∧
      Auction.priceCharged Auction.sharedBidding demoAlice = -50 ∧
      (Auction.pickWinner Auction.sharedBidding 0).map
          (fun s => (s.Blockchain.map Block.Transfer, s.nodes)) =
        some ([0, -50], [⟨demoAlice, 70, 30⟩, ⟨demoAlice, 0, 0⟩])) ∧
    (Auction.Reachable Auction.edgeBidding ∧
      Auction.edgeBidding.nodes = [⟨demoAlice, 4, -9223372036854775808⟩] ∧
      Auction.edgeBidding.bids =
        [⟨demoAlice, 5⟩, ⟨demoAlice, -10⟩, ⟨demoAlice, -9223372036854775808⟩] ∧
      Auction.roundWinner Auction.edgeBidding 0 = some demoAlice ∧
      Auction.priceCharged Auction.edgeBidding demoAlice = -9223372036854775804 ∧
      (Auction.pickWinner Auction.edgeBidding 0).map
          (fun s => (s.Blockchain.map Block.Transfer, s.nodes)) =
        some ([0, -9223372036854775804], [⟨demoAlice, 0, 0⟩])) :=
  ⟨⟨auction_sharedBidding_reachable, by decide, by decide, by decide, by decide, by decide⟩,
    ⟨auction_edgeBidding_reachable, by decide, by decide, by decide, by decide, by decide⟩⟩

/-- C7 fails on the code: a session with balance 100 that bids 30 and then 20 in one
round, beside an idle session with balance 50, wins the round at price 0, and the
registry then holds 120 tokens instead of the 150 it held before the bids: only the
last bid of the session is returned. -/
theorem rebid_loses_escrow :
    Auction.Reachable Auction.demoOpen ∧
      totalBalance (Auction.registry Auction.demoOpen) = 150 ∧
      (Auction.placeBids Auction.demoOpen Auction.rebidRequests).bind (fun s1 =>
        (Auction.pickWinner s1 0).map (fun s2 =>
          (Auction.roundWinner s1 0, Auction.priceCharged s1 demoAlice,
            totalBalance (Auction.registry s2), Auction.nodeOf s2 demoAlice, s2.nodes))) =
        some (some demoAlice, 0, 120, some ⟨demoAlice, 70, 0⟩,
          [⟨demoAlice, 70, 0⟩, ⟨demoBob, 50, 0⟩]) :=
  ⟨auction_demoOpen_reachable, by decide, by decide⟩

theorem auction_demoOpen_funded : ∀ r ∈ Auction.demoRequests, ∃ node,
    Auction.demoOpen.nodes[r.session]? = some node ∧ isInt64 node.Balance ∧ 0 < r.bid ∧
      r.bid ≤ node.Balance := by
  intro r hr
  simp only [Auction.demoRequests, List.mem_cons, List.mem_singleton, List.not_mem_nil,
    or_false] at hr
  rcases hr with rfl | rfl
  · exact ⟨⟨demoAlice, 100, 0⟩, by decide, by decide, by decide, by decide⟩
  · exact ⟨⟨demoBob, 50, 0⟩, by decide, by decide, by decide, by decide⟩

theorem refund_and_charge_witness :
    ∃ s1 s2 w, Auction.placeBids Auction.demoOpen Auction.demoRequests = some s1 ∧
      Auction.roundWinner s1 0 = some w ∧ Auction.pickWinner s1 0 = some s2 ∧
      ∃ r ∈ Auction.demoRequests, Auction.sessionAddress Auction.demoOpen.nodes r.session = w :=
  let ⟨s1, s2, w, h1, h2, h3, h4, _⟩ :=
    refund_and_charge Auction.demoOpen Auction.demoRequests 0 auction_demoOpen_reachable rfl
      (by decide) (by decide) auction_demoOpen_funded (by decide)
  ⟨s1, s2, w, h1, h2, h3, h4⟩

theorem auction_quadOpen_reachable : Auction.Reachable Auction.quadOpen :=
  Auction.Reachable.register _ _ _
    (Auction.Reachable.register _ _ _
      (Auction.Reachable.register _ _ _
        (Auction.Reachable.register _ _ _ (Auction.Reachable.startup demoStartTime))))

theorem auction_quadOpen_funded : ∀ r ∈ Auction.quadRequests, ∃ node,
    Auction.quadOpen.nodes[r.session]? = some node ∧ isInt64 node.Balance ∧ 0 < r.bid ∧
      r.bid ≤ node.Balance := by
  intro r hr
  simp only [Auction.quadRequests, List.mem_cons, List.mem_singleton, List.not_mem_nil,
    or_false] at hr
  rcases hr with rfl | rfl | rfl | rfl
  · exact ⟨⟨demoAlice, 4611686018427387904, 0⟩, by decide, by decide, by decide, by decide⟩
  · exact ⟨⟨demoBob, 4611686018427387904, 0⟩, by decide, by decide, by decide, by decide⟩
  · exact ⟨⟨demoCarol, 4611686018427387904, 0⟩, by decide, by decide, by decide, by decide⟩
  · exact ⟨⟨demoDave, 4611686018427387904, 0⟩, by decide, by decide, by decide, by decide⟩

/-- C8, as the claim has it, fails two ways. Four sessions with a balance of `2^62`
each bid `2^62`, each once, positive and not above its balance: the total of the
weights is reduced to the `int` 0, `pickWinner` selects no winner for any threshold
and clears the round before the refund loop, and every bidder is left with balance 0
and its pending Bid. And a round that runs between the two halves of a pass of the
bidding loop, after the bid is recorded and before its candidate reaches `tempBlocks`,
finds no candidate and clears the bid record: the bidder is left with 70 of its 100
and a pending Bid of 30, also once the candidate has arrived. -/
theorem refund_skipped :
    (Auction.Reachable Auction.quadOpen ∧ Auction.quadOpen.bids = [] ∧
      (Auction.quadRequests.map
        (fun r => Auction.sessionAddress Auction.quadOpen.nodes r.session)).Nodup ∧
      (∀ r ∈ Auction.quadRequests, ∃ node,
        Auction.quadOpen.nodes[r.session]? = some node ∧ isInt64 node.Balance ∧ 0 < r.bid ∧
          r.bid ≤ node.Balance) ∧
      Auction.placeBids Auction.quadOpen Auction.quadRequests = some Auction.quadBidding ∧
      Auction.quadBidding.tempBlocks.length = 4 ∧
      Auction.totalWeight (Auction.aggregate Auction.quadBidding.bids []) = 0 ∧
      (∀ t, Auction.roundWinner Auction.quadBidding t = none ∧
        Auction.pickWinner Auction.quadBidding t =
          some (Auction.clearRound Auction.quadBidding)) ∧
      (Auction.clearRound Auction.quadBidding).nodes =
        [⟨demoAlice, 0, 4611686018427387904⟩, ⟨demoBob, 0, 4611686018427387904⟩,
         ⟨demoCarol, 0, 4611686018427387904⟩, ⟨demoDave, 0, 4611686018427387904⟩]) ∧
    (Auction.handleBid Auction.demoOpen 0 70 30 "2024-03-01 12:00:10.5 +0000 UTC m=+10.5" =
        (Auction.recordBid Auction.demoOpen 0 30).bind
          (fun s1 => Auction.submitCandidate s1 demoAlice 70
            "2024-03-01 12:00:10.5 +0000 UTC m=+10.5") ∧
      Auction.recordBid Auction.demoOpen 0 30 = some Auction.halfBidding ∧
      Auction.halfBidding.bids = [⟨demoAlice, 30⟩] ∧ Auction.halfBidding.tempBlocks = [] ∧
      (∀ t, Auction.pickWinner Auction.halfBidding t =
        some (Auction.clearRound Auction.halfBidding)) ∧
      (Auction.submitCandidate (Auction.clearRound Auction.halfBidding) demoAlice 70
          "2024-03-01 12:00:10.5 +0000 UTC m=+10.5").map
        (fun s => (s.nodes, s.bids, s.tempBlocks.map Block.Proposer)) =
        some ([⟨demoAlice, 70, 30⟩, ⟨demoBob, 50, 0⟩], [], [demoAlice])) :=
  ⟨⟨auction_quadOpen_reachable, rfl, by decide, auction_quadOpen_funded,
      eq_some_getD _ _ (by decide), by decide, by decide,
      fun t => ⟨by
        unfold Auction.roundWinner
        rw [weightedWinner_of_zero_total _ t (by decide)]
        simp,
        auction_pickWinner_no_draw _ t (weightedWinner_of_zero_total _ t (by decide))⟩,
      by decide⟩,
    ⟨auction_handleBid_split Auction.demoOpen 0 70 30 _ ⟨demoAlice, 100, 0⟩ (by decide)
        (by decide),
      eq_some_getD _ _ (by decide), by decide, by decide,
      fun t => auction_pickWinner_idle _ t (Or.inl (by decide)), by decide⟩⟩

theorem pickWinner_appends_selected_witness :
    ∃ c b s', (Auction.demoBidding.tempBlocks.find? (fun x => decide (x.Proposer = demoBob)) =
          some c ∨
        (Auction.demoBidding.tempBlocks.find? (fun x => decide (x.Proposer = demoBob)) = none ∧
          Auction.demoBidding.tempBlocks.head? = some c)) ∧
      Auction.pickWinner Auction.demoBidding 0 = some s' ∧
      s'.Blockchain = Auction.demoBidding.Blockchain ++ [b] ∧
      b.Validator = demoBob ∧ b.Transfer = Auction.priceCharged Auction.demoBidding demoBob ∧
      b.Index = c.Index ∧ b.Timestamp = c.Timestamp ∧ b.BPM = c.BPM ∧ b.Hash = c.Hash ∧
      b.PrevHash = c.PrevHash ∧ b.Proposer = c.Proposer :=
  pickWinner_appends_selected Auction.demoBidding 0 demoBob auction_demoWinner

theorem lotteryPool_counts_witness :
    (List.replicate 10 "A" ++ List.replicate 5 "C").count "A" =
      if (∃ b ∈ Lottery.scenarioCandidates, b.Validator = "A") ∧
          0 < balanceOf Lottery.scenarioRegistry "A" then
        (balanceOf Lottery.scenarioRegistry "A").toNat
      else 0 :=
  (lotteryPool_counts Lottery.scenarioRegistry Lottery.scenarioCandidates
    (List.replicate 10 "A" ++ List.replicate 5 "C") (by decide)).1 "A"

theorem lottery_drainedBidding_reachable : Lottery.Reachable Lottery.drainedBidding :=
  Lottery.Reachable.bid Lottery.demoOpen _ demoAlice 70 100 _ lottery_demoOpen_reachable
    (eq_some_getD _ _ (by decide))

/-- C11 fails on the code: after a session with balance 100 has staked 100, the
round buffer holds its candidate and its balance is 0, the pool stays empty, and for
every draw index `pickWinner` panics (`Intn` of 0) instead of completing without a
winner. -/
theorem lottery_empty_pool_panics :
    Lottery.Reachable Lottery.drainedBidding ∧
      Lottery.drainedBidding.tempBlocks.length = 1 ∧
      (∀ b ∈ Lottery.drainedBidding.tempBlocks,
        balanceOf Lottery.drainedBidding.validators b.Validator = 0) ∧
      Lottery.fillPool Lottery.drainedBidding.validators Lottery.drainedBidding.tempBlocks [] =
        some [] ∧
      ∀ draw, Lottery.pickWinner Lottery.drainedBidding draw = none :=
  ⟨lottery_drainedBidding_reachable, by decide, by decide, by decide,
    fun draw => lottery_pickWinner_empty_pool _ draw (by decide) (by decide)⟩

theorem idle_round_noop_witness :
    (∃ sa', Auction.pickWinner Auction.demoSettled 0 = some sa' ∧
        sa'.Blockchain = Auction.demoSettled.Blockchain ∧
        sa'.nodes = Auction.demoSettled.nodes ∧ Auction.pickWinner sa' 5 = some sa') ∧
      Lottery.pickWinner Lottery.demoSettled 3 = some Lottery.demoSettled :=
  ⟨Exists.elim
      (idle_round_noop Auction.demoSettled Lottery.demoSettled 0 5 3 4 (Or.inl (by decide))
        (by decide)).1
      (fun sa' h => ⟨sa', h.1, h.2.1, h.2.2.1, h.2.2.2.2.2.2.2.2⟩),
    (idle_round_noop Auction.demoSettled Lottery.demoSettled 0 5 3 4 (Or.inl (by decide))
      (by decide)).2.1⟩

theorem fallback_unused_witness :
    Auction.firstByProposer Auction.demoBidding.tempBlocks demoBob =
        some (Auction.selectBlockForWinner Auction.demoBidding.tempBlocks demoBob) ∧
      (Auction.selectBlockForWinner Auction.demoBidding.tempBlocks demoBob).Proposer = demoBob :=
  ⟨(fallback_unused Auction.demoBidding 0 demoBob auction_demoBidding_reachable
      auction_demoWinner).2.1,
    (fallback_unused Auction.demoBidding 0 demoBob auction_demoBidding_reachable
      auction_demoWinner).2.2.1⟩

theorem auction_whaleBidding_reachable : Auction.Reachable Auction.whaleBidding :=
  auction_placeBids_reachable _ _ _
    (Auction.Reachable.register _ _ _
      (Auction.Reachable.register _ _ _ (Auction.Reachable.startup demoStartTime)))
    (eq_some_getD _ _ (by decide))

theorem auction_whaleWinner : Auction.roundWinner Auction.whaleBidding 0 = some demoBob := by
  decide

theorem auction_whalePrice :
    Auction.priceCharged Auction.whaleBidding demoBob = 6755399441055759 := by
  decide

/-- C13, as the claim has it, fails: two sessions with a balance of `2^53` each bid
6755399441055759, a value below `2^53`; the winner is charged 6755399441055759 and
`miningCost` becomes 337769972052788, one more than the quotient by 20. -/
theorem fee_exceeds_quotient :
    Auction.Reachable Auction.whaleBidding ∧
      Auction.roundWinner Auction.whaleBidding 0 = some demoBob ∧
      Auction.priceCharged Auction.whaleBidding demoBob = 6755399441055759 ∧
      (6755399441055759 : Int) < 2 ^ 53 ∧
      (Auction.pickWinner Auction.whaleBidding 0).map Auction.State.miningCost =
        some 337769972052788 ∧
      (6755399441055759 : Int) / 20 = 337769972052787 ∧
      Auction.updateMiningCost 6755399441055759 ≠ 6755399441055759 / 20 := by
  refine ⟨auction_whaleBidding_reachable, auction_whaleWinner, auction_whalePrice,
    by norm_num, ?_, by norm_num, ?_⟩
  · rw [pickWinner_of_winner _ 0 demoBob auction_whaleWinner]
    show some (Auction.updateMiningCost (Auction.priceCharged Auction.whaleBidding demoBob)) = _
    rw [auction_whalePrice, updateMiningCost_rounds_up]
  · rw [updateMiningCost_rounds_up]
    norm_num

theorem miningCost_after_round_witness :
    ∃ s', Auction.pickWinner Auction.demoBidding 0 = some s' ∧
      s'.miningCost =
        Auction.updateMiningCost (Auction.priceCharged Auction.demoBidding demoBob) :=
  let ⟨s', h1, h2, _⟩ :=
    miningCost_after_round Auction.demoBidding 0 demoBob auction_demoBidding_reachable
      auction_demoWinner
  ⟨s', h1, h2⟩

end PoS
